import Mathlib

/-!
Verification of the BL4 save-editor core against its specification.

The definitions below are shallow embeddings of the Rust sources
`bl3_save_edit_core/src/bl4.rs` and `bl3_save_edit_core/src/bl4_serial.rs`:
pure Rust functions become Lean functions, machine integers become `Nat`/`Int`
with explicit `% 2^w` where overflow matters, byte buffers become `List Nat`,
bit streams become `List Bool`, and fallible functions return `Except`.
Third-party library routines (AES block cipher, zlib/deflate) are taken as
parameters constrained by their documented contracts; everything written in
the repository itself is embedded concretely.
-/

set_option maxHeartbeats 2000000
set_option maxRecDepth 100000

deriving instance DecidableEq for Except

namespace Bl4

/-- Lowercase one ASCII letter, the per-character behaviour of Rust
`str::to_ascii_lowercase`. -/
def asciiLowerChar (c : Char) : Char :=
  if 'A' ≤ c ∧ c ≤ 'Z' then Char.ofNat (c.toNat + 32) else c

/-- Model of Rust `str::to_ascii_lowercase`. -/
def asciiLower (s : String) : String :=
  ⟨s.data.map asciiLowerChar⟩

/-- Substring containment on character lists; model of Rust `str::contains`
with a literal pattern. -/
def listContains (hay needle : List Char) : Bool :=
  match hay with
  | [] => needle.isEmpty
  | _ :: t => needle.isPrefixOf hay || listContains t needle

/-- Model of Rust `str::contains` for `String`s. -/
def strContains (hay needle : String) : Bool :=
  listContains hay.data needle.data

/-- Embedding of `mission_status_is_active` (bl4.rs): lower-case the status,
reject the empty string, the exact string "none", and anything containing
complete/finished/deactivated/inactive, then require one of the positive
markers. -/
def mission_status_is_active (status : String) : Bool :=
  let lowered := asciiLower status
  if lowered.isEmpty || lowered == "none" || strContains lowered "complete"
      || strContains lowered "finished" || strContains lowered "deactivated"
      || strContains lowered "inactive" then
    false
  else
    strContains lowered "active" || strContains lowered "inprogress"
      || strContains lowered "started" || strContains lowered "running"
      || strContains lowered "pending"

/-- Modelled from the spec: the classifier exactly as claim C5 states it, with
"none" and "empty" treated as negative substrings of the lower-cased status. -/
def missionActiveSpecClaim (status : String) : Bool :=
  let lowered := asciiLower status
  (["complete", "finished", "deactivated", "inactive", "none", "empty"].all
      (fun w => !(strContains lowered w)))
    && (["active", "inprogress", "started", "running", "pending"].any
      (fun w => strContains lowered w))

/-- The corrected classifier: the negative tests are emptiness, equality with
"none", and the four negative substrings actually checked by the code. -/
def missionActiveAmended (status : String) : Bool :=
  let lowered := asciiLower status
  (!lowered.isEmpty) && !(lowered == "none")
    && (["complete", "finished", "deactivated", "inactive"].all
      (fun w => !(strContains lowered w)))
    && (["active", "inprogress", "started", "running", "pending"].any
      (fun w => strContains lowered w))

/-- Embedding of the constant `BASE_KEY` (bl4.rs). -/
def BASE_KEY : List Nat :=
  [0x35, 0xEC, 0x33, 0x77, 0xF3, 0x5D, 0xB0, 0xEA,
   0xBE, 0x6B, 0x83, 0x11, 0x54, 0x03, 0xEB, 0xFB,
   0x27, 0x25, 0x64, 0x2E, 0xD5, 0x49, 0x06, 0x29,
   0x05, 0x78, 0xBD, 0x60, 0xBA, 0x4A, 0xA7, 0x87]

/-- Little-endian byte decomposition of a `u64`, the model of
`u64::to_le_bytes`. -/
def u64_to_le_bytes (n : Nat) : List Nat :=
  (List.range 8).map (fun i => n / 256 ^ i % 256)

/-- The ASCII digits of a string, as collected by `derive_key`. -/
def digitsOf (s : String) : List Char :=
  s.data.filter Char.isDigit

/-- Decimal value of a digit string, the semantics of a successful
`str::parse::<u64>` on a string of ASCII digits. -/
def decimalValue (ds : List Char) : Nat :=
  ds.foldl (fun acc c => acc * 10 + (c.toNat - '0'.toNat)) 0

/-- Embedding of `derive_key` (bl4.rs): keep the ASCII digits of the account
id, parse them as a `u64` (failing when empty or out of the `u64` range), and
XOR the little-endian bytes of that integer into the first 8 bytes of
`BASE_KEY`. -/
def derive_key (steamid : String) : Except String (List Nat) :=
  let digits := digitsOf steamid
  if digits.isEmpty then
    .error "steamid must contain digits"
  else if decimalValue digits < 2 ^ 64 then
    let sid_le := u64_to_le_bytes (decimalValue digits)
    .ok (List.zipWith (fun b s => b ^^^ s) (BASE_KEY.take 8) sid_le ++ BASE_KEY.drop 8)
  else
    .error "number too large to fit in target type"

/-- Embedding of the constant `B85_CHARSET` (bl4_serial.rs), the alphabet the
item-serial base85 codec actually uses. -/
def B85_CHARSET : List Nat :=
  "0123456789ABCDEFGHIJKLMNOPQRSTUVWXYZabcdefghijklmnopqrstuvwxyz!#$%&()*+-;<=>?@^_`\x7b/\x7d~".data.map Char.toNat

/-- Embedding of `B85_PADDING` (bl4_serial.rs): the byte value of the
character `~`, which the decoder multiplies in when padding short groups. -/
def B85_PADDING : Nat := 126

/-- Modelled from the spec: the 85-character alphabet that the specification
(§4.2) and claim C4 assert the base85 codec uses. -/
def specClaimedB85Alphabet : List Nat :=
  "ABCDEFGHIJKLMNOPQRSTUVWXYZabcdefghijklmnopqrstuvwxyz0123456789+/=!$%&*()[]\x7b\x7d~`^_<>?#;".data.map Char.toNat

/-- Embedding of the constant `CHARSET` (bl4.rs), the 85-character table used
by the legacy 6-bit `bit_pack_encode`/`bit_pack_decode` codec. -/
def CHARSET : List Nat :=
  "ABCDEFGHIJKLMNOPQRSTUVWXYZabcdefghijklmnopqrstuvwxyz0123456789+/=!$%&*()[]\x7b\x7d~`^_<>?#;".data.map Char.toNat

/-- Embedding of the `REVERSE_LOOKUP` table (bl4_serial.rs): a 256-entry table
mapping a byte to its alphabet index, or -1 when the byte is not in the
alphabet. -/
def REVERSE_LOOKUP : List Int :=
  B85_CHARSET.enum.foldl (fun table p => table.set p.2 (Int.ofNat p.1))
    (List.replicate 256 (-1))

/-- Indexing into `REVERSE_LOOKUP` by a byte value. -/
def reverseLookupAt (b : Nat) : Int :=
  REVERSE_LOOKUP.getD b (-1)

/-- Embedding of `mirror_byte` (bl4_serial.rs): reverse the 8 bits of a byte
by the three swap steps of the source. -/
def mirror_byte (b : Nat) : Nat :=
  let b1 := (b &&& 0xF0) >>> 4 ||| (b &&& 0x0F) <<< 4
  let b2 := (b1 &&& 0xCC) >>> 2 ||| (b1 &&& 0x33) <<< 2
  (b2 &&& 0xAA) >>> 1 ||| (b2 &&& 0x55) <<< 1

/-- Embedding of `mirror_bits` (bl4_serial.rs): reverse the low `count` bits
of `value`. -/
def mirror_bits (value : Nat) (count : Nat) : Nat :=
  (List.range count).foldl
    (fun out i => if value.testBit i then out ||| 1 <<< (count - 1 - i) else out) 0

/-- Embedding of `BitWriter::write_n`: the low `count` bits of `value` in
MSB-first order. -/
def write_n (value : Nat) (count : Nat) : List Bool :=
  (List.range count).map (fun k => value.testBit (count - 1 - k))

/-- Embedding of `BitReader::read_bit`, over the remaining bit list. -/
def readBit : List Bool → Option (Bool × List Bool)
  | [] => none
  | b :: t => some (b, t)

/-- Embedding of `BitReader::read_bits`: MSB-first accumulation of `count`
bits; fails when `count` is 0, above 32, or past the end of the stream. -/
def read_bits (count : Nat) (bits : List Bool) : Option (Nat × List Bool) :=
  if count = 0 ∨ count > 32 ∨ bits.length < count then none
  else some ((bits.take count).foldl (fun v b => 2 * v + b.toNat) 0, bits.drop count)

/-- Embedding of the bit-count computation at the head of `write_varint`:
`32 - leading_zeros` for a `u32`, clamped to 16 (the dead `== 0` guard of the
source maps 0 to 4). -/
def varint_bits_needed (value : Nat) : Nat :=
  let bn := if value = 0 then 1 else Nat.log2 value + 1
  let bn := if bn > 16 then 16 else bn
  if bn = 0 then 4 else bn

/-- Embedding of the block-emission loop of `write_varint`: each iteration
extracts the low 4 bits (the source's `value & 1` / `value >>= 1` loop),
mirrors them, and emits a continuation bit. -/
def write_varint_loop (value bitsNeeded : Nat) : List Bool :=
  if bitsNeeded > 4 then
    write_n (mirror_bits (value % 16) 4) 4 ++ [true] ++
      write_varint_loop (value / 16) (bitsNeeded - 4)
  else
    write_n (mirror_bits (value % 2 ^ min bitsNeeded 4) 4) 4 ++ [false]
termination_by bitsNeeded
decreasing_by omega

/-- Embedding of `write_varint` (bl4_serial.rs). -/
def write_varint (value : Nat) : List Bool :=
  write_varint_loop value (varint_bits_needed value)

/-- Embedding of the 4-iteration block loop of `read_varint`. -/
def read_varint_loop : Nat → Nat → Nat → List Bool → Except String (Nat × List Bool)
  | 0, _, output, bits => .ok (output, bits)
  | Nat.succ fuel, dataRead, output, bits =>
    match read_bits 4 bits with
    | none => .error "unexpected end of data while reading varint block"
    | some (block, rest) =>
      let output := output ||| mirror_bits block 4 <<< dataRead
      match readBit rest with
      | none => .error "unexpected end of data while reading varint continuation"
      | some (cont, rest2) =>
        if cont then read_varint_loop fuel (dataRead + 4) output rest2
        else .ok (output, rest2)

/-- Embedding of `read_varint` (bl4_serial.rs). -/
def read_varint (bits : List Bool) : Except String (Nat × List Bool) :=
  read_varint_loop 4 0 0 bits

/-- Embedding of `write_varbit` (bl4_serial.rs): 5-bit mirrored length prefix,
then the value bits in LSB-first order. -/
def write_varbit (value : Nat) : List Bool :=
  let bits := if value = 0 then 1 else Nat.log2 value + 1
  let bits := if bits > 31 then 31 else bits
  write_n (mirror_bits bits 5) 5 ++ (List.range bits).map (fun i => value.testBit i)

/-- Embedding of the LSB-first value loop of `read_varbit`. -/
def read_varbit_value : Nat → Nat → Nat → List Bool → Except String (Nat × List Bool)
  | 0, _, value, bits => .ok (value, bits)
  | Nat.succ k, i, value, bits =>
    match readBit bits with
    | none => .error "unexpected end of data while reading varbit value"
    | some (b, rest) => read_varbit_value k (i + 1) (value ||| b.toNat <<< i) rest

/-- Embedding of `read_varbit` (bl4_serial.rs). -/
def read_varbit (bits : List Bool) : Except String (Nat × List Bool) :=
  match read_bits 5 bits with
  | none => .error "unexpected end of data while reading varbit length"
  | some (len, rest) =>
    let mirroredLength := mirror_bits len 5
    if mirroredLength = 0 then .ok (0, rest)
    else read_varbit_value mirroredLength 0 0 rest

/-- UTF-8 encoding of one scalar value; model of how Rust `String::as_bytes`
represents each character. -/
def utf8EncodeChar (c : Char) : List Nat :=
  let n := c.toNat
  if n < 0x80 then [n]
  else if n < 0x800 then [0xC0 ||| n >>> 6, 0x80 ||| n &&& 0x3F]
  else if n < 0x10000 then
    [0xE0 ||| n >>> 12, 0x80 ||| n >>> 6 &&& 0x3F, 0x80 ||| n &&& 0x3F]
  else
    [0xF0 ||| n >>> 18, 0x80 ||| n >>> 12 &&& 0x3F, 0x80 ||| n >>> 6 &&& 0x3F,
     0x80 ||| n &&& 0x3F]

/-- The UTF-8 bytes of a string; model of Rust `String::as_bytes`. -/
def strBytes (s : String) : List Nat :=
  (s.data.map utf8EncodeChar).flatten

/-- Whether a byte is a UTF-8 continuation byte. -/
def isUtf8Cont (b : Nat) : Bool :=
  0x80 ≤ b && b < 0xC0

/-- Decoding of one UTF-8 scalar: the leading byte and the continuation
bytes it requires (rejecting overlong forms, surrogates, and out-of-range
scalars), returning the character and the remaining bytes. -/
def utf8DecodeStep (b : Nat) (rest : List Nat) : Option (Char × List Nat) :=
  if b < 0x80 then some (Char.ofNat b, rest)
  else if b < 0xC2 then none
  else if b < 0xE0 then
    match rest with
    | b1 :: rest2 =>
      if isUtf8Cont b1 then
        some (Char.ofNat ((b - 0xC0) <<< 6 ||| (b1 - 0x80)), rest2)
      else none
    | [] => none
  else if b < 0xF0 then
    match rest with
    | b1 :: b2 :: rest2 =>
      if isUtf8Cont b1 && isUtf8Cont b2
          && (b ≠ 0xE0 || b1 ≥ 0xA0) && (b ≠ 0xED || b1 < 0xA0) then
        some (Char.ofNat ((b - 0xE0) <<< 12 ||| (b1 - 0x80) <<< 6 ||| (b2 - 0x80)), rest2)
      else none
    | _ => none
  else if b ≤ 0xF4 then
    match rest with
    | b1 :: b2 :: b3 :: rest2 =>
      if isUtf8Cont b1 && isUtf8Cont b2 && isUtf8Cont b3
          && (b ≠ 0xF0 || b1 ≥ 0x90) && (b ≠ 0xF4 || b1 < 0x90) then
        some (Char.ofNat ((b - 0xF0) <<< 18 ||| (b1 - 0x80) <<< 12
          ||| (b2 - 0x80) <<< 6 ||| (b3 - 0x80)), rest2)
      else none
    | _ => none
  else none

/-- The scalar loop of UTF-8 decoding; each step consumes at least one byte,
so any fuel of at least the byte count is equivalent to the source loop. -/
def utf8DecodeLoop : Nat → List Nat → Option (List Char)
  | _, [] => some []
  | 0, _ :: _ => none
  | Nat.succ fuel, b :: rest =>
    match utf8DecodeStep b rest with
    | some (c, rest2) => (utf8DecodeLoop fuel rest2).map (c :: ·)
    | none => none

/-- Strict UTF-8 decoding; model of Rust `String::from_utf8` (rejecting
overlong forms, surrogates, and out-of-range scalars). -/
def utf8Decode (bs : List Nat) : Option (List Char) :=
  utf8DecodeLoop bs.length bs

/-- Embedding of `write_string` (bl4_serial.rs): a VarInt byte length, then
each byte mirrored as a 7-bit group. -/
def write_string (value : String) : List Bool :=
  write_varint (strBytes value).length ++
    ((strBytes value).map (fun byte => write_n (mirror_bits byte 7) 7)).flatten

/-- Embedding of the character loop of `read_string`. -/
def read_string_bytes : Nat → List Bool → Except String (List Nat × List Bool)
  | 0, bits => .ok ([], bits)
  | Nat.succ k, bits =>
    match read_bits 7 bits with
    | none => .error "unexpected end of data while reading string char"
    | some (v, rest) =>
      match read_string_bytes k rest with
      | .error e => .error e
      | .ok (bs, rest2) => .ok (mirror_bits v 7 :: bs, rest2)

/-- Embedding of `read_string` (bl4_serial.rs). -/
def read_string (bits : List Bool) : Except String (String × List Bool) :=
  match read_varint bits with
  | .error e => .error e
  | .ok (length, rest) =>
    match read_string_bytes length rest with
    | .error e => .error e
    | .ok (bs, rest2) =>
      match utf8Decode bs with
      | some cs => .ok (⟨cs⟩, rest2)
      | none => .error "invalid utf-8 in string token"

/-- Embedding of `PartSubType` (bl4_serial.rs). -/
inductive PartSubType where
  | none
  | int
  | list
deriving DecidableEq, Repr

/-- Embedding of `Part` (bl4_serial.rs). -/
structure Part where
  index : Nat
  subtype : PartSubType
  value : Nat
  values : List Nat
deriving DecidableEq, Repr

/-- Embedding of `Token` (bl4_serial.rs). -/
inductive Token where
  | sep1
  | sep2
  | varInt (value : Nat)
  | varBit (value : Nat)
  | part (p : Part)
  | str (s : String)
deriving DecidableEq, Repr

/-- Embedding of `TokenKind` (bl4_serial.rs). -/
inductive TokenKind where
  | sep1
  | sep2
  | varInt
  | varBit
  | part
  | str
deriving DecidableEq, Repr

/-- Embedding of `Tokenizer::next_token`: a 2-bit tag, extended to 3 bits for
the non-separator tokens; `none` when fewer than the required bits remain. -/
def next_token (bits : List Bool) : Except String (Option (TokenKind × List Bool)) :=
  match bits with
  | [] => .ok none
  | [_] => .ok none
  | b1 :: b2 :: rest =>
    if !b1 && !b2 then .ok (some (.sep1, rest))
    else if !b1 && b2 then .ok (some (.sep2, rest))
    else
      match rest with
      | [] => .ok none
      | b3 :: rest2 =>
        match b1, b2, b3 with
        | true, false, false => .ok (some (.varInt, rest2))
        | true, true, false => .ok (some (.varBit, rest2))
        | true, false, true => .ok (some (.part, rest2))
        | true, true, true => .ok (some (.str, rest2))
        | _, _, _ => .error "invalid token"

/-- Embedding of `Tokenizer::expect`. -/
def expectBits : List Bool → List Bool → Except String (List Bool)
  | [], bits => .ok bits
  | e :: es, bits =>
    match bits with
    | [] => .error "unexpected end of data"
    | b :: rest => if b = e then expectBits es rest else .error "unexpected bit"

/-- Embedding of the value loop of `read_part`'s List branch; `fuel` bounds
the iteration count (each iteration consumes at least two bits, so any fuel
of at least the remaining bit count is equivalent to the source loop). -/
def read_part_list_loop : Nat → List Nat → List Bool → Except String (List Nat × List Bool)
  | 0, _, _ => .error "unexpected end of data inside part list"
  | Nat.succ fuel, values, bits =>
    match next_token bits with
    | .error e => .error e
    | .ok Option.none => .error "unexpected end of data inside part list"
    | .ok (some (.sep1, rest)) => .ok (values, rest)
    | .ok (some (.varInt, rest)) =>
      match read_varint rest with
      | .error e => .error e
      | .ok (v, rest2) => read_part_list_loop fuel (values ++ [v]) rest2
    | .ok (some (.varBit, rest)) =>
      match read_varbit rest with
      | .error e => .error e
      | .ok (v, rest2) => read_part_list_loop fuel (values ++ [v]) rest2
    | .ok (some _) => .error "unexpected token inside part list"

/-- Embedding of `read_part` (bl4_serial.rs). -/
def read_part (fuel : Nat) (bits : List Bool) : Except String (Part × List Bool) :=
  match read_varint bits with
  | .error e => .error e
  | .ok (index, rest) =>
    match readBit rest with
    | Option.none => .error "unexpected end of data while reading part flag"
    | some (firstFlag, rest1) =>
      if firstFlag then
        match read_varint rest1 with
        | .error e => .error e
        | .ok (value, rest2) =>
          match expectBits [false, false, false] rest2 with
          | .error e => .error e
          | .ok rest3 =>
            .ok ({ index := index, subtype := .int, value := value, values := [] }, rest3)
      else
        match read_bits 2 rest1 with
        | Option.none => .error "unexpected end of data while reading part flag 2"
        | some (secondFlag, rest2) =>
          if secondFlag = 2 then
            .ok ({ index := index, subtype := .none, value := 0, values := [] }, rest2)
          else if secondFlag = 1 then
            match next_token rest2 with
            | .error e => .error e
            | .ok Option.none => .error "expected TOK_SEP2 at start of part list"
            | .ok (some (.sep2, rest3)) =>
              match read_part_list_loop fuel [] rest3 with
              | .error e => .error e
              | .ok (values, rest4) =>
                .ok ({ index := index, subtype := .list, value := 0, values := values }, rest4)
            | .ok (some _) => .error "expected TOK_SEP2 at start of part list"
          else .error "unknown part subtype flag"

/-- The per-value encoding inside a List part of `write_part`
(bl4_serial.rs): the shorter of the VarInt and VarBit forms, with the
corresponding tag. -/
def part_value_bits (value : Nat) : List Bool :=
  if (write_varint value).length ≤ (write_varbit value).length then
    [true, false, false] ++ write_varint value
  else
    [true, true, false] ++ write_varbit value

/-- Embedding of `write_part` (bl4_serial.rs), including the per-value choice
between VarInt and VarBit encodings inside a List part. -/
def write_part (p : Part) : List Bool :=
  write_varint p.index ++
    match p.subtype with
    | .none => [false, true, false]
    | .int => [true] ++ write_varint p.value ++ [false, false, false]
    | .list =>
      [false, false, true] ++ [false, true] ++
        (p.values.map part_value_bits).flatten ++
        [false, false]

/-- The seven-bit magic prefix of every token stream. -/
def magicBits : List Bool :=
  [false, false, true, false, false, false, false]

/-- The bits a single token contributes to the stream, with the tag bits of
`serialize` (bl4_serial.rs). -/
def token_bits : Token → List Bool
  | .sep1 => [false, false]
  | .sep2 => [false, true]
  | .varInt v => [true, false, false] ++ write_varint v
  | .varBit v => [true, true, false] ++ write_varbit v
  | .part p => [true, false, true] ++ write_part p
  | .str s => [true, true, true] ++ write_string s

/-- The full bit stream `serialize` writes before byte packing. -/
def serialize_bits (tokens : List Token) : List Bool :=
  magicBits ++ (tokens.map token_bits).flatten

/-- MSB-first value of up to eight bits. -/
def byte_of_bits (bs : List Bool) : Nat :=
  bs.foldl (fun a b => 2 * a + b.toNat) 0

/-- Packing of a bit stream into bytes with zero fill, the behaviour of
`BitWriter::into_vec`. -/
def bits_to_bytes : List Bool → List Nat
  | [] => []
  | b :: rest =>
    byte_of_bits ((b :: rest).take 8 ++ List.replicate (8 - (b :: rest).length) false) ::
      bits_to_bytes ((b :: rest).drop 8)
termination_by bits => bits.length
decreasing_by simp; omega

/-- The bit stream of a byte buffer, MSB-first per byte, the order used by
`BitReader`. -/
def bytesToBits (bytes : List Nat) : List Bool :=
  (bytes.map (fun b => write_n b 8)).flatten

/-- The five base-85 digits of a 32-bit group, most significant first, as
computed by the reverse digit loop of `encode_base85`. -/
def digits5 (value : Nat) : List Nat :=
  [value / 85 ^ 4 % 85, value / 85 ^ 3 % 85, value / 85 ^ 2 % 85, value / 85 % 85,
   value % 85]

/-- The alphabet character for one base-85 digit. -/
def charOfDigit (d : Nat) : Char :=
  Char.ofNat (B85_CHARSET.getD d 0)

/-- Embedding of the grouping loops of `encode_base85`: full 4-byte groups as
five digits, then the final partial group shifted high and truncated to
`k + 1` digits. -/
def encode_groups : List Nat → List Char
  | b0 :: b1 :: b2 :: b3 :: rest =>
    let value := b0 <<< 24 ||| b1 <<< 16 ||| b2 <<< 8 ||| b3
    (digits5 value).map charOfDigit ++ encode_groups rest
  | [] => []
  | rem =>
    let value := rem.foldl (fun v b => v <<< 8 ||| b) 0 <<< ((4 - rem.length) * 8)
    ((digits5 value).take (rem.length + 1)).map charOfDigit

/-- Embedding of `encode_base85` (bl4_serial.rs). -/
def encode_base85 (data : List Nat) : String :=
  if data = [] then "@U"
  else ⟨'@' :: 'U' :: encode_groups (data.map mirror_byte)⟩

/-- Embedding of the inner symbol-collection loop of `decode_base85`: consume
characters, skipping those outside the alphabet, until five symbols are
accumulated or the input ends, with the checked-overflow accumulation of the
source. -/
def decode_take (chars : List Char) (value : Nat) (count : Nat) :
    Except String (Nat × Nat × List Char) :=
  match chars with
  | [] => .ok (value, count, [])
  | c :: rest =>
    if count < 5 then
      let mapped := if c.toNat < 256 then reverseLookupAt c.toNat else -1
      if 0 ≤ mapped then
        if value * 85 + mapped.toNat < 2 ^ 32 then
          decode_take rest (value * 85 + mapped.toNat) (count + 1)
        else .error "base85 accumulator overflow"
      else decode_take rest value count
    else .ok (value, count, chars)

/-- Embedding of the padding loop of `decode_base85`: multiply in the
`B85_PADDING` byte value until five symbols are accounted for. -/
def padValue : Nat → Nat → Except String Nat
  | v, 0 => .ok v
  | v, Nat.succ k =>
    if v * 85 + B85_PADDING < 2 ^ 32 then padValue (v * 85 + B85_PADDING) k
    else .error "base85 padding overflow"

/-- Embedding of the outer group loop of `decode_base85`; `fuel` bounds the
number of groups (each non-final group consumes at least one character). -/
def decode_groups (fuel : Nat) (chars : List Char) (acc : List Nat) :
    Except String (List Nat) :=
  match fuel with
  | 0 => .error "base85 decode fuel exhausted"
  | Nat.succ fuel =>
    match decode_take chars 0 0 with
    | .error e => .error e
    | .ok (value, count, rest) =>
      if count = 0 then .ok acc
      else
        match padValue value (5 - count) with
        | .error e => .error e
        | .ok v =>
          let bytesOut := [v >>> 24 &&& 0xFF, v >>> 16 &&& 0xFF, v >>> 8 &&& 0xFF,
            v &&& 0xFF]
          let byteCount := if count < 5 then count - 1 else 4
          decode_groups fuel rest (acc ++ bytesOut.take byteCount)

/-- Embedding of `decode_base85` (bl4_serial.rs). -/
def decode_base85 (serial : String) : Except String (List Nat) :=
  match serial.data with
  | '@' :: 'U' :: payload =>
    match decode_groups (payload.length + 1) payload [] with
    | .error e => .error e
    | .ok bytes => .ok (bytes.map mirror_byte)
  | _ => .error "serial must start with @U"

/-- Embedding of the token loop of `deserialize`, threading the running
count of consecutive trailing Sep1 tokens; `fuel` bounds the iteration count
(each iteration consumes at least two bits). -/
def deserialize_loop (fuel : Nat) (bits : List Bool) (tokens : List Token)
    (trailing : Nat) : Except String (List Token × Nat) :=
  match fuel with
  | 0 => .error "deserialize fuel exhausted"
  | Nat.succ fuel =>
    match next_token bits with
    | .error e => .error e
    | .ok Option.none => .ok (tokens, trailing)
    | .ok (some (.sep1, rest)) =>
      deserialize_loop fuel rest (tokens ++ [.sep1]) (trailing + 1)
    | .ok (some (.sep2, rest)) =>
      deserialize_loop fuel rest (tokens ++ [.sep2]) 0
    | .ok (some (.varInt, rest)) =>
      match read_varint rest with
      | .error e => .error e
      | .ok (v, rest2) => deserialize_loop fuel rest2 (tokens ++ [.varInt v]) 0
    | .ok (some (.varBit, rest)) =>
      match read_varbit rest with
      | .error e => .error e
      | .ok (v, rest2) => deserialize_loop fuel rest2 (tokens ++ [.varBit v]) 0
    | .ok (some (.part, rest)) =>
      match read_part (rest.length + 1) rest with
      | .error e => .error e
      | .ok (p, rest2) => deserialize_loop fuel rest2 (tokens ++ [.part p]) 0
    | .ok (some (.str, rest)) =>
      match read_string rest with
      | .error e => .error e
      | .ok (s, rest2) => deserialize_loop fuel rest2 (tokens ++ [.str s]) 0

/-- Rendering of a byte buffer as a 0/1 string, `BitReader::as_bit_string`. -/
def as_bit_string (bytes : List Nat) : String :=
  ⟨(bytesToBits bytes).map (fun b => if b then '1' else '0')⟩

/-- Embedding of `deserialize` (bl4_serial.rs): base85 decode, magic prefix,
token loop, and the truncation of extra trailing Sep1 tokens. -/
def deserialize (serial : String) : Except String (List Token × String) :=
  match decode_base85 serial with
  | .error e => .error e
  | .ok bytes =>
    let bits := bytesToBits bytes
    match expectBits magicBits bits with
    | .error e => .error e
    | .ok rest =>
      match deserialize_loop (rest.length + 1) rest [] 0 with
      | .error e => .error e
      | .ok (tokens, trailing) =>
        let tokens :=
          if trailing > 1 then tokens.take (tokens.length - (trailing - 1)) else tokens
        .ok (tokens, as_bit_string bytes)

/-- Embedding of `serialize` (bl4_serial.rs): magic prefix, token bits, byte
packing with zero fill, base85 encode. The source's `Result` return is always
`Ok`, so the embedding returns the string directly. -/
def serialize (tokens : List Token) : String :=
  encode_base85 (bits_to_bytes (serialize_bits tokens))

/-- Embedding of `find_int_at_pos` (bl4.rs): the value of the `pos`-th
VarInt/VarBit token. -/
def find_int_at_pos : List Token → Nat → Option Nat
  | [], _ => Option.none
  | .varInt v :: rest, pos => if pos = 0 then some v else find_int_at_pos rest (pos - 1)
  | .varBit v :: rest, pos => if pos = 0 then some v else find_int_at_pos rest (pos - 1)
  | _ :: rest, pos => find_int_at_pos rest pos

/-- Index-tracking companion of `find_int_at_pos`, embedding
`find_int_token_index` (bl4.rs). -/
def find_int_token_index_from (idx : Nat) : List Token → Nat → Option Nat
  | [], _ => Option.none
  | .varInt _ :: rest, pos =>
    if pos = 0 then some idx else find_int_token_index_from (idx + 1) rest (pos - 1)
  | .varBit _ :: rest, pos =>
    if pos = 0 then some idx else find_int_token_index_from (idx + 1) rest (pos - 1)
  | _ :: rest, pos => find_int_token_index_from (idx + 1) rest pos

/-- Embedding of `find_int_token_index` (bl4.rs). -/
def find_int_token_index (tokens : List Token) (pos : Nat) : Option Nat :=
  find_int_token_index_from 0 tokens pos

/-- The search loop of `find_level_token_indices` (bl4.rs): walk integer
ordinals two at a time from position 2, stopping at the first marker equal to
1; `fuel` bounds the loop (it fails once the ordinal passes the number of
integer tokens, so any fuel above half the token count is equivalent). -/
def find_level_indices_loop (tokens : List Token) : Nat → Nat → Option (Nat × Nat)
  | 0, _ => Option.none
  | Nat.succ fuel, pos =>
    match find_int_token_index tokens pos with
    | Option.none => Option.none
    | some marker_idx =>
      let marker_value :=
        match tokens.get? marker_idx with
        | some (.varInt v) => some v
        | some (.varBit v) => some v
        | _ => Option.none
      match marker_value with
      | Option.none => Option.none
      | some v =>
        if v = 1 then
          match find_int_token_index tokens (pos + 1) with
          | Option.none => Option.none
          | some value_idx => some (marker_idx, value_idx)
        else find_level_indices_loop tokens fuel (pos + 2)

/-- Embedding of `find_level_token_indices` (bl4.rs). -/
def find_level_token_indices (tokens : List Token) : Option (Nat × Nat) :=
  find_level_indices_loop tokens (tokens.length + 1) 2

/-- Embedding of `DecodedPart` (bl4.rs). -/
structure DecodedPart where
  token_index : Nat
  index : Nat
  subtype : PartSubType
  values : List Nat
  label : Option String
  part_type : Option String
  description : Option String
  effects : Option String
  value_labels : List (Option String)
deriving DecidableEq, Repr

/-- The ItemCatalog tables of bl4_data.rs are large embedded CSV lookups that
none of the claims depend on; the model treats every lookup as missing, which
affects only the optional label fields of `DecodedPart` and the
manufacturer/item-type labels of the model. -/
def lookup_item_type (_ : Nat) : Option (String × String) :=
  Option.none

/-- Companion stub for `bl4_data::lookup_part`; see `lookup_item_type`. -/
def lookup_part (_ _ : String) (_ : Nat) :
    Option (String × String × String × String) :=
  Option.none

/-- Embedding of `resolve_part_label` (bl4.rs) over the stubbed catalog. -/
def resolve_part_label (manufacturer item_type : String) (id : Nat) : Option String :=
  if manufacturer.isEmpty || item_type.isEmpty then Option.none
  else (lookup_part manufacturer item_type id).bind (fun _ => Option.none)

/-- Embedding of the per-part construction of `decode_parts` (bl4.rs). -/
def decode_part_at (token_index : Nat) (manufacturer item_type : String) (p : Part) :
    DecodedPart :=
  let base : DecodedPart :=
    { token_index := token_index, index := p.index, subtype := p.subtype,
      values := [], label := Option.none, part_type := Option.none,
      description := Option.none, effects := Option.none, value_labels := [] }
  match p.subtype with
  | .none => base
  | .int =>
    { base with
      values := [p.value]
      value_labels := [resolve_part_label manufacturer item_type p.value] }
  | .list =>
    { base with
      values := p.values
      value_labels := p.values.map (resolve_part_label manufacturer item_type) }

/-- The enumeration loop of `decode_parts` (bl4.rs). -/
def decode_parts_from (idx : Nat) (manufacturer item_type : String) :
    List Token → List DecodedPart
  | [] => []
  | .part p :: rest =>
    decode_part_at idx manufacturer item_type p ::
      decode_parts_from (idx + 1) manufacturer item_type rest
  | _ :: rest => decode_parts_from (idx + 1) manufacturer item_type rest

/-- Embedding of `decode_parts` (bl4.rs). -/
def decode_parts (tokens : List Token) (item_info : Option (String × String)) :
    List DecodedPart :=
  let mi := match item_info with
    | some info => info
    | Option.none => ("", "")
  decode_parts_from 0 mi.1 mi.2 tokens

/-- Rendering of one `Part` for the debug token text (`Display for Part`). -/
def partToString (p : Part) : String :=
  match p.subtype with
  | .none => "\x7b" ++ toString p.index ++ "\x7d"
  | .int => "\x7b" ++ toString p.index ++ ":" ++ toString p.value ++ "\x7d"
  | .list =>
    "\x7b" ++ toString p.index ++ ":[" ++
      String.intercalate " " (p.values.map toString) ++ "]\x7d"

/-- Escaping of a string token for the debug token text. -/
def escapeStr (s : String) : String :=
  ⟨(s.data.map (fun c =>
      if c = '\\' then ['\\', '\\'] else if c = '"' then ['\\', '"'] else [c])).flatten⟩

/-- Embedding of `tokens_to_string` (bl4_serial.rs). -/
def tokens_to_string (tokens : List Token) : String :=
  (tokens.enum.foldl (fun out p =>
    match p.2 with
    | .sep1 => out ++ "|"
    | .sep2 => out ++ ","
    | .varInt v => (if p.1 > 0 then out ++ " " else out) ++ toString v
    | .varBit v => (if p.1 > 0 then out ++ " " else out) ++ toString v
    | .part pt => (if p.1 > 0 then out ++ " " else out) ++ partToString pt
    | .str s => (if p.1 > 0 then out ++ " " else out) ++ "\"" ++ escapeStr s ++ "\"") "")

/-- Embedding of `Bl4ItemModel` (bl4.rs). -/
structure Bl4ItemModel where
  original_serial : String
  tokens : List Token
  token_text : String
  bit_string : String
  manufacturer_index : Option Nat
  manufacturer : Option String
  item_type : Option String
  level : Option Nat
  level_marker_token_index : Option Nat
  level_value_token_index : Option Nat
  parts : List DecodedPart
deriving Repr

/-- Embedding of `Bl4ItemModel::refresh_metadata` (bl4.rs). -/
def refresh_metadata (m : Bl4ItemModel) : Bl4ItemModel :=
  let info := (find_int_at_pos m.tokens 0).bind lookup_item_type
  let levelIdx := find_level_token_indices m.tokens
  let serial := serialize m.tokens
  { m with
    token_text := tokens_to_string m.tokens
    manufacturer_index := find_int_at_pos m.tokens 0
    manufacturer := info.map Prod.fst
    item_type := info.map Prod.snd
    level_marker_token_index := levelIdx.map Prod.fst
    level_value_token_index := levelIdx.map Prod.snd
    level :=
      match levelIdx with
      | some (_, vi) =>
        match m.tokens.get? vi with
        | some (.varInt v) => some v
        | some (.varBit v) => some v
        | _ => Option.none
      | Option.none => Option.none
    parts := decode_parts m.tokens info
    original_serial := serial
    bit_string :=
      match deserialize serial with
      | .ok (_, bits) => bits
      | .error _ => m.bit_string }

/-- Embedding of `Bl4ItemModel::decode` (bl4.rs). -/
def Bl4ItemModel.decode (serial : String) : Except String Bl4ItemModel :=
  match deserialize serial with
  | .error e => .error e
  | .ok (tokens, bit_string) =>
    .ok (refresh_metadata
      { original_serial := serial, tokens := tokens, token_text := ""
        bit_string := bit_string, manufacturer_index := Option.none
        manufacturer := Option.none, item_type := Option.none, level := Option.none
        level_marker_token_index := Option.none
        level_value_token_index := Option.none, parts := [] })

/-- Embedding of `Bl4ItemModel::set_level` (bl4.rs), returning the post-call
model together with the `Result`; on an error the model is returned
unchanged, as the source bails before mutating. -/
def set_level (m : Bl4ItemModel) (new_level : Nat) : Bl4ItemModel × Except String Unit :=
  match m.level_value_token_index with
  | Option.none => (m, .error "level token not found in serial")
  | some idx =>
    match m.tokens.get? idx with
    | Option.none => (m, .error "level token index out of bounds")
    | some (.varInt _) =>
      (refresh_metadata { m with tokens := m.tokens.set idx (.varInt new_level) }, .ok ())
    | some (.varBit _) =>
      (refresh_metadata { m with tokens := m.tokens.set idx (.varBit new_level) }, .ok ())
    | some _ => (m, .error "unexpected token kind for level")

/-- Embedding of `Bl4ItemModel::set_part_values` (bl4.rs), returning the
post-call model together with the `Result`; on an error the model is returned
unchanged, as the source bails before mutating. -/
def set_part_values (m : Bl4ItemModel) (part_idx : Nat) (new_values : List Nat) :
    Bl4ItemModel × Except String Unit :=
  match m.parts.get? part_idx with
  | Option.none => (m, .error "part index out of bounds")
  | some dp =>
    match m.tokens.get? dp.token_index with
    | Option.none => (m, .error "part token index out of bounds")
    | some (.part p) =>
      match p.subtype with
      | .none => (m, .error "part does not support value overrides")
      | .int =>
        if new_values.length ≠ 1 then
          (m, .error "int subtypes require exactly one value")
        else
          (refresh_metadata
            { m with tokens :=
                m.tokens.set dp.token_index (.part { p with value := new_values.headD 0 }) },
            .ok ())
      | .list =>
        (refresh_metadata
          { m with tokens :=
              m.tokens.set dp.token_index (.part { p with values := new_values }) },
          .ok ())
    | some _ => (m, .error "token is not a part")

/-- Embedding of `pkcs7_pad` (bl4.rs). -/
def pkcs7_pad (block_size : Nat) (data : List Nat) : List Nat :=
  let pad_len := block_size - data.length % block_size
  data ++ List.replicate pad_len pad_len

/-- Embedding of `pkcs7_unpad` (bl4.rs). -/
def pkcs7_unpad (block_size : Nat) (data : List Nat) : Except String (List Nat) :=
  if data.isEmpty || data.length % block_size ≠ 0 then .error "invalid padding"
  else
    match data.getLast? with
    | Option.none => .error "missing padding"
    | some pl =>
      if pl = 0 || pl > block_size || pl > data.length then .error "invalid padding length"
      else if (data.drop (data.length - pl)).all (fun b => b = pl) then
        .ok (data.take (data.length - pl))
      else .error "invalid padding bytes"

/-- The Adler-32 checksum, the model of `adler::adler32_slice`. -/
def adler32 (data : List Nat) : Nat :=
  let ab := data.foldl
    (fun ab byte =>
      let a := (ab.1 + byte) % 65521
      (a, (ab.2 + a) % 65521))
    (1, 0)
  ab.2 * 65536 + ab.1

/-- Big-endian bytes of a `u32`, model of `u32::to_be_bytes`. -/
def u32_to_be_bytes (n : Nat) : List Nat :=
  [n / 2 ^ 24 % 256, n / 2 ^ 16 % 256, n / 2 ^ 8 % 256, n % 256]

/-- Little-endian bytes of a `u32`, model of `u32::to_le_bytes`. -/
def u32_to_le_bytes (n : Nat) : List Nat :=
  [n % 256, n / 2 ^ 8 % 256, n / 2 ^ 16 % 256, n / 2 ^ 24 % 256]

/-- Big-endian value of a byte list, model of `u32::from_be_bytes`. -/
def u32_from_be (bs : List Nat) : Nat :=
  bs.foldl (fun a b => a * 256 + b) 0

/-- Little-endian value of a byte list, model of `u32::from_le_bytes`. -/
def u32_from_le (bs : List Nat) : Nat :=
  bs.foldr (fun b acc => acc * 256 + b) 0

/-- Application of a block transformation to every complete 16-byte chunk,
leaving any remainder untouched: the shape of `chunks_exact_mut(16)` in
`aes_ecb_encrypt`/`aes_ecb_decrypt`. -/
def chunks_exact_map_16 (f : List Nat → List Nat) (data : List Nat) : List Nat :=
  if data.length < 16 then data
  else f (data.take 16) ++ chunks_exact_map_16 f (data.drop 16)
termination_by data.length
decreasing_by simp; omega

/-- Embedding of `aes_ecb_encrypt` (bl4.rs), parameterised by the keyed AES
block function of the `aes` crate. -/
def aes_ecb_encrypt (encBlock : List Nat → List Nat) (data : List Nat) : List Nat :=
  if data.isEmpty then data else chunks_exact_map_16 encBlock data

/-- Embedding of `aes_ecb_decrypt` (bl4.rs), parameterised by the keyed AES
inverse block function of the `aes` crate. -/
def aes_ecb_decrypt (decBlock : List Nat → List Nat) (data : List Nat) : List Nat :=
  if data.isEmpty then data else chunks_exact_map_16 decBlock data

/-- Embedding of `encrypt_yaml_to_sav` (bl4.rs), parameterised by the
`flate2` zlib compressor and the keyed AES block function. -/
def encrypt_yaml_to_sav (compress : List Nat → List Nat)
    (encBlock : List Nat → List Nat → List Nat) (yaml_bytes : List Nat)
    (steamid : String) : Except String (List Nat) :=
  let compressed := compress yaml_bytes ++ u32_to_be_bytes (adler32 yaml_bytes)
      ++ u32_to_le_bytes (yaml_bytes.length % 2 ^ 32)
  let padded := pkcs7_pad 16 compressed
  match derive_key steamid with
  | .error e => .error e
  | .ok key => .ok (aes_ecb_encrypt (encBlock key) padded)

/-- The footer verification at the end of `decrypt_sav_to_yaml` (bl4.rs):
when at least 8 bytes of body exist, the trailing 8 bytes are an Adler-32
(big-endian) and an original length (little-endian) that must match the
decompressed output. -/
def check_footer (body yaml_bytes : List Nat) : Except String (List Nat) :=
  if body.length ≥ 8 then
    let footer := body.drop (body.length - 8)
    let expected_adler := u32_from_be (footer.take 4)
    let expected_len := u32_from_le (footer.drop 4)
    if adler32 yaml_bytes ≠ expected_adler then .error "checksum mismatch"
    else if yaml_bytes.length % 2 ^ 32 ≠ expected_len then .error "length mismatch"
    else .ok yaml_bytes
  else .ok yaml_bytes

/-- Embedding of `decrypt_sav_to_yaml` (bl4.rs), parameterised by the
`flate2` zlib and raw-deflate decompressors and the keyed AES inverse block
function. -/
def decrypt_sav_to_yaml (zlibDecompress deflateDecompress : List Nat → Option (List Nat))
    (decBlock : List Nat → List Nat → List Nat) (encrypted : List Nat)
    (steamid : String) : Except String (List Nat) :=
  if encrypted.length % 16 ≠ 0 then .error "input .sav size not multiple of 16"
  else
    match derive_key steamid with
    | .error e => .error e
    | .ok key =>
      let buffer := aes_ecb_decrypt (decBlock key) encrypted
      let body :=
        match pkcs7_unpad 16 buffer with
        | .ok data => data
        | .error _ => buffer
      match zlibDecompress body with
      | some yaml_bytes => check_footer body yaml_bytes
      | Option.none =>
        match deflateDecompress body with
        | some yaml_bytes => check_footer body yaml_bytes
        | Option.none => .error "corrupt deflate stream"

/-- Mapping keys of the document tree. The specification's document model
(§3) is a tree of scalars, sequences, and mappings with string-or-integer
keys; `serde_yaml` tagged values do not occur in these documents and are not
modelled. -/
inductive YKey where
  | str (s : String)
  | int (n : Int)
deriving DecidableEq, Repr

/-- The document tree, embedding `serde_yaml::Value` as used by the editor
(numbers carry the `i64` range the editor reads and writes). -/
inductive Yaml where
  | null
  | bool (b : Bool)
  | int (n : Int)
  | str (s : String)
  | seq (xs : List Yaml)
  | map (entries : List (YKey × Yaml))
deriving Repr

/-- First-match lookup in an insertion-ordered mapping, `Mapping::get`. -/
def mapGet (m : List (YKey × Yaml)) (k : YKey) : Option Yaml :=
  match m with
  | [] => Option.none
  | (k', v) :: rest => if k' = k then some v else mapGet rest k

/-- Membership test, `Mapping::contains_key`. -/
def mapContains (m : List (YKey × Yaml)) (k : YKey) : Bool :=
  (mapGet m k).isSome

/-- Insertion with the `IndexMap` semantics of `serde_yaml::Mapping::insert`:
replace in place when the key exists, append otherwise. -/
def mapInsert (m : List (YKey × Yaml)) (k : YKey) (v : Yaml) : List (YKey × Yaml) :=
  match m with
  | [] => [(k, v)]
  | (k', v') :: rest =>
    if k' = k then (k', v) :: rest else (k', v') :: mapInsert rest k v

/-- Removal with the swap-remove semantics of `serde_yaml::Mapping::remove`:
the last entry moves into the removed slot. -/
def mapRemoveSwap (m : List (YKey × Yaml)) (k : YKey) : List (YKey × Yaml) :=
  match m.findIdx? (fun e => e.1 = k) with
  | Option.none => m
  | some i =>
    match m.getLast? with
    | Option.none => m
    | some last => (m.take i ++ last :: m.drop (i + 1)).dropLast

/-- The `entry(k).or_insert_with(default)` idiom followed by an in-place
mutation of the entry's value. -/
def entryUpsertThen (m : List (YKey × Yaml)) (k : YKey) (dflt : Yaml)
    (f : Yaml → Yaml) : List (YKey × Yaml) :=
  match mapGet m k with
  | Option.none => mapInsert m k (f dflt)
  | some v => mapInsert m k (f v)

/-- The `if let Some(map) = mapping_mut(value)` idiom: transform the entry
list of a mapping, leave any other value unchanged. -/
def asMapThen (g : List (YKey × Yaml) → List (YKey × Yaml)) : Yaml → Yaml
  | .map mm => .map (g mm)
  | v => v

/-- The `if let Some(seq) = sequence_mut(value)` idiom. -/
def asSeqThen (g : List Yaml → List Yaml) : Yaml → Yaml
  | .seq xs => .seq (g xs)
  | v => v

/-- Embedding of `mapping_mut` as a read accessor (the model has no tagged
values, see `Yaml`). -/
def asMap : Yaml → Option (List (YKey × Yaml))
  | .map mm => some mm
  | _ => Option.none

/-- Embedding of `Value::as_sequence`. -/
def asSeq : Yaml → Option (List Yaml)
  | .seq xs => some xs
  | _ => Option.none

/-- Embedding of `Value::as_str`. -/
def asStr : Yaml → Option String
  | .str s => some s
  | _ => Option.none

/-- Embedding of `value_key_to_string` (bl4.rs). -/
def value_key_to_string : YKey → Option String
  | .str s => some s
  | .int n => some (toString n)

/-- Embedding of `set_optional_string` (bl4.rs): insert on `Some`, remove on
`None`. -/
def set_optional_string (m : List (YKey × Yaml)) (key : String) (value : Option String) :
    List (YKey × Yaml) :=
  match value with
  | some s => mapInsert m (.str key) (.str s)
  | Option.none => mapRemoveSwap m (.str key)

/-- Embedding of `set_optional_i32` (bl4.rs). -/
def set_optional_i32 (m : List (YKey × Yaml)) (key : String) (value : Option Int) :
    List (YKey × Yaml) :=
  match value with
  | some n => mapInsert m (.str key) (.int n)
  | Option.none => mapRemoveSwap m (.str key)

/-- Uppercase one ASCII letter, the per-character behaviour of Rust
`to_ascii_uppercase`. -/
def asciiUpperChar (c : Char) : Char :=
  if 'a' ≤ c ∧ c ≤ 'z' then Char.ofNat (c.toNat - 32) else c

/-- Model of Rust `str::trim` (whitespace at both ends removed). -/
def trimStr (s : String) : String :=
  ⟨((s.data.dropWhile Char.isWhitespace).reverse.dropWhile Char.isWhitespace).reverse⟩

/-- Model of Rust `str::starts_with` for a literal pattern. -/
def strStartsWith (s pat : String) : Bool :=
  pat.data.isPrefixOf s.data

/-- Lexicographic strict comparison of character lists; agrees with Rust's
`String` ordering (UTF-8 byte order equals scalar-value order). -/
def charListLt : List Char → List Char → Bool
  | [], [] => false
  | [], _ :: _ => true
  | _ :: _, [] => false
  | a :: as, b :: bs => if a < b then true else if b < a then false else charListLt as bs

/-- Non-strict string comparison used for sorting. -/
def strLe (a b : String) : Bool :=
  !(charListLt b.data a.data)

/-- Insertion step of a stable insertion sort. -/
def insertSorted {α : Type} (le : α → α → Bool) (x : α) : List α → List α
  | [] => [x]
  | y :: ys => if le x y then x :: y :: ys else y :: insertSorted le x ys

/-- Stable insertion sort; for a total order this agrees elementwise with
Rust's `sort_unstable`, since a sorted permutation of identical elements is
unique. -/
def insertionSort {α : Type} (le : α → α → Bool) (l : List α) : List α :=
  l.foldr (insertSorted le) []

/-- Model of `Vec::dedup`: collapse consecutive equal elements. -/
def dedupConsecutive {α : Type} [DecidableEq α] : List α → List α
  | [] => []
  | [a] => [a]
  | a :: b :: rest =>
    if a = b then dedupConsecutive (b :: rest) else a :: dedupConsecutive (b :: rest)

/-- Sorting for string vectors, `sort_unstable` on `Vec<String>`. -/
def sortStrings (l : List String) : List String :=
  insertionSort strLe l

/-- Sorting for `i32` vectors. -/
def sortInts (l : List Int) : List Int :=
  insertionSort (fun a b => a ≤ b) l

/-- Rust `Option::or`. -/
def optOr {α : Type} : Option α → Option α → Option α
  | some v, _ => some v
  | Option.none, b => b

/-- Splitting of a character list at every occurrence of a separator; model
of Rust `str::split` with a `char` pattern ("" splits to [""]). -/
def splitCharList (c : Char) : List Char → List (List Char)
  | [] => [[]]
  | ch :: rest =>
    match splitCharList c rest with
    | [] => [[ch]]
    | h :: t => if ch = c then [] :: h :: t else (ch :: h) :: t

/-- Model of Rust `str::split` with a `char` pattern, for `String`s. -/
def splitStr (c : Char) (s : String) : List String :=
  (splitCharList c s.data).map (fun l => ⟨l⟩)

/-- Embedding of `Bl4SduLevels` (bl4.rs). -/
structure Bl4SduLevels where
  backpack : Int
  pistol : Int
  smg : Int
  assault_rifle : Int
  shotgun : Int
  sniper : Int
  heavy : Int
  grenade : Int
  bank : Int
  lost_loot : Int
deriving DecidableEq, Repr

/-- The all-zero `Bl4SduLevels`, its `Default`. -/
def sduLevelsDefault : Bl4SduLevels :=
  ⟨0, 0, 0, 0, 0, 0, 0, 0, 0, 0⟩

/-- Embedding of `Bl4PointPools` (edit side). -/
structure Bl4PointPools where
  character_progress : Option Int
  specialization_tokens : Option Int
  echo_tokens : Option Int
  other : List (String × Int)
deriving DecidableEq, Repr

/-- Embedding of `Bl4Cosmetics` (bl4.rs). -/
structure Bl4Cosmetics where
  body : Option String
  head : Option String
  skin : Option String
  primary_color : Option String
  secondary_color : Option String
  tertiary_color : Option String
  echo_body : Option String
  echo_attachment : Option String
  echo_skin : Option String
  vehicle_skin : Option String
deriving DecidableEq, Repr

/-- Embedding of `Bl4VehicleLoadout` (bl4.rs). -/
structure Bl4VehicleLoadout where
  personal_vehicle : Option String
  hover_drive : Option String
  vehicle_weapon_slot : Option Int
  vehicle_cosmetic : Option String
deriving DecidableEq, Repr

/-- Embedding of `Bl4MissionStatus` (bl4.rs). -/
structure Bl4MissionStatus where
  set : String
  mission : String
  status : Option String
deriving DecidableEq, Repr

/-- Embedding of `Bl4InventoryItem` (bl4.rs). -/
structure Bl4InventoryItem where
  slot : String
  serial : String
  state_flags : Option Int
deriving DecidableEq, Repr

/-- Embedding of `Bl4SkillNode` (bl4.rs). -/
structure Bl4SkillNode where
  name : String
  points_spent : Option Int
  activation_level : Option Int
  is_activated : Option Bool
deriving DecidableEq, Repr

/-- Embedding of `Bl4SkillTree` (bl4.rs). -/
structure Bl4SkillTree where
  name : String
  group_def_name : Option String
  nodes : List Bl4SkillNode
deriving DecidableEq, Repr

/-- Embedding of `Bl4EditState` (bl4.rs); the `BTreeMap` fields are modelled
as their sorted entry lists. -/
structure Bl4EditState where
  char_guid : Option String
  char_name : Option String
  class_name : Option String
  character_level : Option Int
  character_experience : Option Int
  ability_points : Option Int
  player_difficulty : Option String
  specialization_level : Option Int
  specialization_points : Option Int
  currencies : List (String × Int)
  ammo : List (String × Int)
  sdu_levels : Bl4SduLevels
  sdu_levels_dirty : Bool
  point_pools : Bl4PointPools
  equip_slots_unlocked : List Int
  unique_rewards_dirty : Bool
  unique_rewards : List String
  cosmetics : Bl4Cosmetics
  vehicle_loadout : Bl4VehicleLoadout
  tracked_missions : List String
  tracked_missions_need_none : Bool
  missions : List Bl4MissionStatus
  inventory : List Bl4InventoryItem
  skill_trees : List Bl4SkillTree
  unlockables : List (String × List String)
  progression_in_state : Bool
  missions_in_state : Bool
  tracked_missions_dirty : Bool
deriving Repr

/-- The `Default` value of `Bl4EditState`: every optional field absent, every
list empty, every flag false. -/
def editStateDefault : Bl4EditState where
  char_guid := Option.none
  char_name := Option.none
  class_name := Option.none
  character_level := Option.none
  character_experience := Option.none
  ability_points := Option.none
  player_difficulty := Option.none
  specialization_level := Option.none
  specialization_points := Option.none
  currencies := []
  ammo := []
  sdu_levels := sduLevelsDefault
  sdu_levels_dirty := false
  point_pools := ⟨Option.none, Option.none, Option.none, []⟩
  equip_slots_unlocked := []
  unique_rewards_dirty := false
  unique_rewards := []
  cosmetics := ⟨Option.none, Option.none, Option.none, Option.none, Option.none,
    Option.none, Option.none, Option.none, Option.none, Option.none⟩
  vehicle_loadout := ⟨Option.none, Option.none, Option.none, Option.none⟩
  tracked_missions := []
  tracked_missions_need_none := false
  missions := []
  inventory := []
  skill_trees := []
  unlockables := []
  progression_in_state := false
  missions_in_state := false
  tracked_missions_dirty := false

/-- Embedding of `default_sdu_cost` (bl4.rs). -/
def default_sdu_cost (level : Int) : Int :=
  if level = 1 then 5
  else if level = 2 then 10
  else if level = 3 then 20
  else if level = 4 then 30
  else if level = 5 then 50
  else if level = 6 then 80
  else if level = 7 then 120
  else if level = 8 then 235
  else 0

/-- The `format!("\x7b:02\x7d", n)` rendering used for SDU node tiers. -/
def fmt02 (n : Int) : String :=
  if 0 ≤ n ∧ n < 10 then "0" ++ toString n else toString n

/-- The `push_family` closure of `apply_sdu_levels_to_nodes` (bl4.rs): the
desired `(name, points_spent)` pairs for one SDU family. -/
def push_family (familyPre : String) (max_tiers target : Int) : List (String × Int) :=
  if target ≤ 0 then []
  else
    let limit := min max_tiers target
    (List.range limit.toNat).map (fun j : Nat =>
      let idx : Int := (j : Int) + 1
      (familyPre ++ fmt02 idx, default_sdu_cost idx))

/-- The node mapping built for each desired `(name, points_spent)` pair in
`apply_sdu_levels_to_nodes`. -/
def mkSduNode (nc : String × Int) : Yaml :=
  Yaml.map [(.str "name", .str nc.1), (.str "points_spent", .int nc.2)]

/-- The `any_sdu_requested` condition of `apply_sdu_levels_to_nodes`
(bl4.rs): only the six graph families are consulted. -/
def sduAnyRequested (levels : Bl4SduLevels) : Prop :=
  0 < levels.backpack ∨ 0 < levels.pistol ∨ 0 < levels.smg
    ∨ 0 < levels.assault_rifle ∨ 0 < levels.shotgun ∨ 0 < levels.sniper

instance (levels : Bl4SduLevels) : Decidable (sduAnyRequested levels) := by
  unfold sduAnyRequested; infer_instance

/-- Embedding of `apply_sdu_levels_to_nodes` (bl4.rs): the node list is
cleared and rebuilt from the desired family tiers, so the result is a
function of the levels alone. -/
def apply_sdu_levels_to_nodes (levels : Bl4SduLevels) : List Yaml :=
  let bank_target := if levels.bank = 0 ∧ sduAnyRequested levels then 8 else levels.bank
  let lost_loot_target :=
    if levels.lost_loot = 0 ∧ sduAnyRequested levels then 8 else levels.lost_loot
  let desired :=
    push_family "Ammo_Pistol_" 7 levels.pistol ++
    push_family "Ammo_SMG_" 7 levels.smg ++
    push_family "Ammo_AR_" 7 levels.assault_rifle ++
    push_family "Ammo_SG_" 7 levels.shotgun ++
    push_family "Ammo_SR_" 7 levels.sniper ++
    push_family "Backpack_" 8 levels.backpack ++
    push_family "Bank_" 8 bank_target ++
    push_family "Lost_Loot_" 8 lost_loot_target
  desired.map mkSduNode

/-- The graph-name accessor used throughout `apply_progression_edits`. -/
def graphNameOf (gm : List (YKey × Yaml)) : String :=
  (((mapGet gm (.str "name")).bind asStr)).getD ""

/-- The node-name match used by `apply_skill_tree_override`. -/
def nodeNameMatches (name : String) (node : Yaml) : Bool :=
  match asMap node with
  | some nm => decide ((((mapGet nm (.str "name")).bind asStr)).getD "" = name)
  | Option.none => false

/-- The per-override-node field updates of `apply_skill_tree_override`. -/
def applyNodeFields (onode : Bl4SkillNode) : Yaml → Yaml :=
  asMapThen (fun nm =>
    let nm := match onode.points_spent with
      | some v => mapInsert nm (.str "points_spent") (.int v)
      | Option.none => mapRemoveSwap nm (.str "points_spent")
    let nm := match onode.activation_level with
      | some v => mapInsert nm (.str "activation_level") (.int v)
      | Option.none => mapRemoveSwap nm (.str "activation_level")
    match onode.is_activated with
    | some b => mapInsert nm (.str "is_activated") (.bool b)
    | Option.none => mapRemoveSwap nm (.str "is_activated"))

/-- One iteration of the override loop of `apply_skill_tree_override`
(bl4.rs): update the first node with a matching name, or append a fresh node
carrying only the name before applying the field updates. -/
def apply_one_override (nodes : List Yaml) (onode : Bl4SkillNode) : List Yaml :=
  match nodes.findIdx? (nodeNameMatches onode.name) with
  | some i =>
    match nodes.get? i with
    | some n => nodes.set i (applyNodeFields onode n)
    | Option.none => nodes
  | Option.none =>
    nodes ++ [applyNodeFields onode (Yaml.map [(.str "name", .str onode.name)])]

/-- Embedding of `apply_skill_tree_override` (bl4.rs). -/
def apply_skill_tree_override (nodes : List Yaml) (tree : Bl4SkillTree) : List Yaml :=
  tree.nodes.foldl apply_one_override nodes

/-- The segment after the last `/`, `\` or `.` of a tree name
(`rsplit(..).next()` in `infer_group_def_name`). -/
def lastPathSegment (s : String) : String :=
  ⟨s.data.foldl (fun acc c =>
    if c = '/' ∨ c = '\\' ∨ c = '.' then [] else acc ++ [c]) []⟩

/-- Embedding of `infer_group_def_name` (bl4.rs). -/
def infer_group_def_name (tree_name : String) : Option String :=
  let candidate := trimStr (lastPathSegment tree_name)
  if candidate.isEmpty then Option.none
  else if strStartsWith candidate "ProgressGroup_" then some candidate
  else
    let sanitized : String :=
      ⟨candidate.data.map (fun c => if c.isAlphanum then c else '_')⟩
    if sanitized.isEmpty then Option.none
    else some ("ProgressGroup_" ++ sanitized)

/-- Embedding of `format_unlockable_suffix` (bl4.rs): each `_`-separated
segment is title-cased unless purely numeric. -/
def format_unlockable_suffix (raw : String) : String :=
  String.intercalate "_" ((splitStr '_' raw).map (fun segment =>
    if segment.data.all Char.isDigit then segment
    else
      match segment.data with
      | [] => ""
      | c :: rest => ⟨asciiUpperChar c :: rest.map asciiLowerChar⟩))

/-- Embedding of `unlockable_entry_to_reward` (bl4.rs). -/
def unlockable_entry_to_reward (category entry : String) : Option String :=
  let suffix := ((splitStr '.' entry).getLastD entry)
  if category = "unlockable_hoverdrives" then
    some ("Reward_HoverDrive_" ++ format_unlockable_suffix suffix)
  else Option.none

/-- Embedding of `collect_unlockable_rewards` (bl4.rs). -/
def collect_unlockable_rewards (unlockables : List (String × List String)) :
    List String :=
  let rewards :=
    (unlockables.map (fun ce => ce.2.filterMap (unlockable_entry_to_reward ce.1))).flatten
  dedupConsecutive (sortStrings rewards)

/-- Embedding of `is_unlockable_reward_id` (bl4.rs). -/
def is_unlockable_reward_id (reward : String) : Bool :=
  strStartsWith reward "Reward_HoverDrive_"

/-- The `BTreeMap<&str, &tree>` built by `apply_progression_edits`: the last
tree with a given name wins. -/
def override_lookup (trees : List Bl4SkillTree) (name : String) : Option Bl4SkillTree :=
  trees.foldl (fun acc t => if t.name = name then some t else acc) Option.none

/-- The per-graph update of the SDU pass of `apply_progression_edits`. -/
def update_sdu_graph (levels : Bl4SduLevels) (g : Yaml) : Yaml :=
  match g with
  | .map gm =>
    if graphNameOf gm = "sdu_upgrades" then
      .map (entryUpsertThen gm (.str "nodes") (.seq [])
        (asSeqThen (fun _ => apply_sdu_levels_to_nodes levels)))
    else g
  | _ => g

/-- The SDU branch of `apply_progression_edits` (bl4.rs): rewrite every
`sdu_upgrades` graph, appending a fresh one when none exists. -/
def applySduGraphs (graphs : List Yaml) (levels : Bl4SduLevels) : List Yaml :=
  let sdu_found := graphs.any (fun g =>
    match asMap g with
    | some gm => decide (graphNameOf gm = "sdu_upgrades")
    | Option.none => false)
  let graphs := graphs.map (update_sdu_graph levels)
  if sdu_found then graphs
  else
    graphs ++ [Yaml.map
      [(.str "name", .str "sdu_upgrades"),
       (.str "group_def_name", .str "Oak2_GlobalProgressGraph_Group"),
       (.str "nodes", .seq (apply_sdu_levels_to_nodes levels))]]

/-- The graph construction of the append pass of the skill-tree branch. -/
def buildTreeGraph (tree : Bl4SkillTree) : Yaml :=
  let base := [(YKey.str "name", Yaml.str tree.name)]
  let groupOpt :=
    match tree.group_def_name with
    | some g => if (trimStr g).isEmpty then Option.none else some g
    | Option.none => Option.none
  let base :=
    match groupOpt with
    | some g => base ++ [(YKey.str "group_def_name", Yaml.str g)]
    | Option.none =>
      match infer_group_def_name tree.name with
      | some fallback => base ++ [(YKey.str "group_def_name", Yaml.str fallback)]
      | Option.none => base
  Yaml.map (base ++ [(YKey.str "nodes", Yaml.seq (apply_skill_tree_override [] tree))])

/-- The first pass of the skill-tree branch of `apply_progression_edits`:
apply overrides to existing non-SDU graphs, collecting the applied names. -/
def applySkillGraphsPass (trees : List Bl4SkillTree) (graphs : List Yaml) :
    List Yaml × List String :=
  graphs.foldl (fun acc g =>
    match g with
    | .map gm =>
      let gname := graphNameOf gm
      if gname = "sdu_upgrades" then (acc.1 ++ [g], acc.2)
      else
        match override_lookup trees gname with
        | some tree =>
          (acc.1 ++ [Yaml.map (entryUpsertThen gm (.str "nodes") (.seq [])
              (asSeqThen (fun ns => apply_skill_tree_override ns tree)))],
           acc.2 ++ [tree.name])
        | Option.none => (acc.1 ++ [g], acc.2)
    | _ => (acc.1 ++ [g], acc.2)) ([], [])

/-- The skill-tree branch of `apply_progression_edits` (bl4.rs). -/
def applySkillGraphs (trees : List Bl4SkillTree) (graphs : List Yaml) : List Yaml :=
  let pass := applySkillGraphsPass trees graphs
  pass.1 ++ (trees.filter (fun t => !(pass.2.contains t.name))).map buildTreeGraph

/-- Whether any SDU level is non-zero; the source computes the bitwise OR of
the ten `i32` fields and compares it with 0, which is equivalent. -/
def sduAnyNonZero (l : Bl4SduLevels) : Prop :=
  l.backpack ≠ 0 ∨ l.pistol ≠ 0 ∨ l.smg ≠ 0 ∨ l.assault_rifle ≠ 0 ∨ l.shotgun ≠ 0
    ∨ l.sniper ≠ 0 ∨ l.heavy ≠ 0 ∨ l.grenade ≠ 0 ∨ l.bank ≠ 0 ∨ l.lost_loot ≠ 0

instance (l : Bl4SduLevels) : Decidable (sduAnyNonZero l) := by
  unfold sduAnyNonZero; infer_instance

/-- Embedding of `apply_progression_edits` (bl4.rs). -/
def apply_progression_edits (pm : List (YKey × Yaml)) (edits : Bl4EditState) :
    List (YKey × Yaml) :=
  let pm := entryUpsertThen pm (.str "point_pools") (.map []) (asMapThen (fun ppm =>
    let ppm := match optOr edits.point_pools.character_progress edits.ability_points with
      | some v => mapInsert ppm (.str "characterprogresspoints") (.int v)
      | Option.none => ppm
    let ppm :=
      match optOr edits.point_pools.specialization_tokens edits.specialization_points with
      | some v => mapInsert ppm (.str "specializationtokenpool") (.int v)
      | Option.none => ppm
    let ppm := match edits.point_pools.echo_tokens with
      | some v => mapInsert ppm (.str "echotokenprogresspoints") (.int v)
      | Option.none => ppm
    edits.point_pools.other.foldl (fun ppm kv => mapInsert ppm (.str kv.1) (.int kv.2)) ppm))
  entryUpsertThen pm (.str "graphs") (.seq []) (asSeqThen (fun graphs =>
    let graphs :=
      if edits.sdu_levels_dirty ∨ sduAnyNonZero edits.sdu_levels then
        applySduGraphs graphs edits.sdu_levels
      else graphs
    if edits.skill_trees.isEmpty then graphs
    else applySkillGraphs edits.skill_trees graphs))

/-- Sorted-map insertion for the `BTreeMap<String, String>` of the actor-part
lists. -/
def btreeInsertSS (m : List (String × String)) (k v : String) : List (String × String) :=
  match m with
  | [] => [(k, v)]
  | (k', v') :: rest =>
    if k = k' then (k', v) :: rest
    else if charListLt k.data k'.data then (k, v) :: (k', v') :: rest
    else (k', v') :: btreeInsertSS rest k v

/-- Sorted-map removal for the actor-part lists. -/
def btreeRemoveSS (m : List (String × String)) (k : String) : List (String × String) :=
  match m with
  | [] => []
  | (k', v') :: rest => if k = k' then rest else (k', v') :: btreeRemoveSS rest k

/-- Embedding of `parse_actor_part_list` (bl4.rs): split on commas, drop
empty and "gap" entries, and parse `Key[Value]` or bare `Key` shapes into a
sorted map. -/
def parse_actor_part_list (value : String) : List (String × String) :=
  (splitStr ',' value).foldl (fun parts tok =>
    let trimmed := trimStr tok
    if trimmed.isEmpty || asciiLower trimmed == "gap" then parts
    else
      match trimmed.data.findIdx? (· = '[') with
      | some start =>
        let key := trimStr ⟨trimmed.data.take start⟩
        let remainder := trimmed.data.drop (start + 1)
        match remainder.reverse.findIdx? (· = ']') with
        | some revIdx =>
          let endi := remainder.length - 1 - revIdx
          btreeInsertSS parts key (trimStr ⟨remainder.take endi⟩)
        | Option.none => btreeInsertSS parts key (trimStr ⟨remainder⟩)
      | Option.none => btreeInsertSS parts trimmed "") []

/-- Embedding of `format_actor_part_list` (bl4.rs). -/
def format_actor_part_list (parts : List (String × String)) : String :=
  if parts.isEmpty then ""
  else
    String.intercalate ", " (parts.map (fun kv =>
      if (trimStr kv.2).isEmpty then kv.1 else kv.1 ++ "[" ++ kv.2 ++ "]"))

/-- Embedding of `update_part_value` (bl4.rs): find the first entry whose key
or value contains every lower-cased pattern, then update, remove, or insert a
synthetic entry. -/
def update_part_value (parts : List (String × String)) (patterns : List String)
    (new_value : Option String) : List (String × String) :=
  if patterns.isEmpty then parts
  else
    let lowered := patterns.map asciiLower
    let matched := parts.find? (fun kv => lowered.all (fun pat =>
      strContains (asciiLower kv.1) pat || strContains (asciiLower kv.2) pat))
    match matched, new_value with
    | some kv, some val => btreeInsertSS parts kv.1 val
    | some kv, Option.none => btreeRemoveSS parts kv.1
    | Option.none, some val =>
      let synthetic : String :=
        ⟨(patterns.headD "cosmetics_entry").data.map (fun c => if c = ' ' then '_' else c)⟩
      btreeInsertSS parts synthetic val
    | Option.none, Option.none => parts

/-- Embedding of `update_actor_parts_section` (bl4.rs): parse the section
string, run the update, and write it back only when it changed. -/
def update_actor_parts_section (apm : List (YKey × Yaml)) (key : String)
    (update : List (String × String) → List (String × String)) : List (YKey × Yaml) :=
  let existing := (((mapGet apm (.str key)).bind asStr)).getD ""
  let parts := parse_actor_part_list existing
  let updated := update parts
  if updated ≠ parts then
    mapInsert apm (.str key) (.str (format_actor_part_list updated))
  else apm

/-- Embedding of `apply_cosmetics` (bl4.rs). -/
def apply_cosmetics (sm : List (YKey × Yaml)) (cosmetics : Bl4Cosmetics)
    (vehicle_loadout : Bl4VehicleLoadout) : List (YKey × Yaml) :=
  entryUpsertThen sm (.str "gbxactorparts") (.map []) (asMapThen (fun apm =>
    let apm := update_actor_parts_section apm "character" (fun parts =>
      let parts := update_part_value parts ["cosmetics_", "_body"] cosmetics.body
      let parts := update_part_value parts ["cosmetics_", "_head"] cosmetics.head
      let parts := update_part_value parts ["cosmetics_", "_skin"] cosmetics.skin
      let parts :=
        update_part_value parts ["cosmetics_colorization_primary"] cosmetics.primary_color
      let parts :=
        update_part_value parts ["cosmetics_colorization_secondary"]
          cosmetics.secondary_color
      update_part_value parts ["cosmetics_colorization_tertiary"]
        cosmetics.tertiary_color)
    let apm := update_actor_parts_section apm "echo4" (fun parts =>
      let parts := update_part_value parts ["cosmetics_echo4_body"] cosmetics.echo_body
      let parts :=
        update_part_value parts ["cosmetics_echo4_attachment"] cosmetics.echo_attachment
      update_part_value parts ["cosmetics_echo4_skin"] cosmetics.echo_skin)
    update_actor_parts_section apm "vehicle" (fun parts =>
      update_part_value parts ["cosmetics_vehicle", "vehicle_mat"]
        (optOr cosmetics.vehicle_skin vehicle_loadout.vehicle_cosmetic))))

/-- The `(set, mission)` status lookup built by `apply_missions`; the last
matching entry wins, as in a `BTreeMap` built by repeated insertion. -/
def mission_status_lookup (missions : List Bl4MissionStatus) (setName mission : String) :
    Option (Option String) :=
  missions.foldl (fun acc m =>
    if m.set = setName ∧ m.mission = mission then some m.status else acc) Option.none

/-- Embedding of `apply_missions` (bl4.rs). -/
def apply_missions (sm : List (YKey × Yaml)) (tracked_missions : List String)
    (missions : List Bl4MissionStatus) (append_none : Bool) : List (YKey × Yaml) :=
  entryUpsertThen sm (.str "missions") (.map []) (asMapThen (fun mm =>
    let tracked_values :=
      (tracked_missions.filter (fun n => !n.isEmpty)).map Yaml.str ++
        (if append_none then [Yaml.str "none"] else [])
    let mm := mapInsert mm (.str "tracked_missions") (.seq tracked_values)
    entryUpsertThen mm (.str "local_sets") (.map []) (asMapThen (fun lsm =>
      lsm.map (fun se =>
        match value_key_to_string se.1 with
        | Option.none => se
        | some set_name =>
          (se.1, asMapThen (fun setMap =>
            match mapGet setMap (.str "missions") with
            | Option.none => setMap
            | some mv =>
              mapInsert setMap (.str "missions") (asMapThen (fun imm =>
                imm.map (fun me =>
                  match value_key_to_string me.1 with
                  | Option.none => me
                  | some mission_name =>
                    match mission_status_lookup missions set_name mission_name with
                    | Option.none => me
                    | some status_opt =>
                      (me.1, asMapThen (fun mem =>
                        match status_opt with
                        | some status => mapInsert mem (.str "status") (.str status)
                        | Option.none => mapRemoveSwap mem (.str "status")) me.2)))
                mv)) se.2))))))

/-- The experience-entry update of `apply_edit_state` (bl4.rs). -/
def updateExperienceEntry (edits : Bl4EditState) (entry : Yaml) : Yaml :=
  asMapThen (fun em =>
    let etype := (((mapGet em (.str "type")).bind asStr)).getD ""
    if etype = "Character" then
      let em := match edits.character_level with
        | some l => mapInsert em (.str "level") (.int l)
        | Option.none => em
      match edits.character_experience with
      | some p => mapInsert em (.str "points") (.int p)
      | Option.none => em
    else if etype = "Specialization" then
      let em := match edits.specialization_level with
        | some l => mapInsert em (.str "level") (.int l)
        | Option.none => em
      match optOr edits.specialization_points edits.ability_points with
      | some p => mapInsert em (.str "points") (.int p)
      | Option.none => em
    else em) entry

/-- The per-item inventory update of `apply_edit_state` (bl4.rs). -/
def applyInventoryItem (bpm : List (YKey × Yaml)) (item : Bl4InventoryItem) :
    List (YKey × Yaml) :=
  let bpm :=
    if mapContains bpm (.str item.slot) then bpm
    else mapInsert bpm (.str item.slot) (.map [])
  match mapGet bpm (.str item.slot) with
  | some sv =>
    mapInsert bpm (.str item.slot) (asMapThen (fun slotm =>
      let slotm := mapInsert slotm (.str "serial") (.str item.serial)
      match item.state_flags with
      | some flags => mapInsert slotm (.str "state_flags") (.int flags)
      | Option.none => mapRemoveSwap slotm (.str "state_flags")) sv)
  | Option.none => bpm

/-- The `char_guid` statement of `apply_edit_state` (bl4.rs). -/
def edit_char_guid (edits : Bl4EditState) (sm : List (YKey × Yaml)) : List (YKey × Yaml) :=
  match edits.char_guid with
  | some g => mapInsert sm (.str "char_guid") (.str g)
  | Option.none => sm

/-- The `char_name` statement of `apply_edit_state` (bl4.rs). -/
def edit_char_name (edits : Bl4EditState) (sm : List (YKey × Yaml)) : List (YKey × Yaml) :=
  match edits.char_name with
  | some n => mapInsert sm (.str "char_name") (.str n)
  | Option.none => sm

/-- The `player_difficulty` statement of `apply_edit_state` (bl4.rs). -/
def edit_player_difficulty (edits : Bl4EditState) (sm : List (YKey × Yaml)) :
    List (YKey × Yaml) :=
  match edits.player_difficulty with
  | some d => mapInsert sm (.str "player_difficulty") (.str d)
  | Option.none => sm

/-- The `class` statement of `apply_edit_state` (bl4.rs). -/
def edit_class_name (edits : Bl4EditState) (sm : List (YKey × Yaml)) : List (YKey × Yaml) :=
  match edits.class_name with
  | some c => mapInsert sm (.str "class") (.str c)
  | Option.none => sm

/-- The experience block of `apply_edit_state` (bl4.rs): present entries are
rewritten in place, the key is never created. -/
def edit_experience (edits : Bl4EditState) (sm : List (YKey × Yaml)) : List (YKey × Yaml) :=
  match mapGet sm (.str "experience") with
  | some ev =>
    mapInsert sm (.str "experience")
      (asSeqThen (fun entries => entries.map (updateExperienceEntry edits)) ev)
  | Option.none => sm

/-- The currencies block of `apply_edit_state` (bl4.rs). -/
def edit_currencies (edits : Bl4EditState) (sm : List (YKey × Yaml)) : List (YKey × Yaml) :=
  if edits.currencies.isEmpty then sm
  else entryUpsertThen sm (.str "currencies") (.map []) (asMapThen (fun cm =>
    edits.currencies.foldl (fun cm kv => mapInsert cm (.str kv.1) (.int kv.2)) cm))

/-- The ammo block of `apply_edit_state` (bl4.rs). -/
def edit_ammo (edits : Bl4EditState) (sm : List (YKey × Yaml)) : List (YKey × Yaml) :=
  if edits.ammo.isEmpty then sm
  else entryUpsertThen sm (.str "ammo") (.map []) (asMapThen (fun am =>
    edits.ammo.foldl (fun am kv => mapInsert am (.str kv.1) (.int kv.2)) am))

/-- The `existing_unique_rewards` read of `apply_edit_state` (bl4.rs). -/
def read_existing_unique_rewards (sm : List (YKey × Yaml)) : List String :=
  ((((mapGet sm (.str "unique_rewards")).bind asSeq)).map
    (fun sq => sq.filterMap asStr)).getD []

/-- The in-state progression block of `apply_edit_state` (bl4.rs). -/
def edit_progression_in_state (edits : Bl4EditState) (sm : List (YKey × Yaml)) :
    List (YKey × Yaml) :=
  if edits.progression_in_state then
    entryUpsertThen sm (.str "progression") (.map [])
      (asMapThen (fun pm => apply_progression_edits pm edits))
  else sm

/-- The inventory block of `apply_edit_state` (bl4.rs), including the
unconditional overwrite of `equip_slots_unlocked`. -/
def edit_inventory (edits : Bl4EditState) (sm : List (YKey × Yaml)) : List (YKey × Yaml) :=
  entryUpsertThen sm (.str "inventory") (.map []) (asMapThen (fun inv =>
    let inv := entryUpsertThen inv (.str "items") (.map []) (asMapThen (fun items =>
      let items :=
        if mapContains items (.str "backpack") then items
        else mapInsert items (.str "backpack") (.map [])
      match mapGet items (.str "backpack") with
      | some bp =>
        mapInsert items (.str "backpack")
          (asMapThen (fun bpm => edits.inventory.foldl applyInventoryItem bpm) bp)
      | Option.none => items))
    let slots := dedupConsecutive (sortInts edits.equip_slots_unlocked)
    mapInsert inv (.str "equip_slots_unlocked") (.seq (slots.map Yaml.int))))

/-- The `personal_vehicle` statement of `apply_edit_state` (bl4.rs). -/
def edit_personal_vehicle (edits : Bl4EditState) (sm : List (YKey × Yaml)) :
    List (YKey × Yaml) :=
  set_optional_string sm "personal_vehicle" edits.vehicle_loadout.personal_vehicle

/-- The `hover_drive` statement of `apply_edit_state` (bl4.rs). -/
def edit_hover_drive (edits : Bl4EditState) (sm : List (YKey × Yaml)) :
    List (YKey × Yaml) :=
  set_optional_string sm "hover_drive" edits.vehicle_loadout.hover_drive

/-- The `vehicle_weapon_slot` statement of `apply_edit_state` (bl4.rs). -/
def edit_vehicle_weapon_slot (edits : Bl4EditState) (sm : List (YKey × Yaml)) :
    List (YKey × Yaml) :=
  set_optional_i32 sm "vehicle_weapon_slot" edits.vehicle_loadout.vehicle_weapon_slot

/-- The `vehicle_cosmetic` statement of `apply_edit_state` (bl4.rs): only
touched when the key already exists. -/
def edit_vehicle_cosmetic (edits : Bl4EditState) (sm : List (YKey × Yaml)) :
    List (YKey × Yaml) :=
  if mapContains sm (.str "vehicle_cosmetic") then
    set_optional_string sm "vehicle_cosmetic" edits.vehicle_loadout.vehicle_cosmetic
  else sm

/-- The in-state missions gate of `apply_edit_state` (bl4.rs). -/
def edit_missions_in_state (edits : Bl4EditState) (sm : List (YKey × Yaml)) :
    List (YKey × Yaml) :=
  if edits.missions_in_state ∧
      (edits.tracked_missions_dirty = true ∨ ¬edits.missions.isEmpty) then
    apply_missions sm edits.tracked_missions edits.missions
      edits.tracked_missions_need_none
  else sm

/-- The unique-rewards block at the end of the state borrow of
`apply_edit_state` (bl4.rs); `existing` is the reward list read earlier. -/
def edit_unique_rewards (edits : Bl4EditState) (existing : List String)
    (sm : List (YKey × Yaml)) : List (YKey × Yaml) :=
  let final_unique_rewards :=
    if edits.unique_rewards_dirty then edits.unique_rewards else existing
  let unlockable_rewards := collect_unlockable_rewards edits.unlockables
  let final_unique_rewards :=
    if unlockable_rewards.isEmpty then final_unique_rewards
    else
      (final_unique_rewards.filter (fun r => !is_unlockable_reward_id r)) ++
        unlockable_rewards
  let unique_changed := edits.unique_rewards_dirty || !unlockable_rewards.isEmpty
  if unique_changed then
    let fr := dedupConsecutive (sortStrings final_unique_rewards)
    if fr.isEmpty then mapRemoveSwap sm (.str "unique_rewards")
    else mapInsert sm (.str "unique_rewards") (.seq (fr.map Yaml.str))
  else sm

/-- The body of the state-map borrow block of `apply_edit_state` (bl4.rs):
every edit applied to the `state` mapping, in source order. -/
def apply_state_edits (sm : List (YKey × Yaml)) (edits : Bl4EditState) :
    List (YKey × Yaml) :=
  let sm := edit_char_guid edits sm
  let sm := edit_char_name edits sm
  let sm := edit_player_difficulty edits sm
  let sm := edit_class_name edits sm
  let sm := edit_experience edits sm
  let sm := edit_currencies edits sm
  let sm := edit_ammo edits sm
  let existing_unique_rewards := read_existing_unique_rewards sm
  let sm := edit_progression_in_state edits sm
  let sm := edit_inventory edits sm
  let sm := edit_personal_vehicle edits sm
  let sm := edit_hover_drive edits sm
  let sm := edit_vehicle_weapon_slot edits sm
  let sm := edit_vehicle_cosmetic edits sm
  let sm := apply_cosmetics sm edits.cosmetics edits.vehicle_loadout
  let sm := edit_missions_in_state edits sm
  edit_unique_rewards edits existing_unique_rewards sm

/-- The root-level progression pass of `apply_edit_state` (bl4.rs), reached
when progression does not live under `state`. -/
def root_progression_edit (edits : Bl4EditState) (rm : List (YKey × Yaml)) :
    List (YKey × Yaml) :=
  if edits.progression_in_state then rm
  else
    entryUpsertThen rm (.str "progression") (.map [])
      (asMapThen (fun pm => apply_progression_edits pm edits))

/-- The root-level missions pass of `apply_edit_state` (bl4.rs). -/
def root_missions_edit (edits : Bl4EditState) (rm : List (YKey × Yaml)) :
    List (YKey × Yaml) :=
  if ¬edits.missions_in_state ∧
      (edits.tracked_missions_dirty = true ∨ ¬edits.missions.isEmpty) then
    apply_missions rm edits.tracked_missions edits.missions
      edits.tracked_missions_need_none
  else rm

/-- The root-level unlockables pass of `apply_edit_state` (bl4.rs). -/
def root_unlockables_edit (edits : Bl4EditState) (rm : List (YKey × Yaml)) :
    List (YKey × Yaml) :=
  if edits.unlockables.isEmpty then rm
  else
    entryUpsertThen rm (.str "unlockables") (.map []) (asMapThen (fun um =>
      edits.unlockables.foldl (fun um ce =>
        entryUpsertThen um (.str ce.1) (.map []) (asMapThen (fun cm =>
          mapInsert cm (.str "entries") (.seq (ce.2.map Yaml.str))))) um))

/-- Embedding of `apply_edit_state` (bl4.rs). The source mutates the document
in place and returns `Ok(())` on every path; the embedding returns the
post-call document. -/
def apply_edit_state (root : Yaml) (edits : Bl4EditState) : Except String Yaml :=
  match root with
  | .map root_map =>
    match mapGet root_map (.str "state") with
    | Option.none => .ok root
    | some state_value =>
      match state_value with
      | .map sm0 =>
        let sm := apply_state_edits sm0 edits
        let root_map := mapInsert root_map (.str "state") (.map sm)
        let root_map := root_progression_edit edits root_map
        let root_map := root_missions_edit edits root_map
        let root_map := root_unlockables_edit edits root_map
        .ok (.map root_map)
      | _ => .ok root
  | _ => .ok root

/-- The state-mapping keys that `apply_edit_state` ever inserts, overwrites
or removes. -/
def stateTouchedKeys : List String :=
  ["char_guid", "char_name", "player_difficulty", "class", "experience",
   "currencies", "ammo", "progression", "inventory", "personal_vehicle",
   "hover_drive", "vehicle_weapon_slot", "vehicle_cosmetic", "gbxactorparts",
   "missions", "unique_rewards"]

/-- The root keys that `apply_edit_state` ever touches. -/
def rootTouchedKeys : List String :=
  ["state", "progression", "missions", "unlockables"]

/-- A key avoiding every name in a touched-key list (integer keys are never
touched). -/
def keyUntouched (touched : List String) (k : YKey) : Prop :=
  ∀ s, k = YKey.str s → s ∉ touched

/-- Distinctness of mapping keys, the invariant `serde_yaml::Mapping` (an
`IndexMap`) maintains. -/
def keysNodup (m : List (YKey × Yaml)) : Prop :=
  (m.map Prod.fst).Nodup

/-- Lookup of a key directly under a document value. -/
def yamlMapGet (y : Yaml) (k : YKey) : Option Yaml :=
  (asMap y).bind (fun m => mapGet m k)

/-- Lookup of a key inside the `state` mapping of a document. -/
def stateLookup (y : Yaml) (k : YKey) : Option Yaml :=
  (yamlMapGet y (.str "state")).bind (fun sv => yamlMapGet sv k)

/-- A state-map transformation that preserves key distinctness and the value
of every untouched key. -/
def StateStep (f : List (YKey × Yaml) → List (YKey × Yaml)) : Prop :=
  ∀ m, keysNodup m → keysNodup (f m) ∧
    ∀ k, keyUntouched stateTouchedKeys k → mapGet (f m) k = mapGet m k

/-- Lookup along a path of string keys, used to state frame properties and
counterexamples about concrete documents. -/
def yamlGetPath (y : Yaml) : List String → Option Yaml
  | [] => some y
  | k :: rest =>
    match y with
    | .map m =>
      match mapGet m (.str k) with
      | some v => yamlGetPath v rest
      | Option.none => Option.none
    | _ => Option.none

/-- The eight tier nodes of a family filled to its cap, with the costs of
the cost table. -/
def fullFamilyNodes (pre : String) : List (String × Int) :=
  [(pre ++ "01", 5), (pre ++ "02", 10), (pre ++ "03", 20), (pre ++ "04", 30),
   (pre ++ "05", 50), (pre ++ "06", 80), (pre ++ "07", 120), (pre ++ "08", 235)]

/-- A concrete list-subtype part used to exercise `set_part_values`. -/
def c8Part : Part :=
  { index := 7, subtype := .list, value := 0, values := [1, 2] }

/-- A concrete decoded model holding the single part token `c8Part`, with
metadata as `refresh_metadata` computes it. -/
def c8Model : Bl4ItemModel :=
  { original_serial := "", tokens := [.part c8Part], token_text := ""
    bit_string := "", manufacturer_index := Option.none
    manufacturer := Option.none, item_type := Option.none, level := Option.none
    level_marker_token_index := Option.none
    level_value_token_index := Option.none
    parts := decode_parts [.part c8Part] Option.none }

/-- The decoded-part metadata of `c8Part` at token position 0. -/
def c8Dp : DecodedPart := decode_part_at 0 "" "" c8Part

/-- A reference compressor satisfying the stream contract of the zlib
libraries: each byte is emitted behind a tag 1, the stream ends with tag 0,
and the matching reader ignores anything after the terminator. Used to
evaluate the envelope round trip on concrete bytes. -/
def toyCompress (d : List Nat) : List Nat :=
  (d.map (fun b => [1, b])).flatten ++ [0]

/-- The reader of `toyCompress` streams: decodes tagged bytes until the
terminator and ignores trailing data, `none` on a malformed stream. -/
def toyDecompress : List Nat → Option (List Nat)
  | 0 :: _ => some []
  | 1 :: b :: rest => (toyDecompress rest).map (fun t => b :: t)
  | _ => Option.none

/-- Horner accumulation of base-85 digits, the arithmetic effect of the
symbol loop of `decode_base85`. -/
def horner85 (acc : Nat) : List Nat → Nat
  | [] => acc
  | d :: ds => horner85 (acc * 85 + d) ds

/-- The length of the run of `Sep1` tokens at the end of a list, continuing
a run of `tr` already seen: the `trailing_terminators` counter of
`deserialize`. -/
def trailingSep1From (tr : Nat) : List Token → Nat
  | [] => tr
  | .sep1 :: rest => trailingSep1From (tr + 1) rest
  | _ :: rest => trailingSep1From 0 rest

/-- The trailing `Sep1` run of a token list. -/
def trailingSep1Run (ts : List Token) : Nat :=
  trailingSep1From 0 ts

/-- The update of the `trailing_terminators` counter after one token. -/
def tokenTrail (t : Token) (tr : Nat) : Nat :=
  match t with
  | .sep1 => tr + 1
  | _ => 0

/-- The number of spurious `Sep1` tokens produced by the zero-fill byte
padding of `serialize`: half the number of fill bits. -/
def padSep1Count (ts : List Token) : Nat :=
  (8 - (serialize_bits ts).length % 8) % 8 / 2

/-- The deserializer's trailing-run truncation, applied to a token list. -/
def truncate_trailing_sep1 (ts : List Token) : List Token :=
  if trailingSep1Run ts > 1 then ts.take (ts.length - (trailingSep1Run ts - 1))
  else ts

/-- Payload bounds under which every token of the wire format survives its
own encoder/decoder pair exactly: VarInt payloads fit in 16 bits, VarBit in
31, strings are ASCII with a 16-bit byte length, and parts carry canonical
fields for their subtype with 16-bit values. -/
def wfToken : Token → Prop
  | .sep1 => True
  | .sep2 => True
  | .varInt v => v < 2 ^ 16
  | .varBit v => v < 2 ^ 31
  | .str s => (∀ c ∈ s.data, c.toNat < 128) ∧ s.data.length < 2 ^ 16
  | .part p =>
    p.index < 2 ^ 16 ∧
    match p.subtype with
    | .none => p.value = 0 ∧ p.values = []
    | .int => p.value < 2 ^ 16 ∧ p.values = []
    | .list => p.value = 0 ∧ ∀ v ∈ p.values, v < 2 ^ 16

/-- A family with target 8 and cap 8 emits exactly its eight tier nodes. -/
theorem push_family_full (pre : String) :
    push_family pre 8 8 = fullFamilyNodes pre := rfl

/-- Insertion never changes the binding of a different key. -/
theorem mapGet_mapInsert_ne (m : List (YKey × Yaml)) (k q : YKey) (v : Yaml)
    (h : q ≠ k) : mapGet (mapInsert m k v) q = mapGet m q := by
  induction m with
  | nil =>
    simp only [mapInsert, mapGet]
    rw [if_neg (fun hh => h hh.symm)]
  | cons e rest ih =>
    obtain ⟨a, b⟩ := e
    simp only [mapInsert, mapGet]
    by_cases hak : a = k
    · rw [if_pos hak]
      simp only [mapGet]
      rw [if_neg (fun hh => h (hh.symm.trans hak)), if_neg (fun hh => h (hh.symm.trans hak))]
    · rw [if_neg hak]
      simp only [mapGet]
      by_cases haq : a = q
      · rw [if_pos haq, if_pos haq]
      · rw [if_neg haq, if_neg haq]
        exact ih

/-- Insertion binds the inserted key to the inserted value. -/
theorem mapGet_mapInsert_self (m : List (YKey × Yaml)) (k : YKey) (v : Yaml) :
    mapGet (mapInsert m k v) k = some v := by
  induction m with
  | nil => simp [mapInsert, mapGet]
  | cons e rest ih =>
    obtain ⟨a, b⟩ := e
    simp only [mapInsert]
    by_cases hak : a = k
    · rw [if_pos hak]
      simp [mapGet, hak]
    · rw [if_neg hak]
      simp only [mapGet]
      rw [if_neg hak]
      exact ih

/-- The upsert idiom never changes the binding of a different key. -/
theorem mapGet_entryUpsertThen_ne (m : List (YKey × Yaml)) (k q : YKey) (d : Yaml)
    (f : Yaml → Yaml) (h : q ≠ k) :
    mapGet (entryUpsertThen m k d f) q = mapGet m q := by
  unfold entryUpsertThen
  cases mapGet m k <;> exact mapGet_mapInsert_ne _ _ _ _ h

/-- A successful lookup comes from a list entry. -/
theorem mapGet_mem (m : List (YKey × Yaml)) (q : YKey) (v : Yaml)
    (h : mapGet m q = some v) : (q, v) ∈ m := by
  induction m with
  | nil => simp [mapGet] at h
  | cons e rest ih =>
    obtain ⟨a, b⟩ := e
    simp only [mapGet] at h
    by_cases haq : a = q
    · rw [if_pos haq] at h
      subst haq
      exact (List.mem_cons).mpr (Or.inl (by injection h with hv; rw [hv]))
    · rw [if_neg haq] at h
      exact List.mem_cons_of_mem _ (ih h)

/-- A present key yields a successful lookup. -/
theorem mem_mapGet_isSome (m : List (YKey × Yaml)) (q : YKey) (v : Yaml)
    (h : (q, v) ∈ m) : ∃ w, mapGet m q = some w := by
  induction m with
  | nil => simp at h
  | cons e rest ih =>
    obtain ⟨a, b⟩ := e
    simp only [mapGet]
    by_cases haq : a = q
    · exact ⟨b, if_pos haq⟩
    · rw [if_neg haq]
      rcases List.mem_cons.mp h with h1 | h1
      · exact absurd (congrArg Prod.fst h1).symm haq
      · exact ih h1

/-- With distinct keys, membership determines the lookup. -/
theorem mapGet_of_mem_nodup (m : List (YKey × Yaml)) (q : YKey) (v : Yaml)
    (hnd : keysNodup m) (h : (q, v) ∈ m) : mapGet m q = some v := by
  induction m with
  | nil => simp at h
  | cons e rest ih =>
    obtain ⟨a, b⟩ := e
    have hnd' : keysNodup rest := (List.nodup_cons.mp hnd).2
    simp only [mapGet]
    rcases List.mem_cons.mp h with h1 | h1
    · obtain ⟨hq, hv⟩ := Prod.mk.injEq .. ▸ h1
      cases h1
      simp
    · by_cases haq : a = q
      · exfalso
        have : q ∈ rest.map Prod.fst := List.mem_map.mpr ⟨(q, v), h1, rfl⟩
        exact (List.nodup_cons.mp hnd).1 (haq ▸ this)
      · rw [if_neg haq]
        exact ih hnd' h1

/-- Every key of an insertion result is an old key or the inserted one. -/
theorem mem_keys_mapInsert (m : List (YKey × Yaml)) (k q : YKey) (v : Yaml)
    (h : q ∈ (mapInsert m k v).map Prod.fst) :
    q ∈ m.map Prod.fst ∨ q = k := by
  induction m with
  | nil =>
    simp only [mapInsert, List.map_cons, List.map_nil] at h
    rcases List.mem_cons.mp h with h1 | h1
    · exact Or.inr h1
    · simp at h1
  | cons e rest ih =>
    obtain ⟨a, b⟩ := e
    simp only [mapInsert] at h
    by_cases hak : a = k
    · rw [if_pos hak] at h
      simp only [List.map_cons] at h
      rcases List.mem_cons.mp h with h1 | h1
      · exact Or.inl (by simp [h1])
      · exact Or.inl (by simp [h1])
    · rw [if_neg hak] at h
      simp only [List.map_cons] at h
      rcases List.mem_cons.mp h with h1 | h1
      · exact Or.inl (by simp [h1])
      · rcases ih h1 with h2 | h2
        · exact Or.inl (by simp [h2])
        · exact Or.inr h2

/-- Insertion preserves key distinctness. -/
theorem keysNodup_mapInsert (m : List (YKey × Yaml)) (k : YKey) (v : Yaml)
    (hnd : keysNodup m) : keysNodup (mapInsert m k v) := by
  induction m with
  | nil => simp [mapInsert, keysNodup]
  | cons e rest ih =>
    obtain ⟨a, b⟩ := e
    obtain ⟨hna, hnr⟩ := List.nodup_cons.mp hnd
    simp only [mapInsert]
    by_cases hak : a = k
    · rw [if_pos hak]
      exact List.nodup_cons.mpr ⟨hna, hnr⟩
    · rw [if_neg hak]
      refine List.nodup_cons.mpr ⟨?_, ih hnr⟩
      intro hmem
      rcases mem_keys_mapInsert rest k a v hmem with h1 | h1
      · exact hna h1
      · exact hak h1

/-- The upsert idiom preserves key distinctness. -/
theorem keysNodup_entryUpsertThen (m : List (YKey × Yaml)) (k : YKey) (d : Yaml)
    (f : Yaml → Yaml) (hnd : keysNodup m) : keysNodup (entryUpsertThen m k d f) := by
  unfold entryUpsertThen
  cases mapGet m k <;> exact keysNodup_mapInsert _ _ _ hnd

/-- Swap-removal either finds nothing or produces a permutation of the list
with one entry of the removed key deleted. -/
theorem mapRemoveSwap_perm (m : List (YKey × Yaml)) (k : YKey) :
    mapRemoveSwap m k = m ∨
    ∃ pre ent post, m = pre ++ ent :: post ∧ ent.1 = k ∧
      List.Perm (mapRemoveSwap m k) (pre ++ post) := by
  cases hf : m.findIdx? (fun e => e.1 = k) with
  | none =>
    left
    simp only [mapRemoveSwap, hf]
  | some i =>
    obtain ⟨hlen, hp, -⟩ := List.findIdx?_eq_some_iff_getElem.mp hf
    have hm : m = m.take i ++ m.get ⟨i, hlen⟩ :: m.drop (i + 1) := by
      conv_lhs => rw [← List.take_append_drop i m]
      rw [List.drop_eq_getElem_cons hlen]
      rfl
    have hkey : (m.get ⟨i, hlen⟩).1 = k := by
      have := of_decide_eq_true hp
      simpa using this
    have hne : m ≠ [] := by
      intro h0
      rw [h0] at hlen
      exact absurd hlen (by simp)
    cases hg : m.getLast? with
    | none => exact absurd (List.getLast?_eq_getLast m hne ▸ hg) (by simp)
    | some last =>
      have hunf : mapRemoveSwap m k = (m.take i ++ last :: m.drop (i + 1)).dropLast := by
        simp only [mapRemoveSwap, hf, hg]
      refine Or.inr ⟨m.take i, m.get ⟨i, hlen⟩, m.drop (i + 1), hm, hkey, ?_⟩
      rw [hunf]
      by_cases hd : m.drop (i + 1) = []
      · rw [hd, List.append_nil]
        have hres : (m.take i ++ last :: ([] : List (YKey × Yaml))).dropLast = m.take i := by
          simp
        rw [hres]
      · have hDlast : (m.drop (i + 1)).getLast? = some last := by
          rw [← hg]
          conv_rhs => rw [hm]
          rw [List.getLast?_append]
          have : (m.get ⟨i, hlen⟩ :: m.drop (i + 1)).getLast? = (m.drop (i + 1)).getLast? := by
            cases hD : m.drop (i + 1) with
            | nil => exact absurd hD hd
            | cons r rs => simp [List.getLast?_cons_cons]
          rw [this]
          cases hD2 : (m.drop (i + 1)).getLast? with
          | none => exact absurd (List.getLast?_eq_getLast _ hd ▸ hD2) (by simp)
          | some x => rfl
        have hD : (m.drop (i + 1)).dropLast ++ [last] = m.drop (i + 1) := by
          have := List.dropLast_concat_getLast hd
          have hx : (m.drop (i + 1)).getLast hd = last := by
            have h2 := List.getLast?_eq_getLast (m.drop (i + 1)) hd
            rw [hDlast] at h2
            injection h2 with hh
            exact hh.symm
          rw [hx] at this
          exact this
        have hsplit : (m.take i ++ last :: m.drop (i + 1)).dropLast
            = m.take i ++ last :: (m.drop (i + 1)).dropLast := by
          conv_lhs =>
            rw [show m.take i ++ last :: m.drop (i + 1)
                = (m.take i ++ last :: (m.drop (i + 1)).dropLast) ++ [last] by
              rw [List.append_assoc, List.cons_append, hD]]
          exact List.dropLast_concat
        rw [hsplit]
        have hperm : List.Perm (last :: (m.drop (i + 1)).dropLast)
            ((m.drop (i + 1)).dropLast ++ [last]) :=
          (List.perm_append_singleton _ _).symm
        have hres := List.Perm.append_left (m.take i) hperm
        rw [hD] at hres
        exact hres


/-- Lookup in an appended list: the left part answers first. -/
theorem mapGet_append (pre xs : List (YKey × Yaml)) (q : YKey) :
    mapGet (pre ++ xs) q =
      match mapGet pre q with
      | some v => some v
      | Option.none => mapGet xs q := by
  induction pre with
  | nil => simp [mapGet]
  | cons e rest ih =>
    obtain ⟨a, b⟩ := e
    simp only [List.cons_append, mapGet]
    by_cases haq : a = q
    · rw [if_pos haq, if_pos haq]
    · rw [if_neg haq, if_neg haq]
      exact ih

/-- A failed lookup means the key is absent. -/
theorem mapGet_eq_none_iff (m : List (YKey × Yaml)) (q : YKey) :
    mapGet m q = Option.none ↔ q ∉ m.map Prod.fst := by
  induction m with
  | nil => simp [mapGet]
  | cons e rest ih =>
    obtain ⟨a, b⟩ := e
    simp only [mapGet, List.map_cons, List.mem_cons]
    by_cases haq : a = q
    · rw [if_pos haq]
      simp [haq]
    · rw [if_neg haq, ih]
      constructor
      · intro h hh
        rcases hh with h1 | h1
        · exact haq h1.symm
        · exact h h1
      · intro h hh
        exact h (Or.inr hh)

/-- With distinct keys, lookup is invariant under permutation. -/
theorem mapGet_perm (m m' : List (YKey × Yaml)) (q : YKey)
    (hnd : keysNodup m) (hp : List.Perm m m') : mapGet m q = mapGet m' q := by
  have hnd' : keysNodup m' := ((hp.map Prod.fst).nodup_iff).mp hnd
  cases h : mapGet m q with
  | none =>
    have hq : q ∉ m.map Prod.fst := (mapGet_eq_none_iff m q).mp h
    have hq' : q ∉ m'.map Prod.fst := fun hc => hq ((hp.map Prod.fst).mem_iff.mpr hc)
    exact ((mapGet_eq_none_iff m' q).mpr hq').symm
  | some v =>
    exact (mapGet_of_mem_nodup m' q v hnd' (hp.mem_iff.mp (mapGet_mem m q v h))).symm

/-- Swap-removal preserves key distinctness. -/
theorem keysNodup_mapRemoveSwap (m : List (YKey × Yaml)) (k : YKey)
    (hnd : keysNodup m) : keysNodup (mapRemoveSwap m k) := by
  rcases mapRemoveSwap_perm m k with h | ⟨pre, ent, post, hm, hk, hp⟩
  · rw [h]
    exact hnd
  · have hnd1 : keysNodup (pre ++ ent :: post) := hm ▸ hnd
    have hsub : List.Sublist ((pre ++ post).map Prod.fst)
        ((pre ++ ent :: post).map Prod.fst) := by
      simp only [List.map_append, List.map_cons]
      exact (List.sublist_cons_self ent.1 (post.map Prod.fst)).append_left (pre.map Prod.fst)
    exact ((hp.map Prod.fst).nodup_iff).mpr (List.Nodup.sublist hsub hnd1)

/-- Under distinct keys, swap-removal never changes the binding of another
key. -/
theorem mapGet_mapRemoveSwap_ne (m : List (YKey × Yaml)) (k q : YKey)
    (hnd : keysNodup m) (h : q ≠ k) :
    mapGet (mapRemoveSwap m k) q = mapGet m q := by
  rcases mapRemoveSwap_perm m k with heq | ⟨pre, ent, post, hm, hk, hp⟩
  · rw [heq]
  · have h1 : mapGet (mapRemoveSwap m k) q = mapGet (pre ++ post) q :=
      mapGet_perm _ _ q (keysNodup_mapRemoveSwap m k hnd) hp
    rw [h1, hm, mapGet_append, mapGet_append]
    obtain ⟨a, b⟩ := ent
    cases mapGet pre q with
    | some v => rfl
    | none =>
      simp only [mapGet]
      rw [if_neg (fun hh => h (hh.symm.trans hk))]

/-- An untouched key differs from every touched name. -/
theorem keyUntouched_ne (touched : List String) (k : YKey) (s : String)
    (hs : s ∈ touched) (hk : keyUntouched touched k) : k ≠ YKey.str s :=
  fun hh => hk s hh hs

/-- Insertion at a touched key preserves distinctness and untouched
bindings. -/
theorem mapStep_insert (touched : List String) (s : String) (hs : s ∈ touched)
    (v : Yaml) (m : List (YKey × Yaml)) (hnd : keysNodup m) :
    keysNodup (mapInsert m (.str s) v) ∧
      ∀ k, keyUntouched touched k → mapGet (mapInsert m (.str s) v) k = mapGet m k :=
  ⟨keysNodup_mapInsert m _ v hnd,
   fun k hk => mapGet_mapInsert_ne m _ k v (keyUntouched_ne touched k s hs hk)⟩

/-- Upserting at a touched key preserves distinctness and untouched
bindings. -/
theorem mapStep_upsert (touched : List String) (s : String) (hs : s ∈ touched)
    (d : Yaml) (f : Yaml → Yaml) (m : List (YKey × Yaml)) (hnd : keysNodup m) :
    keysNodup (entryUpsertThen m (.str s) d f) ∧
      ∀ k, keyUntouched touched k →
        mapGet (entryUpsertThen m (.str s) d f) k = mapGet m k :=
  ⟨keysNodup_entryUpsertThen m _ d f hnd,
   fun k hk => mapGet_entryUpsertThen_ne m _ k d f (keyUntouched_ne touched k s hs hk)⟩

/-- Removal at a touched key preserves distinctness and untouched
bindings. -/
theorem mapStep_remove (touched : List String) (s : String) (hs : s ∈ touched)
    (m : List (YKey × Yaml)) (hnd : keysNodup m) :
    keysNodup (mapRemoveSwap m (.str s)) ∧
      ∀ k, keyUntouched touched k → mapGet (mapRemoveSwap m (.str s)) k = mapGet m k :=
  ⟨keysNodup_mapRemoveSwap m _ hnd,
   fun k hk => mapGet_mapRemoveSwap_ne m _ k hnd (keyUntouched_ne touched k s hs hk)⟩

/-- A conditional remove-or-insert at a touched key preserves distinctness
and untouched bindings. -/
theorem mapStep_remove_or_insert (touched : List String) (s : String)
    (hs : s ∈ touched) (c : Prop) [Decidable c] (v : Yaml)
    (m : List (YKey × Yaml)) (hnd : keysNodup m) :
    keysNodup (if c then mapRemoveSwap m (.str s) else mapInsert m (.str s) v) ∧
      ∀ k, keyUntouched touched k →
        mapGet (if c then mapRemoveSwap m (.str s) else mapInsert m (.str s) v) k
          = mapGet m k := by
  split
  · exact mapStep_remove touched s hs m hnd
  · exact mapStep_insert touched s hs v m hnd

/-- The char-guid statement is a frame-preserving state step. -/
theorem stateStep_char_guid (edits : Bl4EditState) : StateStep (edit_char_guid edits) := by
  intro m hnd
  unfold edit_char_guid
  split
  · exact mapStep_insert stateTouchedKeys "char_guid" (by decide) _ m hnd
  · exact ⟨hnd, fun k hk => rfl⟩

/-- The char-name statement is a frame-preserving state step. -/
theorem stateStep_char_name (edits : Bl4EditState) : StateStep (edit_char_name edits) := by
  intro m hnd
  unfold edit_char_name
  split
  · exact mapStep_insert stateTouchedKeys "char_name" (by decide) _ m hnd
  · exact ⟨hnd, fun k hk => rfl⟩

/-- The player-difficulty statement is a frame-preserving state step. -/
theorem stateStep_player_difficulty (edits : Bl4EditState) :
    StateStep (edit_player_difficulty edits) := by
  intro m hnd
  unfold edit_player_difficulty
  split
  · exact mapStep_insert stateTouchedKeys "player_difficulty" (by decide) _ m hnd
  · exact ⟨hnd, fun k hk => rfl⟩

/-- The class statement is a frame-preserving state step. -/
theorem stateStep_class_name (edits : Bl4EditState) : StateStep (edit_class_name edits) := by
  intro m hnd
  unfold edit_class_name
  split
  · exact mapStep_insert stateTouchedKeys "class" (by decide) _ m hnd
  · exact ⟨hnd, fun k hk => rfl⟩

/-- The experience block is a frame-preserving state step. -/
theorem stateStep_experience (edits : Bl4EditState) : StateStep (edit_experience edits) := by
  intro m hnd
  unfold edit_experience
  split
  · exact mapStep_insert stateTouchedKeys "experience" (by decide) _ m hnd
  · exact ⟨hnd, fun k hk => rfl⟩

/-- The currencies block is a frame-preserving state step. -/
theorem stateStep_currencies (edits : Bl4EditState) : StateStep (edit_currencies edits) := by
  intro m hnd
  unfold edit_currencies
  split
  · exact ⟨hnd, fun k hk => rfl⟩
  · exact mapStep_upsert stateTouchedKeys "currencies" (by decide) _ _ m hnd

/-- The ammo block is a frame-preserving state step. -/
theorem stateStep_ammo (edits : Bl4EditState) : StateStep (edit_ammo edits) := by
  intro m hnd
  unfold edit_ammo
  split
  · exact ⟨hnd, fun k hk => rfl⟩
  · exact mapStep_upsert stateTouchedKeys "ammo" (by decide) _ _ m hnd

/-- The in-state progression block is a frame-preserving state step. -/
theorem stateStep_progression (edits : Bl4EditState) :
    StateStep (edit_progression_in_state edits) := by
  intro m hnd
  unfold edit_progression_in_state
  split
  · exact mapStep_upsert stateTouchedKeys "progression" (by decide) _ _ m hnd
  · exact ⟨hnd, fun k hk => rfl⟩

/-- The inventory block is a frame-preserving state step. -/
theorem stateStep_inventory (edits : Bl4EditState) : StateStep (edit_inventory edits) := by
  intro m hnd
  unfold edit_inventory
  exact mapStep_upsert stateTouchedKeys "inventory" (by decide) _ _ m hnd

/-- The personal-vehicle statement is a frame-preserving state step. -/
theorem stateStep_personal_vehicle (edits : Bl4EditState) :
    StateStep (edit_personal_vehicle edits) := by
  intro m hnd
  unfold edit_personal_vehicle set_optional_string
  split
  · exact mapStep_insert stateTouchedKeys "personal_vehicle" (by decide) _ m hnd
  · exact mapStep_remove stateTouchedKeys "personal_vehicle" (by decide) m hnd

/-- The hover-drive statement is a frame-preserving state step. -/
theorem stateStep_hover_drive (edits : Bl4EditState) :
    StateStep (edit_hover_drive edits) := by
  intro m hnd
  unfold edit_hover_drive set_optional_string
  split
  · exact mapStep_insert stateTouchedKeys "hover_drive" (by decide) _ m hnd
  · exact mapStep_remove stateTouchedKeys "hover_drive" (by decide) m hnd

/-- The vehicle-weapon-slot statement is a frame-preserving state step. -/
theorem stateStep_vehicle_weapon_slot (edits : Bl4EditState) :
    StateStep (edit_vehicle_weapon_slot edits) := by
  intro m hnd
  unfold edit_vehicle_weapon_slot set_optional_i32
  split
  · exact mapStep_insert stateTouchedKeys "vehicle_weapon_slot" (by decide) _ m hnd
  · exact mapStep_remove stateTouchedKeys "vehicle_weapon_slot" (by decide) m hnd

/-- The vehicle-cosmetic statement is a frame-preserving state step. -/
theorem stateStep_vehicle_cosmetic (edits : Bl4EditState) :
    StateStep (edit_vehicle_cosmetic edits) := by
  intro m hnd
  unfold edit_vehicle_cosmetic set_optional_string
  split
  · split
    · exact mapStep_insert stateTouchedKeys "vehicle_cosmetic" (by decide) _ m hnd
    · exact mapStep_remove stateTouchedKeys "vehicle_cosmetic" (by decide) m hnd
  · exact ⟨hnd, fun k hk => rfl⟩

/-- The cosmetics pass is a frame-preserving state step. -/
theorem stateStep_cosmetics (cosmetics : Bl4Cosmetics) (vl : Bl4VehicleLoadout) :
    StateStep (fun sm => apply_cosmetics sm cosmetics vl) := by
  intro m hnd
  unfold apply_cosmetics
  exact mapStep_upsert stateTouchedKeys "gbxactorparts" (by decide) _ _ m hnd

/-- The in-state missions gate is a frame-preserving state step. -/
theorem stateStep_missions (edits : Bl4EditState) :
    StateStep (edit_missions_in_state edits) := by
  intro m hnd
  unfold edit_missions_in_state apply_missions
  split
  · exact mapStep_upsert stateTouchedKeys "missions" (by decide) _ _ m hnd
  · exact ⟨hnd, fun k hk => rfl⟩

/-- The unique-rewards block is a frame-preserving state step for every
previously read reward list. -/
theorem stateStep_unique_rewards (edits : Bl4EditState) (existing : List String) :
    StateStep (edit_unique_rewards edits existing) := by
  intro m hnd
  simp only [edit_unique_rewards]
  split
  · exact mapStep_remove_or_insert stateTouchedKeys "unique_rewards" (by decide) _ _ m hnd
  · exact ⟨hnd, fun k hk => rfl⟩

/-- The whole state borrow of the applier preserves key distinctness and the
binding of every key outside the touched list. -/
theorem stateStep_apply_state_edits (edits : Bl4EditState) :
    StateStep (fun sm => apply_state_edits sm edits) := by
  intro m hnd
  obtain ⟨n1, g1⟩ := stateStep_char_guid edits m hnd
  obtain ⟨n2, g2⟩ := stateStep_char_name edits _ n1
  obtain ⟨n3, g3⟩ := stateStep_player_difficulty edits _ n2
  obtain ⟨n4, g4⟩ := stateStep_class_name edits _ n3
  obtain ⟨n5, g5⟩ := stateStep_experience edits _ n4
  obtain ⟨n6, g6⟩ := stateStep_currencies edits _ n5
  obtain ⟨n7, g7⟩ := stateStep_ammo edits _ n6
  obtain ⟨n8, g8⟩ := stateStep_progression edits _ n7
  obtain ⟨n9, g9⟩ := stateStep_inventory edits _ n8
  obtain ⟨n10, g10⟩ := stateStep_personal_vehicle edits _ n9
  obtain ⟨n11, g11⟩ := stateStep_hover_drive edits _ n10
  obtain ⟨n12, g12⟩ := stateStep_vehicle_weapon_slot edits _ n11
  obtain ⟨n13, g13⟩ := stateStep_vehicle_cosmetic edits _ n12
  obtain ⟨n14, g14⟩ := stateStep_cosmetics edits.cosmetics edits.vehicle_loadout _ n13
  obtain ⟨n15, g15⟩ := stateStep_missions edits _ n14
  obtain ⟨n16, g16⟩ := stateStep_unique_rewards edits
    (read_existing_unique_rewards (edit_ammo edits (edit_currencies edits
      (edit_experience edits (edit_class_name edits (edit_player_difficulty edits
        (edit_char_name edits (edit_char_guid edits m)))))))) _ n15
  refine ⟨n16, fun k hk => ?_⟩
  exact (g16 k hk).trans ((g15 k hk).trans ((g14 k hk).trans ((g13 k hk).trans
    ((g12 k hk).trans ((g11 k hk).trans ((g10 k hk).trans ((g9 k hk).trans
    ((g8 k hk).trans ((g7 k hk).trans ((g6 k hk).trans ((g5 k hk).trans
    ((g4 k hk).trans ((g3 k hk).trans ((g2 k hk).trans (g1 k hk)))))))))))))))

/-- The root progression pass only touches the progression key. -/
theorem root_progression_frame (edits : Bl4EditState) (m : List (YKey × Yaml))
    (hnd : keysNodup m) :
    keysNodup (root_progression_edit edits m) ∧
      ∀ k, k ≠ YKey.str "progression" →
        mapGet (root_progression_edit edits m) k = mapGet m k := by
  unfold root_progression_edit
  split
  · exact ⟨hnd, fun k hk => rfl⟩
  · exact ⟨keysNodup_entryUpsertThen m _ _ _ hnd,
      fun k hk => mapGet_entryUpsertThen_ne m _ k _ _ hk⟩

/-- The root missions pass only touches the missions key. -/
theorem root_missions_frame (edits : Bl4EditState) (m : List (YKey × Yaml))
    (hnd : keysNodup m) :
    keysNodup (root_missions_edit edits m) ∧
      ∀ k, k ≠ YKey.str "missions" →
        mapGet (root_missions_edit edits m) k = mapGet m k := by
  unfold root_missions_edit apply_missions
  split
  · exact ⟨keysNodup_entryUpsertThen m _ _ _ hnd,
      fun k hk => mapGet_entryUpsertThen_ne m _ k _ _ hk⟩
  · exact ⟨hnd, fun k hk => rfl⟩

/-- The root unlockables pass only touches the unlockables key. -/
theorem root_unlockables_frame (edits : Bl4EditState) (m : List (YKey × Yaml))
    (hnd : keysNodup m) :
    keysNodup (root_unlockables_edit edits m) ∧
      ∀ k, k ≠ YKey.str "unlockables" →
        mapGet (root_unlockables_edit edits m) k = mapGet m k := by
  unfold root_unlockables_edit
  split
  · exact ⟨hnd, fun k hk => rfl⟩
  · exact ⟨keysNodup_entryUpsertThen m _ _ _ hnd,
      fun k hk => mapGet_entryUpsertThen_ne m _ k _ _ hk⟩

/-- Claim C3: `derive_key` keeps the digits of the account id, parses them as
a `u64`, XORs that integer's little-endian bytes into the first 8 bytes of
`BASE_KEY`, and leaves bytes 8..32 unchanged; on the reference account id
`"76561199131094380"` the derived key is exactly the 32 bytes
`5981fa32 f25da0eb be6b8311 5403ebfb 2725642e d5490629 0578bd60 ba4aa787`. -/
theorem claim_C3_derive_key (id : String) (h1 : digitsOf id ≠ [])
    (h2 : decimalValue (digitsOf id) < 2 ^ 64) :
    (∃ key, derive_key id = .ok key ∧ key.length = 32 ∧
      key.take 8 = List.zipWith (fun b s => b ^^^ s) (BASE_KEY.take 8)
        (u64_to_le_bytes (decimalValue (digitsOf id))) ∧
      key.drop 8 = BASE_KEY.drop 8) ∧
    derive_key "76561199131094380" = .ok
      [0x59, 0x81, 0xFA, 0x32, 0xF2, 0x5D, 0xA0, 0xEB, 0xBE, 0x6B, 0x83, 0x11,
       0x54, 0x03, 0xEB, 0xFB, 0x27, 0x25, 0x64, 0x2E, 0xD5, 0x49, 0x06, 0x29,
       0x05, 0x78, 0xBD, 0x60, 0xBA, 0x4A, 0xA7, 0x87] := by
  have hlen : (List.zipWith (fun b s => b ^^^ s) (BASE_KEY.take 8)
      (u64_to_le_bytes (decimalValue (digitsOf id)))).length = 8 := by
    rw [List.length_zipWith]
    have h1' : (BASE_KEY.take 8).length = 8 := by decide
    have h2' : (u64_to_le_bytes (decimalValue (digitsOf id))).length = 8 := by
      simp [u64_to_le_bytes]
    omega
  constructor
  · refine ⟨List.zipWith (fun b s => b ^^^ s) (BASE_KEY.take 8)
      (u64_to_le_bytes (decimalValue (digitsOf id))) ++ BASE_KEY.drop 8, ?_, ?_, ?_, ?_⟩
    · unfold derive_key
      rw [if_neg (by simpa using h1), if_pos h2]
    · rw [List.length_append, hlen]
      decide
    · rw [List.take_left' hlen]
    · rw [List.drop_left' hlen]
  · decide

/-- Witness for C3 at the reference account id. -/
theorem claim_C3_derive_key_witness :
    (∃ key, derive_key "76561199131094380" = .ok key ∧ key.length = 32 ∧
      key.take 8 = List.zipWith (fun b s => b ^^^ s) (BASE_KEY.take 8)
        (u64_to_le_bytes (decimalValue (digitsOf "76561199131094380"))) ∧
      key.drop 8 = BASE_KEY.drop 8) ∧
    derive_key "76561199131094380" = .ok
      [0x59, 0x81, 0xFA, 0x32, 0xF2, 0x5D, 0xA0, 0xEB, 0xBE, 0x6B, 0x83, 0x11,
       0x54, 0x03, 0xEB, 0xFB, 0x27, 0x25, 0x64, 0x2E, 0xD5, 0x49, 0x06, 0x29,
       0x05, 0x78, 0xBD, 0x60, 0xBA, 0x4A, 0xA7, 0x87] :=
  claim_C3_derive_key "76561199131094380" (by decide) (by decide)

/-- Counterexample to C4 as stated: the base85 encoder emits the character at
index 0 of the actual alphabet, `'0'`, not the `'A'` that the claimed
alphabet puts at index 0; encoding the single byte 0 produces `"@U00"`, not
`"@UAA"`. -/
theorem claim_C4_counterexample :
    B85_CHARSET.getD 0 0 = '0'.toNat ∧ specClaimedB85Alphabet.getD 0 0 = 'A'.toNat ∧
    encode_base85 [0] = "@U00" ∧ decode_base85 "@U00" = .ok [0] ∧
    B85_CHARSET ≠ specClaimedB85Alphabet := by
  refine ⟨rfl, rfl, rfl, rfl, by decide⟩

/-- Claim C4 as amended: the item-serial base85 codec uses the 85-character
alphabet `B85_CHARSET` beginning `0123456789A...` (the string the claim and
the specification quote is instead the legacy bit-pack `CHARSET` of bl4.rs);
the reverse table maps the symbol at each index back to that index. -/
theorem claim_C4_charset :
    B85_CHARSET.length = 85 ∧ specClaimedB85Alphabet = CHARSET ∧
    (∀ d : Fin 85, reverseLookupAt (B85_CHARSET.getD d 0) = Int.ofNat d) := by
  refine ⟨by decide, by decide, by decide⟩

/-- Counterexample to C5 as stated: the status `"none pending"` contains the
negative substring `"none"` of the claim, so the claimed classifier rejects
it, but the code only compares the whole string with `"none"` and accepts. -/
theorem claim_C5_counterexample :
    mission_status_is_active "none pending" = true ∧
    missionActiveSpecClaim "none pending" = false := by
  exact ⟨by decide, by decide⟩

/-- Claim C5 as amended: the classifier returns true iff the lower-cased
status is non-empty, is not exactly `"none"`, contains none of
complete/finished/deactivated/inactive, and contains at least one of
active/inprogress/started/running/pending. -/
theorem claim_C5_mission_active (s : String) :
    mission_status_is_active s = missionActiveAmended s := by
  unfold mission_status_is_active missionActiveAmended
  simp only [List.all_cons, List.all_nil, List.any_cons, List.any_nil]
  generalize (asciiLower s).isEmpty = a
  generalize (asciiLower s == "none") = b
  generalize strContains (asciiLower s) "complete" = c1
  generalize strContains (asciiLower s) "finished" = c2
  generalize strContains (asciiLower s) "deactivated" = c3
  generalize strContains (asciiLower s) "inactive" = c4
  generalize strContains (asciiLower s) "active" = p1
  generalize strContains (asciiLower s) "inprogress" = p2
  generalize strContains (asciiLower s) "started" = p3
  generalize strContains (asciiLower s) "running" = p4
  generalize strContains (asciiLower s) "pending" = p5
  revert a b c1 c2 c3 c4 p1 p2 p3 p4 p5
  decide

/-- Counterexample to C6 as stated: with only the heavy family non-zero, the
hypothesis of the claim holds and the bank target is 0, yet the rebuilt node
list is empty — `any_sdu_requested` consults only the six graph families. -/
theorem claim_C6_counterexample :
    sduAnyNonZero { sduLevelsDefault with heavy := 1 } ∧
    ({ sduLevelsDefault with heavy := 1 } : Bl4SduLevels).bank = 0 ∧
    apply_sdu_levels_to_nodes { sduLevelsDefault with heavy := 1 } = [] := by
  refine ⟨by decide, rfl, rfl⟩

/-- Claim C6 as amended: when at least one of the six graph families
(backpack, pistol, smg, assault rifle, shotgun, sniper) has a positive
target, an omitted bank family is filled to the nodes Bank_01..Bank_08 and an
omitted lost-loot family to Lost_Loot_01..Lost_Loot_08, with the tier costs
of the cost table. -/
theorem claim_C6_sdu_backfill (levels : Bl4SduLevels) (hreq : sduAnyRequested levels) :
    (levels.bank = 0 → ∀ nc ∈ fullFamilyNodes "Bank_",
      mkSduNode nc ∈ apply_sdu_levels_to_nodes levels) ∧
    (levels.lost_loot = 0 → ∀ nc ∈ fullFamilyNodes "Lost_Loot_",
      mkSduNode nc ∈ apply_sdu_levels_to_nodes levels) := by
  constructor
  · intro hbank nc hnc
    simp only [apply_sdu_levels_to_nodes]
    rw [show (if levels.bank = 0 ∧ sduAnyRequested levels then (8 : Int) else levels.bank)
        = 8 from if_pos ⟨hbank, hreq⟩]
    refine List.mem_map_of_mem mkSduNode
      (List.mem_append_left _ (List.mem_append_right _ ?_))
    rw [push_family_full]
    exact hnc
  · intro hlost nc hnc
    simp only [apply_sdu_levels_to_nodes]
    rw [show (if levels.lost_loot = 0 ∧ sduAnyRequested levels then (8 : Int)
        else levels.lost_loot) = 8 from if_pos ⟨hlost, hreq⟩]
    refine List.mem_map_of_mem mkSduNode (List.mem_append_right _ ?_)
    rw [push_family_full]
    exact hnc

/-- Witness for C6 at a pistol-only edit. -/
theorem claim_C6_sdu_backfill_witness :
    (({ sduLevelsDefault with pistol := 1 } : Bl4SduLevels).bank = 0 →
      ∀ nc ∈ fullFamilyNodes "Bank_",
        mkSduNode nc ∈ apply_sdu_levels_to_nodes { sduLevelsDefault with pistol := 1 }) ∧
    (({ sduLevelsDefault with pistol := 1 } : Bl4SduLevels).lost_loot = 0 →
      ∀ nc ∈ fullFamilyNodes "Lost_Loot_",
        mkSduNode nc ∈ apply_sdu_levels_to_nodes { sduLevelsDefault with pistol := 1 }) :=
  claim_C6_sdu_backfill { sduLevelsDefault with pistol := 1 } (by decide)

/-- Claim C10: when the root document is not a mapping, or is a mapping
without a `"state"` key, `apply_edit_state` returns `Ok` and leaves the
document unchanged, whatever the edit state — the root-level progression,
missions and unlockables passes are only reached after the `"state"` guard. -/
theorem claim_C10_no_state (root : Yaml) (edits : Bl4EditState)
    (h : asMap root = Option.none ∨
      ∃ m, root = Yaml.map m ∧ mapGet m (.str "state") = Option.none) :
    apply_edit_state root edits = .ok root := by
  rcases h with h | ⟨m, rfl, hm⟩
  · cases root <;> first
      | rfl
      | (exfalso; simp [asMap] at h)
  · simp only [apply_edit_state]
    rw [hm]

/-- Witness for C10 on a scalar root and on a mapping without `"state"`. -/
theorem claim_C10_no_state_witness :
    apply_edit_state (Yaml.str "x") editStateDefault = .ok (Yaml.str "x") ∧
    apply_edit_state (Yaml.map [(.str "other", .int 1)]) editStateDefault =
      .ok (Yaml.map [(.str "other", .int 1)]) :=
  ⟨claim_C10_no_state _ _ (Or.inl rfl),
   claim_C10_no_state _ _ (Or.inr ⟨_, rfl, rfl⟩)⟩

/-- Claim C7 is refuted as stated: with the default (fully absent) edit
state, `apply_edit_state` still rewrites the inventory subtree — the
`equip_slots_unlocked` list is unconditionally overwritten with the sorted
edit list, here emptying a previously non-empty list. -/
theorem claim_C7_counterexample :
    ∃ doc, apply_edit_state (Yaml.map [(.str "state", .map [(.str "inventory",
        .map [(.str "equip_slots_unlocked", .seq [.int 5])])])]) editStateDefault
      = .ok doc ∧
    yamlGetPath doc ["state", "inventory", "equip_slots_unlocked"]
      = some (.seq []) ∧
    some (Yaml.seq []) ≠ some (Yaml.seq [.int 5]) := by
  refine ⟨_, rfl, rfl, ?_⟩
  simp

/-- Claim C7 (amended): on a mapping root with distinct keys whose
`"state"` entry is a mapping with distinct keys, `apply_edit_state`
succeeds, preserves key distinctness at both levels, binds `"state"` to the
edited state map, leaves every root key other than `state`, `progression`,
`missions`, `unlockables` unchanged, and leaves every state key outside the
sixteen state keys the applier writes (`stateTouchedKeys`) unchanged. -/
theorem claim_C7_frame (edits : Bl4EditState) (rm sm : List (YKey × Yaml))
    (hnd : keysNodup rm) (hsnd : keysNodup sm)
    (hstate : mapGet rm (.str "state") = some (.map sm)) :
    ∃ rm', apply_edit_state (.map rm) edits = .ok (.map rm') ∧ keysNodup rm' ∧
      mapGet rm' (.str "state") = some (.map (apply_state_edits sm edits)) ∧
      keysNodup (apply_state_edits sm edits) ∧
      (∀ k, keyUntouched rootTouchedKeys k → mapGet rm' k = mapGet rm k) ∧
      (∀ k, keyUntouched stateTouchedKeys k →
        mapGet (apply_state_edits sm edits) k = mapGet sm k) := by
  obtain ⟨hsn, hsg⟩ := stateStep_apply_state_edits edits sm hsnd
  obtain ⟨hn1, hg1⟩ := mapStep_insert rootTouchedKeys "state" (by decide)
    (.map (apply_state_edits sm edits)) rm hnd
  obtain ⟨hn2, hg2⟩ := root_progression_frame edits _ hn1
  obtain ⟨hn3, hg3⟩ := root_missions_frame edits _ hn2
  obtain ⟨hn4, hg4⟩ := root_unlockables_frame edits _ hn3
  refine ⟨_, ?_, hn4, ?_, hsn, ?_, hsg⟩
  · simp only [apply_edit_state]
    rw [hstate]
  · rw [hg4 _ (by decide), hg3 _ (by decide), hg2 _ (by decide)]
    exact mapGet_mapInsert_self rm _ _
  · intro k hk
    rw [hg4 k (keyUntouched_ne rootTouchedKeys k _ (by decide) hk),
        hg3 k (keyUntouched_ne rootTouchedKeys k _ (by decide) hk),
        hg2 k (keyUntouched_ne rootTouchedKeys k _ (by decide) hk)]
    exact hg1 k hk

/-- Witness for the amended C7 on a two-key root whose state map holds one
untouched key. -/
theorem claim_C7_frame_witness :
    ∃ rm', apply_edit_state (Yaml.map [(YKey.str "state",
          Yaml.map [(YKey.str "custom", Yaml.int 7)]),
          (YKey.str "extra", Yaml.int 3)]) editStateDefault
        = .ok (.map rm') ∧ keysNodup rm' ∧
      mapGet rm' (.str "state")
        = some (.map (apply_state_edits [(YKey.str "custom", Yaml.int 7)]
            editStateDefault)) ∧
      keysNodup (apply_state_edits [(YKey.str "custom", Yaml.int 7)]
        editStateDefault) ∧
      (∀ k, keyUntouched rootTouchedKeys k →
        mapGet rm' k = mapGet [(YKey.str "state",
          Yaml.map [(YKey.str "custom", Yaml.int 7)]),
          (YKey.str "extra", Yaml.int 3)] k) ∧
      (∀ k, keyUntouched stateTouchedKeys k →
        mapGet (apply_state_edits [(YKey.str "custom", Yaml.int 7)]
            editStateDefault) k
          = mapGet [(YKey.str "custom", Yaml.int 7)] k) :=
  claim_C7_frame editStateDefault _ _ (by unfold keysNodup; decide)
    (by unfold keysNodup; decide) rfl

/-- Every entry of the decoded part list points at a `Part` token of the
token list whose subtype and index agree with the decoded metadata. -/
theorem decode_parts_from_get (manufacturer item_type : String)
    (tokens : List Token) : ∀ (idx i : Nat) (dp : DecodedPart),
      (decode_parts_from idx manufacturer item_type tokens).get? i = some dp →
      ∃ (p : Part) (j : Nat), dp.token_index = idx + j ∧
        tokens.get? j = some (.part p) ∧
        p.subtype = dp.subtype ∧ p.index = dp.index := by
  induction tokens with
  | nil =>
    intro idx i dp h
    simp [decode_parts_from] at h
  | cons t rest ih =>
    intro idx i dp h
    cases t
    case part p =>
      cases i with
      | zero =>
        simp only [decode_parts_from, List.get?_cons_zero] at h
        obtain rfl := Option.some.inj h
        cases hps : p.subtype with
        | none =>
          exact ⟨p, 0, by simp [decode_part_at, hps], by simp,
            by simp [decode_part_at, hps], by simp [decode_part_at, hps]⟩
        | int =>
          exact ⟨p, 0, by simp [decode_part_at, hps], by simp,
            by simp [decode_part_at, hps], by simp [decode_part_at, hps]⟩
        | list =>
          exact ⟨p, 0, by simp [decode_part_at, hps], by simp,
            by simp [decode_part_at, hps], by simp [decode_part_at, hps]⟩
      | succ i2 =>
        simp only [decode_parts_from, List.get?_cons_succ] at h
        obtain ⟨q, j, hji, hjg, hsub, hidx⟩ := ih (idx + 1) i2 dp h
        exact ⟨q, j + 1, by omega, by simpa using hjg, hsub, hidx⟩
    all_goals
      simp only [decode_parts_from] at h
      obtain ⟨q, j, hji, hjg, hsub, hidx⟩ := ih (idx + 1) i dp h
      exact ⟨q, j + 1, by omega, by simpa using hjg, hsub, hidx⟩

/-- Claim C8: on a model whose part metadata is consistent with its token
list (the invariant `refresh_metadata` establishes) and an in-bounds part
ordinal, `set_part_values` leaves the model unchanged and errors when the
part subtype is `None`; for subtype `Int` it errors unless exactly one value
is given and otherwise overwrites the part's single value; for subtype
`List` it always succeeds and replaces the value list wholesale. -/
theorem claim_C8_set_part_values (m : Bl4ItemModel) (part_idx : Nat)
    (new_values : List Nat) (dp : DecodedPart)
    (hconsist : m.parts = decode_parts m.tokens
      ((find_int_at_pos m.tokens 0).bind lookup_item_type))
    (hdp : m.parts.get? part_idx = some dp) :
    (dp.subtype = .none →
      set_part_values m part_idx new_values
        = (m, .error "part does not support value overrides")) ∧
    (dp.subtype = .int → new_values.length ≠ 1 →
      set_part_values m part_idx new_values
        = (m, .error "int subtypes require exactly one value")) ∧
    (dp.subtype = .int → new_values.length = 1 →
      ∃ p : Part, m.tokens.get? dp.token_index = some (.part p) ∧
        set_part_values m part_idx new_values
          = (refresh_metadata { m with tokens := m.tokens.set dp.token_index (.part { p with value := new_values.headD 0 }) }, .ok ())) ∧
    (dp.subtype = .list →
      ∃ p : Part, m.tokens.get? dp.token_index = some (.part p) ∧
        set_part_values m part_idx new_values
          = (refresh_metadata { m with tokens := m.tokens.set dp.token_index (.part { p with values := new_values }) }, .ok ())) := by
  have hinfo : (find_int_at_pos m.tokens 0).bind lookup_item_type = Option.none := by
    cases find_int_at_pos m.tokens 0 <;> rfl
  rw [hinfo] at hconsist
  have hget : (decode_parts_from 0 "" "" m.tokens).get? part_idx = some dp := by
    rw [show decode_parts_from 0 "" "" m.tokens
        = decode_parts m.tokens Option.none from rfl, ← hconsist]
    exact hdp
  obtain ⟨p, j, hji, hjg, hsub, hidx⟩ :=
    decode_parts_from_get "" "" m.tokens 0 part_idx dp hget
  have hj : j = dp.token_index := by omega
  subst hj
  have hdp2 : m.parts[part_idx]? = some dp := by
    rw [← List.get?_eq_getElem?]
    exact hdp
  have hjg2 : m.tokens[dp.token_index]? = some (.part p) := by
    rw [← List.get?_eq_getElem?]
    exact hjg
  refine ⟨?_, ?_, ?_, ?_⟩
  · intro hnone
    have hps : p.subtype = .none := hsub.trans hnone
    simp only [set_part_values, hdp, hjg, hps]
  · intro hint hlen
    have hps : p.subtype = .int := hsub.trans hint
    simp only [set_part_values, hdp, hjg, hps]
    rw [if_pos hlen]
  · intro hint hlen
    have hps : p.subtype = .int := hsub.trans hint
    refine ⟨p, hjg, ?_⟩
    simp only [set_part_values, hdp, hjg, hps]
    rw [if_neg (fun hne => hne hlen)]
  · intro hlist
    have hps : p.subtype = .list := hsub.trans hlist
    refine ⟨p, hjg, ?_⟩
    simp only [set_part_values, hdp, hjg, hps]

/-- Witness for C8 on the one-part model `c8Model` with the list-subtype
part `c8Part` and replacement values `[9]`. -/
theorem claim_C8_witness :
    (c8Dp.subtype = .none →
      set_part_values c8Model 0 [9]
        = (c8Model, .error "part does not support value overrides")) ∧
    (c8Dp.subtype = .int → ([9] : List Nat).length ≠ 1 →
      set_part_values c8Model 0 [9]
        = (c8Model, .error "int subtypes require exactly one value")) ∧
    (c8Dp.subtype = .int → ([9] : List Nat).length = 1 →
      ∃ p : Part, c8Model.tokens.get? c8Dp.token_index = some (.part p) ∧
        set_part_values c8Model 0 [9]
          = (refresh_metadata { c8Model with tokens := c8Model.tokens.set c8Dp.token_index (.part { p with value := ([9] : List Nat).headD 0 }) }, .ok ())) ∧
    (c8Dp.subtype = .list →
      ∃ p : Part, c8Model.tokens.get? c8Dp.token_index = some (.part p) ∧
        set_part_values c8Model 0 [9]
          = (refresh_metadata { c8Model with tokens := c8Model.tokens.set c8Dp.token_index (.part { p with values := [9] }) }, .ok ())) :=
  claim_C8_set_part_values c8Model 0 [9] c8Dp rfl rfl

/-- The 4-bit mirror stays below 16. -/
theorem mirror4_lt : ∀ x, x < 16 → mirror_bits x 4 < 16 := by decide

/-- The 4-bit mirror is an involution on nibbles. -/
theorem mirror4_invol : ∀ x, x < 16 → mirror_bits (mirror_bits x 4) 4 = x := by decide

/-- Reading back a 4-bit MSB-first write recovers the nibble. -/
theorem write_n4_foldl :
    ∀ x, x < 16 → (write_n x 4).foldl (fun v b => 2 * v + b.toNat) 0 = x := by decide

/-- A 4-bit write occupies 4 bits. -/
theorem write_n4_length (x : Nat) : (write_n x 4).length = 4 := by simp [write_n]

/-- `read_bits 4` consumes exactly a 4-bit write and returns its value. -/
theorem read_bits_write_n4 (x : Nat) (hx : x < 16) (rest : List Bool) :
    read_bits 4 (write_n x 4 ++ rest) = some (x, rest) := by
  unfold read_bits
  rw [if_neg ?hc]
  case hc =>
    push_neg
    refine ⟨by omega, by omega, ?_⟩
    rw [List.length_append, write_n4_length]
    omega
  rw [List.take_left' (write_n4_length x), List.drop_left' (write_n4_length x),
    write_n4_foldl x hx]

/-- The round trip of the varint block loops: reading back what the write
loop emitted adds the written payload, shifted into place, to the
accumulator. -/
theorem read_write_varint_loop (fuel : Nat) :
    ∀ bn value output dataRead rest, 1 ≤ bn → bn ≤ 4 * fuel →
      output < 2 ^ dataRead →
      read_varint_loop fuel dataRead output (write_varint_loop value bn ++ rest)
        = .ok (output + value % 2 ^ bn * 2 ^ dataRead, rest) := by
  induction fuel with
  | zero =>
    intro bn value output dataRead rest h1 h2 hout
    omega
  | succ fuel ih =>
    intro bn value output dataRead rest h1 h2 hout
    have hor : ∀ x, x < 16 →
        output ||| mirror_bits (mirror_bits x 4) 4 <<< dataRead
          = output + x * 2 ^ dataRead := by
      intro x hx
      rw [mirror4_invol x hx, Nat.shiftLeft_eq, Nat.lor_comm, Nat.mul_comm,
        ← Nat.mul_add_lt_is_or hout]
      exact Nat.add_comm _ _
    by_cases hbn : bn > 4
    · rw [show write_varint_loop value bn
          = write_n (mirror_bits (value % 16) 4) 4 ++ [true] ++
            write_varint_loop (value / 16) (bn - 4) from by
        rw [write_varint_loop]
        rw [if_pos hbn]]
      simp only [List.append_assoc, List.cons_append, List.nil_append]
      simp only [read_varint_loop,
        read_bits_write_n4 _ (mirror4_lt _ (Nat.mod_lt _ (by omega))), readBit]
      rw [if_pos (by trivial)]
      have hout4 : output + value % 16 * 2 ^ dataRead < 2 ^ (dataRead + 4) := by
        have hv : value % 16 < 16 := Nat.mod_lt _ (by omega)
        have : value % 16 * 2 ^ dataRead ≤ 15 * 2 ^ dataRead :=
          Nat.mul_le_mul_right _ (by omega)
        rw [Nat.pow_add]
        omega
      rw [hor _ (Nat.mod_lt _ (by omega)),
        ih (bn - 4) (value / 16) _ (dataRead + 4) rest (by omega) (by omega) hout4]
      have hsplit : value % 2 ^ bn = value % 16 + 16 * (value / 16 % 2 ^ (bn - 4)) := by
        have h16 : (16 : Nat) * 2 ^ (bn - 4) = 2 ^ bn := by
          rw [show (16 : Nat) = 2 ^ 4 from rfl, ← Nat.pow_add]
          congr 1
          omega
        rw [← h16, Nat.mod_mul]
      rw [hsplit]
      congr 1
      rw [Nat.pow_add]
      ring
    · rw [show write_varint_loop value bn
          = write_n (mirror_bits (value % 2 ^ min bn 4) 4) 4 ++ [false] from by
        rw [write_varint_loop]
        rw [if_neg hbn]]
      have hmin : min bn 4 = bn := by omega
      rw [hmin]
      have hvlt : value % 2 ^ bn < 16 := by
        have h1 : value % 2 ^ bn < 2 ^ bn := Nat.mod_lt _ (Nat.pos_pow_of_pos _ (by omega))
        have h2 : (2 : Nat) ^ bn ≤ 2 ^ 4 := Nat.pow_le_pow_right (by omega) (by omega)
        calc value % 2 ^ bn < 2 ^ bn := h1
          _ ≤ 16 := h2
      simp only [List.append_assoc, List.cons_append, List.nil_append]
      simp only [read_varint_loop, read_bits_write_n4 _ (mirror4_lt _ hvlt), readBit]
      rw [if_neg (by simp), hor _ hvlt]

/-- The write loop never emits more than `5 * (fuel + 1)` bits when its bit
count fits in `4 * (fuel + 1)`. -/
theorem write_varint_loop_length (fuel : Nat) :
    ∀ bn value, bn ≤ 4 * fuel + 4 →
      (write_varint_loop value bn).length ≤ 5 * fuel + 5 := by
  induction fuel with
  | zero =>
    intro bn value h
    rw [write_varint_loop, if_neg (by omega : ¬bn > 4)]
    simp [write_n4_length]
  | succ fuel ih =>
    intro bn value h
    by_cases hbn : bn > 4
    · rw [write_varint_loop, if_pos hbn]
      simp only [List.length_append, write_n4_length, List.length_cons,
        List.length_nil]
      have := ih (bn - 4) (value / 16) (by omega)
      omega
    · rw [write_varint_loop, if_neg hbn]
      simp [write_n4_length]

/-- The varint encoder round-trips modulo `2 ^ 16` in front of any
continuation of the bit stream. -/
theorem varint_roundtrip (v : Nat) (rest : List Bool) :
    read_varint (write_varint v ++ rest) = .ok (v % 2 ^ 16, rest) := by
  have hv : varint_bits_needed v
      = if Nat.log2 v + 1 > 16 then 16
        else if v = 0 then 1 else Nat.log2 v + 1 := by
    simp only [varint_bits_needed]
    by_cases h0 : v = 0
    · subst h0
      norm_num [Nat.log2]
    · rw [if_neg h0]
      rw [if_neg (by split <;> omega)]
  have hbn1 : 1 ≤ varint_bits_needed v := by
    rw [hv]
    split
    · omega
    · split <;> omega
  have hbn16 : varint_bits_needed v ≤ 16 := by
    rw [hv]
    split
    · omega
    · split <;> omega
  have hmod : v % 2 ^ varint_bits_needed v = v % 2 ^ 16 := by
    rw [hv]
    by_cases hbig : Nat.log2 v + 1 > 16
    · rw [if_pos hbig]
    · rw [if_neg hbig]
      by_cases h0 : v = 0
      · subst h0
        simp
      · rw [if_neg h0]
        have hvlt : v < 2 ^ (Nat.log2 v + 1) :=
          (Nat.log2_lt h0).mp (Nat.lt_succ_self _)
        have hv16 : v < 2 ^ 16 :=
          Nat.lt_of_lt_of_le hvlt (Nat.pow_le_pow_right (by omega) (by omega))
        rw [Nat.mod_eq_of_lt hvlt, Nat.mod_eq_of_lt hv16]
  unfold read_varint write_varint
  rw [read_write_varint_loop 4 (varint_bits_needed v) v 0 0 rest hbn1
    (by omega) (by norm_num)]
  rw [Nat.pow_zero, Nat.mul_one, Nat.zero_add, hmod]

/-- The varint encoder never emits more than 20 bits. -/
theorem write_varint_length (v : Nat) : (write_varint v).length ≤ 20 := by
  have hbn16 : varint_bits_needed v ≤ 16 := by
    simp only [varint_bits_needed]
    by_cases h0 : v = 0
    · rw [if_pos h0]
      norm_num
    · rw [if_neg h0]
      split
      · split <;> omega
      · split <;> omega
  unfold write_varint
  have := write_varint_loop_length 3 (varint_bits_needed v) v (by omega)
  omega

/-- Claim C9: the varint encoder emits at most 16 data bits (at most 20 bits
with continuation flags), and decoding what `write_varint` wrote yields the
value reduced modulo `2 ^ 16`: values of `2 ^ 16` or more are silently
truncated. -/
theorem claim_C9_varint_truncation (v : Nat) (rest : List Bool) :
    read_varint (write_varint v ++ rest) = .ok (v % 2 ^ 16, rest) ∧
    (write_varint v).length ≤ 20 :=
  ⟨varint_roundtrip v rest, write_varint_length v⟩

/-- A length-preserving block map keeps the length of a chunked buffer. -/
theorem chunks_exact_map_16_length (f : List Nat → List Nat)
    (hf : ∀ b, b.length = 16 → (f b).length = 16) :
    ∀ n data, data.length ≤ n →
      (chunks_exact_map_16 f data).length = data.length := by
  intro n
  induction n with
  | zero =>
    intro data h
    rw [chunks_exact_map_16, if_pos (by omega)]
  | succ n ih =>
    intro data h
    by_cases hlen : data.length < 16
    · rw [chunks_exact_map_16, if_pos hlen]
    · rw [chunks_exact_map_16, if_neg hlen]
      rw [List.length_append, hf _ (by rw [List.length_take]; omega),
        ih _ (by rw [List.length_drop]; omega), List.length_drop]
      omega

/-- Chunked mapping peels off one complete leading block. -/
theorem chunks_exact_map_16_block (g : List Nat → List Nat) (a b : List Nat)
    (ha : a.length = 16) :
    chunks_exact_map_16 g (a ++ b) = g a ++ chunks_exact_map_16 g b := by
  rw [chunks_exact_map_16, if_neg (by rw [List.length_append, ha]; omega)]
  rw [List.take_left' ha, List.drop_left' ha]

/-- Chunked mapping of the empty buffer. -/
theorem chunks_exact_map_16_nil (f : List Nat → List Nat) :
    chunks_exact_map_16 f [] = [] := by
  rw [chunks_exact_map_16]
  rfl

/-- Blockwise decryption undoes blockwise encryption on buffers whose length
is a multiple of the block size. -/
theorem chunks_exact_map_16_cancel (f g : List Nat → List Nat)
    (hflen : ∀ b, b.length = 16 → (f b).length = 16)
    (hinv : ∀ b, b.length = 16 → g (f b) = b) :
    ∀ n data, data.length ≤ n → data.length % 16 = 0 →
      chunks_exact_map_16 g (chunks_exact_map_16 f data) = data := by
  intro n
  induction n with
  | zero =>
    intro data h hm
    have h0 : data = [] := List.eq_nil_of_length_eq_zero (by omega)
    subst h0
    rw [chunks_exact_map_16_nil, chunks_exact_map_16_nil]
  | succ n ih =>
    intro data h hm
    by_cases hlen : data.length < 16
    · have h0 : data = [] := List.eq_nil_of_length_eq_zero (by omega)
      subst h0
      rw [chunks_exact_map_16_nil, chunks_exact_map_16_nil]
    · have htake : (data.take 16).length = 16 := by
        rw [List.length_take]
        omega
      have hfstep : chunks_exact_map_16 f data
          = f (data.take 16) ++ chunks_exact_map_16 f (data.drop 16) := by
        rw [chunks_exact_map_16, if_neg hlen]
      rw [hfstep, chunks_exact_map_16_block g _ _ (hflen _ htake), hinv _ htake,
        ih (data.drop 16) (by rw [List.length_drop]; omega)
          (by rw [List.length_drop]; omega)]
      exact List.take_append_drop 16 data

/-- The last entry of a non-trivial replicate block. -/
theorem getLast?_replicate_succ (k x : Nat) :
    (List.replicate (k + 1) x).getLast? = some x := by
  rw [List.replicate_succ', List.getLast?_concat]

/-- Unpadding undoes PKCS#7 padding at block size 16. -/
theorem pkcs7_unpad_pad (data : List Nat) :
    pkcs7_unpad 16 (pkcs7_pad 16 data) = .ok data := by
  have hp1 : 1 ≤ 16 - data.length % 16 := by omega
  have hp16 : 16 - data.length % 16 ≤ 16 := by omega
  obtain ⟨q, hq⟩ : ∃ q, 16 - data.length % 16 = q + 1 := ⟨_, (Nat.succ_pred_eq_of_pos hp1).symm⟩
  have hpadded : pkcs7_pad 16 data
      = data ++ List.replicate (16 - data.length % 16) (16 - data.length % 16) := rfl
  have hlenpad : (pkcs7_pad 16 data).length = data.length + (16 - data.length % 16) := by
    rw [hpadded, List.length_append, List.length_replicate]
  rw [pkcs7_unpad, if_neg ?hne]
  case hne =>
    intro hor
    rcases Bool.or_eq_true_iff.mp hor with h1 | h1
    · have : pkcs7_pad 16 data = [] := List.isEmpty_iff.mp h1
      have := congrArg List.length this
      rw [hlenpad] at this
      simp at this
      omega
    · have h2 : (pkcs7_pad 16 data).length % 16 ≠ 0 := by simpa using h1
      rw [hlenpad] at h2
      omega
  have hlast : (pkcs7_pad 16 data).getLast? = some (16 - data.length % 16) := by
    rw [hpadded, List.getLast?_append, hq, getLast?_replicate_succ]
    rfl
  simp only [hlast]
  rw [if_neg ?hpl]
  case hpl =>
    intro hor
    rcases Bool.or_eq_true_iff.mp hor with h1 | h1
    · rcases Bool.or_eq_true_iff.mp h1 with h2 | h2
      · have : 16 - data.length % 16 = 0 := by simpa using h2
        omega
      · have : 16 - data.length % 16 > 16 := by simpa using h2
        omega
    · have : 16 - data.length % 16 > (pkcs7_pad 16 data).length := by simpa using h1
      rw [hlenpad] at this
      omega
  have hdroplen : (pkcs7_pad 16 data).length - (16 - data.length % 16) = data.length := by
    rw [hlenpad]
    omega
  rw [if_pos ?hall]
  case hall =>
    rw [hdroplen, hpadded, List.drop_left' rfl]
    simp [List.all_eq_true, List.mem_replicate]
  rw [hdroplen, hpadded, List.take_left' rfl]

/-- The Adler-32 value fits in a `u32`. -/
theorem adler32_lt (data : List Nat) : adler32 data < 2 ^ 32 := by
  have key : ∀ (l : List Nat) (init : Nat × Nat), init.1 < 65521 → init.2 < 65521 →
      (l.foldl (fun ab byte =>
        ((ab.1 + byte) % 65521, (ab.2 + (ab.1 + byte) % 65521) % 65521)) init).1 < 65521 ∧
      (l.foldl (fun ab byte =>
        ((ab.1 + byte) % 65521, (ab.2 + (ab.1 + byte) % 65521) % 65521)) init).2 < 65521 := by
    intro l
    induction l with
    | nil => intro init h1 h2; exact ⟨h1, h2⟩
    | cons b t ih =>
      intro init h1 h2
      rw [List.foldl_cons]
      exact ih _ (Nat.mod_lt _ (by omega)) (Nat.mod_lt _ (by omega))
  simp only [adler32]
  obtain ⟨ha, hb⟩ := key data (1, 0) (by omega) (by omega)
  omega

/-- Big-endian `u32` encoding round-trips. -/
theorem u32_from_be_to_be (x : Nat) (hx : x < 2 ^ 32) :
    u32_from_be (u32_to_be_bytes x) = x := by
  simp only [u32_from_be, u32_to_be_bytes, List.foldl_cons, List.foldl_nil]
  omega

/-- Little-endian `u32` encoding round-trips. -/
theorem u32_from_le_to_le (x : Nat) (hx : x < 2 ^ 32) :
    u32_from_le (u32_to_le_bytes x) = x := by
  simp only [u32_from_le, u32_to_le_bytes, List.foldr_cons, List.foldr_nil]
  omega

/-- The toy reader inverts the toy compressor and ignores trailing data. -/
theorem toyDecompress_spec (d : List Nat) :
    ∀ trailing, toyDecompress (toyCompress d ++ trailing) = some d := by
  induction d with
  | nil => intro trailing; rfl
  | cons b t ih =>
    intro trailing
    have hshape : toyCompress (b :: t) ++ trailing
        = 1 :: b :: (toyCompress t ++ trailing) := by
      simp [toyCompress]
    rw [hshape, toyDecompress, ih trailing]
    rfl

/-- The length of a 16-byte-block PKCS#7 padding result. -/
theorem pkcs7_pad_16_length (data : List Nat) :
    (pkcs7_pad 16 data).length = data.length + (16 - data.length % 16) := by
  simp [pkcs7_pad]

/-- Claim C1: the save envelope round-trips: for every byte sequence and
every account id whose digits parse (so `derive_key` succeeds), decrypting
what `encrypt_yaml_to_sav` produced returns exactly the original bytes, the
PKCS#7 unpadding, the zlib stream read, and the Adler-32/length footer
checks all passing. The AES-256 block cipher and the zlib codec live in
external crates; the theorem holds for every implementation that satisfies
their contracts: the keyed block functions are mutually inverse and
length-preserving on 16-byte blocks, and the stream reader returns the
compressor's input while ignoring trailing bytes. -/
theorem claim_C1_envelope_roundtrip
    (compress : List Nat → List Nat)
    (zlibDecompress deflateDecompress : List Nat → Option (List Nat))
    (encB decB : List Nat → List Nat → List Nat)
    (hcomp : ∀ d trailing, zlibDecompress (compress d ++ trailing) = some d)
    (hblockLen : ∀ key b, b.length = 16 → (encB key b).length = 16)
    (hblockInv : ∀ key b, b.length = 16 → decB key (encB key b) = b)
    (D : List Nat) (steamid : String) (key : List Nat)
    (hkey : derive_key steamid = .ok key) :
    ∃ E, encrypt_yaml_to_sav compress encB D steamid = .ok E ∧
      decrypt_sav_to_yaml zlibDecompress deflateDecompress decB E steamid
        = .ok D := by
  have hE : encrypt_yaml_to_sav compress encB D steamid
      = .ok (aes_ecb_encrypt (encB key) (pkcs7_pad 16 (compress D ++
          (u32_to_be_bytes (adler32 D) ++
            u32_to_le_bytes (D.length % 2 ^ 32))))) := by
    simp only [encrypt_yaml_to_sav, hkey, List.append_assoc]
  refine ⟨_, hE, ?_⟩
  have hpadlen : (pkcs7_pad 16 (compress D ++ (u32_to_be_bytes (adler32 D) ++
      u32_to_le_bytes (D.length % 2 ^ 32)))).length % 16 = 0 := by
    rw [pkcs7_pad_16_length]
    omega
  have hpadpos : 0 < (pkcs7_pad 16 (compress D ++ (u32_to_be_bytes (adler32 D) ++
      u32_to_le_bytes (D.length % 2 ^ 32)))).length := by
    rw [pkcs7_pad_16_length]
    omega
  have hencrypted : aes_ecb_encrypt (encB key) (pkcs7_pad 16 (compress D ++
      (u32_to_be_bytes (adler32 D) ++ u32_to_le_bytes (D.length % 2 ^ 32))))
      = chunks_exact_map_16 (encB key) (pkcs7_pad 16 (compress D ++
        (u32_to_be_bytes (adler32 D) ++ u32_to_le_bytes (D.length % 2 ^ 32)))) := by
    rw [aes_ecb_encrypt, if_neg (by
      intro hh
      rw [List.isEmpty_iff.mp hh] at hpadpos
      simp at hpadpos)]
  have henclen : (aes_ecb_encrypt (encB key) (pkcs7_pad 16 (compress D ++
      (u32_to_be_bytes (adler32 D) ++ u32_to_le_bytes (D.length % 2 ^ 32))))).length
      = (pkcs7_pad 16 (compress D ++ (u32_to_be_bytes (adler32 D) ++
        u32_to_le_bytes (D.length % 2 ^ 32)))).length := by
    rw [hencrypted]
    exact chunks_exact_map_16_length (encB key) (hblockLen key) _ _ (Nat.le_refl _)
  have hdec : aes_ecb_decrypt (decB key) (aes_ecb_encrypt (encB key)
      (pkcs7_pad 16 (compress D ++ (u32_to_be_bytes (adler32 D) ++
        u32_to_le_bytes (D.length % 2 ^ 32)))))
      = pkcs7_pad 16 (compress D ++ (u32_to_be_bytes (adler32 D) ++
        u32_to_le_bytes (D.length % 2 ^ 32))) := by
    rw [hencrypted, aes_ecb_decrypt, if_neg (by
      intro hh
      have hlen0 := congrArg List.length (List.isEmpty_iff.mp hh)
      rw [chunks_exact_map_16_length (encB key) (hblockLen key) _ _ (Nat.le_refl _)]
        at hlen0
      simp only [List.length_nil] at hlen0
      omega)]
    exact chunks_exact_map_16_cancel (encB key) (decB key) (hblockLen key)
      (hblockInv key) _ _ (Nat.le_refl _) hpadlen
  have hfoot : check_footer (compress D ++ (u32_to_be_bytes (adler32 D) ++
      u32_to_le_bytes (D.length % 2 ^ 32))) D = .ok D := by
    have hflen : (u32_to_be_bytes (adler32 D) ++
        u32_to_le_bytes (D.length % 2 ^ 32)).length = 8 := by
      simp [u32_to_be_bytes, u32_to_le_bytes]
    simp only [check_footer]
    rw [if_pos (by
      rw [List.length_append, hflen]
      omega)]
    have hdropfoot : (compress D ++ (u32_to_be_bytes (adler32 D) ++
        u32_to_le_bytes (D.length % 2 ^ 32))).drop
        ((compress D ++ (u32_to_be_bytes (adler32 D) ++
          u32_to_le_bytes (D.length % 2 ^ 32))).length - 8)
        = u32_to_be_bytes (adler32 D) ++ u32_to_le_bytes (D.length % 2 ^ 32) := by
      rw [List.length_append, hflen, Nat.add_sub_cancel]
      exact List.drop_left' rfl
    rw [hdropfoot]
    have hbelen : (u32_to_be_bytes (adler32 D)).length = 4 := by simp [u32_to_be_bytes]
    rw [List.take_left' hbelen, List.drop_left' hbelen]
    rw [u32_from_be_to_be _ (adler32_lt D),
      u32_from_le_to_le _ (Nat.mod_lt _ (by norm_num))]
    rw [if_neg (by simp), if_neg (by simp)]
  simp only [decrypt_sav_to_yaml]
  rw [if_neg (by rw [henclen]; omega)]
  simp only [hkey, hdec, pkcs7_unpad_pad, hcomp, hfoot]

/-- Witness for C1 with the identity block cipher (which satisfies the AES
block contract) and the toy stream codec, on the reference account id. -/
theorem claim_C1_witness :
    ∃ E, encrypt_yaml_to_sav toyCompress (fun _ b => b) [10, 200]
        "76561199131094380" = .ok E ∧
      decrypt_sav_to_yaml toyDecompress toyDecompress (fun _ b => b) E
        "76561199131094380" = .ok [10, 200] :=
  claim_C1_envelope_roundtrip toyCompress toyDecompress toyDecompress
    (fun _ b => b) (fun _ b => b)
    (fun d trailing => toyDecompress_spec d trailing)
    (fun _ _ h => h) (fun _ _ _ => rfl) [10, 200] "76561199131094380"
    [0x59, 0x81, 0xFA, 0x32, 0xF2, 0x5D, 0xA0, 0xEB, 0xBE, 0x6B, 0x83, 0x11,
     0x54, 0x03, 0xEB, 0xFB, 0x27, 0x25, 0x64, 0x2E, 0xD5, 0x49, 0x06, 0x29,
     0x05, 0x78, 0xBD, 0x60, 0xBA, 0x4A, 0xA7, 0x87] (by decide)

/-- The byte mirror stays below 256. -/
theorem mirror_byte_lt : ∀ b, b < 256 → mirror_byte b < 256 := by decide

/-- The byte mirror is an involution on bytes. -/
theorem mirror_byte_invol : ∀ b, b < 256 → mirror_byte (mirror_byte b) = b := by decide

/-- The 5-bit mirror stays below 32. -/
theorem mirror5_lt : ∀ x, x < 32 → mirror_bits x 5 < 32 := by decide

/-- The 5-bit mirror is an involution. -/
theorem mirror5_invol : ∀ x, x < 32 → mirror_bits (mirror_bits x 5) 5 = x := by decide

/-- The 5-bit mirror of a positive value is positive. -/
theorem mirror5_pos : ∀ x, x < 32 → 0 < x → 0 < mirror_bits x 5 := by decide

/-- The 7-bit mirror stays below 128. -/
theorem mirror7_lt : ∀ x, x < 128 → mirror_bits x 7 < 128 := by decide

/-- The 7-bit mirror is an involution. -/
theorem mirror7_invol : ∀ x, x < 128 → mirror_bits (mirror_bits x 7) 7 = x := by decide

/-- A fixed-width write has the requested length. -/
theorem write_n_length (x count : Nat) : (write_n x count).length = count := by
  simp [write_n]

/-- Reading back a 5-bit MSB-first write recovers the value. -/
theorem write_n5_foldl :
    ∀ x, x < 32 → (write_n x 5).foldl (fun v b => 2 * v + b.toNat) 0 = x := by decide

/-- Reading back a 7-bit MSB-first write recovers the value. -/
theorem write_n7_foldl :
    ∀ x, x < 128 → (write_n x 7).foldl (fun v b => 2 * v + b.toNat) 0 = x := by decide

/-- `read_bits 5` consumes exactly a 5-bit write and returns its value. -/
theorem read_bits_write_n5 (x : Nat) (hx : x < 32) (rest : List Bool) :
    read_bits 5 (write_n x 5 ++ rest) = some (x, rest) := by
  unfold read_bits
  rw [if_neg ?hc]
  case hc =>
    push_neg
    refine ⟨by omega, by omega, ?_⟩
    rw [List.length_append, write_n_length]
    omega
  rw [List.take_left' (write_n_length x 5), List.drop_left' (write_n_length x 5),
    write_n5_foldl x hx]

/-- `read_bits 7` consumes exactly a 7-bit write and returns its value. -/
theorem read_bits_write_n7 (x : Nat) (hx : x < 128) (rest : List Bool) :
    read_bits 7 (write_n x 7 ++ rest) = some (x, rest) := by
  unfold read_bits
  rw [if_neg ?hc]
  case hc =>
    push_neg
    refine ⟨by omega, by omega, ?_⟩
    rw [List.length_append, write_n_length]
    omega
  rw [List.take_left' (write_n_length x 7), List.drop_left' (write_n_length x 7),
    write_n7_foldl x hx]

/-- `read_bits 2` consumes two bits and combines them MSB-first. -/
theorem read_bits_two (b1 b2 : Bool) (rest : List Bool) :
    read_bits 2 (b1 :: b2 :: rest) = some (2 * b1.toNat + b2.toNat, rest) := by
  unfold read_bits
  rw [if_neg (by push_neg; refine ⟨by omega, by omega, by simp⟩)]
  simp [List.take, List.drop]

/-- `expect` accepts exactly its own pattern as a prefix. -/
theorem expectBits_append (p : List Bool) :
    ∀ rest, expectBits p (p ++ rest) = .ok rest := by
  induction p with
  | nil => intro rest; rfl
  | cons b bs ih =>
    intro rest
    simp only [List.cons_append, expectBits, if_pos rfl]
    exact ih rest

/-- Reading back any 8-bool MSB-first byte write recovers the bits. -/
theorem write_n8_byte :
    ∀ b0 b1 b2 b3 b4 b5 b6 b7 : Bool,
      write_n (byte_of_bits [b0, b1, b2, b3, b4, b5, b6, b7]) 8
        = [b0, b1, b2, b3, b4, b5, b6, b7] := by decide

/-- Any 8-bool byte value is below 256. -/
theorem byte_of_bits_lt8 :
    ∀ b0 b1 b2 b3 b4 b5 b6 b7 : Bool,
      byte_of_bits [b0, b1, b2, b3, b4, b5, b6, b7] < 256 := by decide

/-- Reading back a byte write recovers the bits, length-8 form. -/
theorem write_n8_of_length (bs : List Bool) (h : bs.length = 8) :
    write_n (byte_of_bits bs) 8 = bs := by
  rcases bs with _ | ⟨b0, bs⟩
  · simp at h
  rcases bs with _ | ⟨b1, bs⟩
  · simp at h
  rcases bs with _ | ⟨b2, bs⟩
  · simp at h
  rcases bs with _ | ⟨b3, bs⟩
  · simp at h
  rcases bs with _ | ⟨b4, bs⟩
  · simp at h
  rcases bs with _ | ⟨b5, bs⟩
  · simp at h
  rcases bs with _ | ⟨b6, bs⟩
  · simp at h
  rcases bs with _ | ⟨b7, bs⟩
  · simp at h
  rcases bs with _ | ⟨b8, bs⟩
  · exact write_n8_byte b0 b1 b2 b3 b4 b5 b6 b7
  · simp at h

/-- Any length-8 byte value is below 256. -/
theorem byte_of_bits_lt_of_length (bs : List Bool) (h : bs.length = 8) :
    byte_of_bits bs < 256 := by
  rcases bs with _ | ⟨b0, bs⟩
  · simp at h
  rcases bs with _ | ⟨b1, bs⟩
  · simp at h
  rcases bs with _ | ⟨b2, bs⟩
  · simp at h
  rcases bs with _ | ⟨b3, bs⟩
  · simp at h
  rcases bs with _ | ⟨b4, bs⟩
  · simp at h
  rcases bs with _ | ⟨b5, bs⟩
  · simp at h
  rcases bs with _ | ⟨b6, bs⟩
  · simp at h
  rcases bs with _ | ⟨b7, bs⟩
  · simp at h
  rcases bs with _ | ⟨b8, bs⟩
  · exact byte_of_bits_lt8 b0 b1 b2 b3 b4 b5 b6 b7
  · simp at h

/-- Byte packing followed by bit expansion appends exactly the zero fill. -/
theorem bytesToBits_bits_to_bytes :
    ∀ n bits, List.length bits ≤ n →
      bytesToBits (bits_to_bytes bits)
        = bits ++ List.replicate ((8 - bits.length % 8) % 8) false := by
  intro n
  induction n with
  | zero =>
    intro bits h
    have h0 : bits = [] := List.eq_nil_of_length_eq_zero (by omega)
    subst h0
    rw [show bits_to_bytes [] = [] from by rw [bits_to_bytes]]
    rfl
  | succ n ih =>
    intro bits h
    match bits with
    | [] =>
      rw [show bits_to_bytes [] = [] from by rw [bits_to_bytes]]
      rfl
    | b :: rest =>
      rw [bits_to_bytes]
      by_cases hlen : (b :: rest).length ≤ 8
      · have hdrop : (b :: rest).drop 8 = [] := by
          rw [List.drop_eq_nil_iff]
          omega
        have htake : (b :: rest).take 8 = b :: rest :=
          List.take_of_length_le hlen
        rw [hdrop, htake, show bits_to_bytes [] = [] from by rw [bits_to_bytes]]
        have hchl : (b :: rest ++ List.replicate (8 - (b :: rest).length) false).length
            = 8 := by
          rw [List.length_append, List.length_replicate]
          have := (b :: rest).length_pos_of_ne_nil (by simp)
          omega
        have hbits : bytesToBits [byte_of_bits (b :: rest ++
            List.replicate (8 - (b :: rest).length) false)]
            = write_n (byte_of_bits (b :: rest ++
                List.replicate (8 - (b :: rest).length) false)) 8 ++ [] := by
          rfl
        rw [hbits, List.append_nil, write_n8_of_length _ hchl]
        have hmodeq : 8 - (b :: rest).length = (8 - (b :: rest).length % 8) % 8 := by
          have := (b :: rest).length_pos_of_ne_nil (by simp)
          omega
        rw [hmodeq]
      · have htake8 : ((b :: rest).take 8).length = 8 := by
          rw [List.length_take]
          omega
        have hrepl : List.replicate (8 - (b :: rest).length) false = [] := by
          have : 8 - (b :: rest).length = 0 := by omega
          rw [this]
          rfl
        rw [hrepl, List.append_nil]
        have hstep : bytesToBits (byte_of_bits ((b :: rest).take 8) ::
            bits_to_bytes ((b :: rest).drop 8))
            = write_n (byte_of_bits ((b :: rest).take 8)) 8 ++
              bytesToBits (bits_to_bytes ((b :: rest).drop 8)) := rfl
        rw [hstep, write_n8_of_length _ htake8,
          ih ((b :: rest).drop 8) (by rw [List.length_drop]; simp at h ⊢; omega)]
        rw [← List.append_assoc, List.take_append_drop]
        have hmodeq : ((b :: rest).drop 8).length % 8 = (b :: rest).length % 8 := by
          rw [List.length_drop]
          omega
        rw [hmodeq]

/-- Every byte the bit packer emits is below 256. -/
theorem bits_to_bytes_lt :
    ∀ n bits, List.length bits ≤ n → ∀ b ∈ bits_to_bytes bits, b < 256 := by
  intro n
  induction n with
  | zero =>
    intro bits h b hb
    have h0 : bits = [] := List.eq_nil_of_length_eq_zero (by omega)
    subst h0
    simp [bits_to_bytes] at hb
  | succ n ih =>
    intro bits h b hb
    match bits, hb with
    | [], hb =>
      rw [show bits_to_bytes [] = [] from by rw [bits_to_bytes]] at hb
      simp at hb
    | x :: rest, hb =>
      rw [bits_to_bytes] at hb
      rcases List.mem_cons.mp hb with h1 | h1
      · subst h1
        by_cases hlen : (x :: rest).length ≤ 8
        · refine byte_of_bits_lt_of_length _ ?_
          rw [List.length_append, List.length_replicate,
            List.length_take]
          omega
        · refine byte_of_bits_lt_of_length _ ?_
          rw [List.length_append, List.length_replicate, List.length_take]
          omega
      · exact ih _ (by rw [List.length_drop]; simp at h ⊢; omega) b h1

/-- The low bit of a value, as the bit reader sees it. -/
theorem testBit_zero_toNat (v : Nat) : (v.testBit 0).toNat = v % 2 := by
  rw [Nat.testBit_zero]
  rcases Nat.mod_two_eq_zero_or_one v with h | h <;> simp [h]

/-- Reading back the LSB-first value bits of a varbit accumulates the value
at the current offset. -/
theorem read_varbit_value_spec :
    ∀ len v acc i rest, v < 2 ^ len → acc < 2 ^ i →
      read_varbit_value len i acc
        (((List.range len).map (fun j => v.testBit j)) ++ rest)
        = .ok (acc + v * 2 ^ i, rest) := by
  intro len
  induction len with
  | zero =>
    intro v acc i rest hv ha
    have h0 : v = 0 := by omega
    subst h0
    simp [read_varbit_value]
  | succ len ih =>
    intro v acc i rest hv ha
    rw [List.range_succ_eq_map]
    simp only [List.map_cons, List.map_map, List.cons_append]
    rw [read_varbit_value]
    simp only [readBit]
    have hcomp : (List.range len).map ((fun j => v.testBit j) ∘ Nat.succ)
        = (List.range len).map (fun j => (v / 2).testBit j) := by
      refine List.map_congr_left ?_
      intro j hj
      show v.testBit (j + 1) = (v / 2).testBit j
      rw [Nat.testBit_add_one]
    rw [hcomp]
    have hacc : acc ||| (v.testBit 0).toNat <<< i = acc + v % 2 * 2 ^ i := by
      rw [testBit_zero_toNat, Nat.shiftLeft_eq, Nat.lor_comm, Nat.mul_comm,
        ← Nat.mul_add_lt_is_or ha]
      exact Nat.add_comm _ _
    rw [hacc]
    have hdv : v / 2 < 2 ^ len := by
      rw [Nat.pow_succ] at hv
      omega
    have hacc2 : acc + v % 2 * 2 ^ i < 2 ^ (i + 1) := by
      have : v % 2 ≤ 1 := by omega
      have h1 : v % 2 * 2 ^ i ≤ 2 ^ i := by
        calc v % 2 * 2 ^ i ≤ 1 * 2 ^ i := Nat.mul_le_mul_right _ this
          _ = 2 ^ i := Nat.one_mul _
      rw [Nat.pow_succ]
      omega
    rw [ih (v / 2) _ (i + 1) rest hdv hacc2]
    have harith : acc + v % 2 * 2 ^ i + v / 2 * 2 ^ (i + 1) = acc + v * 2 ^ i := by
      conv_rhs => rw [← Nat.div_add_mod v 2]
      rw [Nat.pow_succ]
      ring
    rw [harith]

/-- The varbit encoder round-trips exactly on 31-bit values. -/
theorem read_varbit_write_varbit (v : Nat) (hv : v < 2 ^ 31) (rest : List Bool) :
    read_varbit (write_varbit v ++ rest) = .ok (v, rest) := by
  have hb : (if v = 0 then 1 else Nat.log2 v + 1)
      = if (if v = 0 then 1 else Nat.log2 v + 1) > 31 then 31
        else if v = 0 then 1 else Nat.log2 v + 1 := by
    by_cases h0 : v = 0
    · rw [if_pos h0]
      norm_num
    · rw [if_neg h0]
      have hlt : Nat.log2 v < 31 := (Nat.log2_lt h0).mpr hv
      rw [if_neg (by omega)]
  have hbits1 : 1 ≤ if v = 0 then 1 else Nat.log2 v + 1 := by split <;> omega
  have hbits31 : (if v = 0 then 1 else Nat.log2 v + 1) ≤ 31 := by
    by_cases h0 : v = 0
    · rw [if_pos h0]
      norm_num
    · rw [if_neg h0]
      have hlt : Nat.log2 v < 31 := (Nat.log2_lt h0).mpr hv
      omega
  have hvlt : v < 2 ^ (if v = 0 then 1 else Nat.log2 v + 1) := by
    by_cases h0 : v = 0
    · rw [if_pos h0]
      omega
    · rw [if_neg h0]
      exact (Nat.log2_lt h0).mp (Nat.lt_succ_self _)
  rw [show write_varbit v = write_n (mirror_bits
      (if v = 0 then 1 else Nat.log2 v + 1) 5) 5 ++
      (List.range (if v = 0 then 1 else Nat.log2 v + 1)).map (fun i => v.testBit i)
    from by rw [write_varbit, ← hb]]
  simp only [read_varbit, List.append_assoc,
    read_bits_write_n5 (mirror_bits (if v = 0 then 1 else Nat.log2 v + 1) 5)
      (mirror5_lt _ (by omega))]
  rw [mirror5_invol _ (by omega)]
  rw [if_neg (by omega)]
  rw [read_varbit_value_spec _ v 0 0 rest hvlt (by norm_num)]
  norm_num

/-- The byte loop of `read_string` recovers ASCII bytes written in mirrored
7-bit groups. -/
theorem read_string_bytes_spec (bs : List Nat) (hbs : ∀ b ∈ bs, b < 128) :
    ∀ rest, read_string_bytes bs.length
      ((bs.map (fun byte => write_n (mirror_bits byte 7) 7)).flatten ++ rest)
      = .ok (bs, rest) := by
  induction bs with
  | nil => intro rest; rfl
  | cons b t ih =>
    intro rest
    have hb : b < 128 := hbs b (by simp)
    simp only [List.length_cons, List.map_cons, List.flatten_cons, List.append_assoc]
    simp only [read_string_bytes, read_bits_write_n7 _ (mirror7_lt _ hb),
      ih (fun x hx => hbs x (by simp [hx])) rest, mirror7_invol _ hb]

/-- ASCII character lists UTF-8-encode to their code points. -/
theorem utf8_ascii_flatten (cs : List Char) (h : ∀ c ∈ cs, c.toNat < 128) :
    (cs.map utf8EncodeChar).flatten = cs.map Char.toNat := by
  induction cs with
  | nil => rfl
  | cons c t ih =>
    simp only [List.map_cons, List.flatten_cons]
    rw [show utf8EncodeChar c = [c.toNat] from by
      unfold utf8EncodeChar
      rw [if_pos (h c (by simp))]]
    rw [List.singleton_append]
    congr 1
    exact ih (fun x hx => h x (by simp [hx]))

/-- ASCII strings byte-encode to their code points. -/
theorem strBytes_ascii (s : String) (h : ∀ c ∈ s.data, c.toNat < 128) :
    strBytes s = s.data.map Char.toNat :=
  utf8_ascii_flatten s.data h

/-- ASCII byte lists UTF-8-decode to their characters. -/
theorem utf8DecodeLoop_ascii (cs : List Char) (h : ∀ c ∈ cs, c.toNat < 128) :
    ∀ fuel, cs.length ≤ fuel → utf8DecodeLoop fuel (cs.map Char.toNat) = some cs := by
  induction cs with
  | nil =>
    intro fuel hf
    cases fuel <;> rfl
  | cons c t ih =>
    intro fuel hf
    match fuel with
    | Nat.succ fuel =>
      rw [List.map_cons]
      simp only [utf8DecodeLoop,
        show utf8DecodeStep c.toNat (t.map Char.toNat)
          = some (Char.ofNat c.toNat, t.map Char.toNat) from by
            rw [utf8DecodeStep.eq_def, if_pos (h c (by simp))],
        ih (fun x hx => h x (by simp [hx])) fuel (by simp at hf ⊢; omega),
        Char.ofNat_toNat]
      rfl

/-- ASCII byte lists UTF-8-decode to their characters. -/
theorem utf8Decode_ascii (cs : List Char) (h : ∀ c ∈ cs, c.toNat < 128) :
    utf8Decode (cs.map Char.toNat) = some cs := by
  rw [utf8Decode]
  exact utf8DecodeLoop_ascii cs h _ (by simp)

/-- The string encoder round-trips exactly on short ASCII strings. -/
theorem read_string_write_string (s : String) (hascii : ∀ c ∈ s.data, c.toNat < 128)
    (hlen : s.data.length < 2 ^ 16) (rest : List Bool) :
    read_string (write_string s ++ rest) = .ok (s, rest) := by
  have hsb : strBytes s = s.data.map Char.toNat := strBytes_ascii s hascii
  have hsblen : (strBytes s).length = s.data.length := by
    rw [hsb, List.length_map]
  have h1 : read_varint (write_varint (strBytes s).length ++
      (((strBytes s).map (fun byte => write_n (mirror_bits byte 7) 7)).flatten ++ rest))
      = .ok ((strBytes s).length,
          ((strBytes s).map (fun byte => write_n (mirror_bits byte 7) 7)).flatten
            ++ rest) := by
    rw [varint_roundtrip, Nat.mod_eq_of_lt (by omega)]
  have h2 := read_string_bytes_spec (strBytes s)
    (by
      intro b hb
      rw [hsb] at hb
      obtain ⟨c, hc, rfl⟩ := List.mem_map.mp hb
      exact hascii c hc) rest
  have h3 : utf8Decode (strBytes s) = some s.data := by
    rw [hsb]
    exact utf8Decode_ascii s.data hascii
  simp only [read_string, write_string, List.append_assoc, h1, h2, h3]

/-- `next_token` recognises each tag in front of any continuation. -/
theorem next_token_sep1 (rest : List Bool) :
    next_token (false :: false :: rest) = .ok (some (.sep1, rest)) := rfl

/-- `next_token` recognises the Sep2 tag. -/
theorem next_token_sep2 (rest : List Bool) :
    next_token (false :: true :: rest) = .ok (some (.sep2, rest)) := rfl

/-- `next_token` recognises the VarInt tag. -/
theorem next_token_varint (rest : List Bool) :
    next_token (true :: false :: false :: rest) = .ok (some (.varInt, rest)) := rfl

/-- `next_token` recognises the VarBit tag. -/
theorem next_token_varbit (rest : List Bool) :
    next_token (true :: true :: false :: rest) = .ok (some (.varBit, rest)) := rfl

/-- `next_token` recognises the Part tag. -/
theorem next_token_part (rest : List Bool) :
    next_token (true :: false :: true :: rest) = .ok (some (.part, rest)) := rfl

/-- `next_token` recognises the Str tag. -/
theorem next_token_str (rest : List Bool) :
    next_token (true :: true :: true :: rest) = .ok (some (.str, rest)) := rfl

/-- The value loop of a List part reads back exactly the values the writer
chose to encode, stopping at the terminator. -/
theorem read_part_list_loop_spec :
    ∀ (vs : List Nat) (fuel : Nat) (acc : List Nat) (rest : List Bool),
      (∀ v ∈ vs, v < 2 ^ 16) → vs.length < fuel →
      read_part_list_loop fuel acc
        ((vs.map part_value_bits).flatten ++ false :: false :: rest)
        = .ok (acc ++ vs, rest) := by
  intro vs
  induction vs with
  | nil =>
    intro fuel acc rest hwf hfuel
    match fuel with
    | Nat.succ fuel =>
      simp only [List.map_nil, List.flatten_nil, List.nil_append]
      rw [read_part_list_loop]
      simp only [next_token_sep1, List.append_nil]
  | cons v vs ih =>
    intro fuel acc rest hwf hfuel
    match fuel with
    | Nat.succ fuel =>
      have hv : v < 2 ^ 16 := hwf v (by simp)
      simp only [List.map_cons, List.flatten_cons, List.append_assoc]
      rw [read_part_list_loop, part_value_bits]
      by_cases hsel : (write_varint v).length ≤ (write_varbit v).length
      · rw [if_pos hsel]
        simp only [List.cons_append, List.nil_append, next_token_varint,
          List.append_assoc, varint_roundtrip, Nat.mod_eq_of_lt hv]
        have hres := ih fuel (acc ++ [v]) rest (fun x hx => hwf x (by simp [hx]))
          (by simp at hfuel ⊢; omega)
        rw [List.append_assoc, List.singleton_append] at hres
        exact hres
      · rw [if_neg hsel]
        simp only [List.cons_append, List.nil_append, next_token_varbit,
          List.append_assoc,
          read_varbit_write_varbit v (by
            have : (2 : Nat) ^ 16 ≤ 2 ^ 31 := by norm_num
            omega)]
        have hres := ih fuel (acc ++ [v]) rest (fun x hx => hwf x (by simp [hx]))
          (by simp at hfuel ⊢; omega)
        rw [List.append_assoc, List.singleton_append] at hres
        exact hres

/-- The part reader inverts the part writer on canonical parts with 16-bit
payloads, for any fuel above the number of list values. -/
theorem read_part_write_part (p : Part) (fuel : Nat) (rest : List Bool)
    (hidx : p.index < 2 ^ 16)
    (hsub : match p.subtype with
      | .none => p.value = 0 ∧ p.values = []
      | .int => p.value < 2 ^ 16 ∧ p.values = []
      | .list => p.value = 0 ∧ ∀ v ∈ p.values, v < 2 ^ 16)
    (hfuel : p.values.length < fuel) :
    read_part fuel (write_part p ++ rest) = .ok (p, rest) := by
  obtain ⟨idx, st, v, vals⟩ := p
  match st with
  | .none =>
    obtain ⟨hv, hvals⟩ := hsub
    simp only at hv hvals
    subst hv
    subst hvals
    rw [read_part, write_part]
    simp only [List.append_assoc, varint_roundtrip, Nat.mod_eq_of_lt hidx]
    simp only [List.cons_append, readBit, List.nil_append]
    rw [if_neg (by simp)]
    rw [read_bits_two]
    simp
  | .int =>
    obtain ⟨hv, hvals⟩ := hsub
    simp only at hv hvals
    subst hvals
    rw [read_part, write_part]
    simp only [List.append_assoc, varint_roundtrip, Nat.mod_eq_of_lt hidx]
    simp only [List.cons_append, readBit, List.nil_append]
    rw [if_pos (by trivial)]
    have hexp : expectBits [false, false, false] (false :: false :: false :: rest)
        = .ok rest := expectBits_append [false, false, false] rest
    simp only [List.append_assoc, List.cons_append, List.nil_append,
      varint_roundtrip, Nat.mod_eq_of_lt hv, hexp]
  | .list =>
    obtain ⟨hv, hvals⟩ := hsub
    simp only at hv hvals
    subst hv
    rw [read_part, write_part]
    simp only [List.append_assoc, varint_roundtrip, Nat.mod_eq_of_lt hidx]
    simp only [List.cons_append, readBit, List.nil_append]
    rw [if_neg (by simp)]
    have h2 : read_bits 2 (false :: true :: (false :: true ::
        ((vals.map part_value_bits).flatten ++ false :: false :: rest)))
        = some (1, false :: true ::
          ((vals.map part_value_bits).flatten ++ false :: false :: rest)) :=
      read_bits_two false true _
    simp only [h2, if_true]
    simp only [next_token_sep2]
    rw [read_part_list_loop_spec vals fuel [] rest hvals (by simpa using hfuel)]
    simp

/-- Every varint write emits at least five bits. -/
theorem write_varint_length_pos (v : Nat) : 5 ≤ (write_varint v).length := by
  unfold write_varint
  rw [write_varint_loop]
  split
  · simp only [List.length_append, write_n_length, List.length_cons, List.length_nil]
    omega
  · simp only [List.length_append, write_n_length, List.length_cons, List.length_nil]
    omega

/-- Every encoded list value occupies at least one bit. -/
theorem part_value_bits_length_pos (v : Nat) : 1 ≤ (part_value_bits v).length := by
  rw [part_value_bits]
  split <;> simp

/-- A list is no longer than the flattening of its nonempty images. -/
theorem length_le_flatten_length {α β : Type} (f : α → List β) (l : List α)
    (h : ∀ x ∈ l, 1 ≤ (f x).length) : l.length ≤ ((l.map f).flatten).length := by
  induction l with
  | nil => simp
  | cons x t ih =>
    simp only [List.map_cons, List.flatten_cons, List.length_append, List.length_cons]
    have h1 := h x (by simp)
    have h2 := ih (fun y hy => h y (by simp [hy]))
    omega

/-- The number of list values of a canonical part is bounded by its encoded
length. -/
theorem part_values_le_write_part (p : Part)
    (hsub : match p.subtype with
      | .none => p.value = 0 ∧ p.values = []
      | .int => p.value < 2 ^ 16 ∧ p.values = []
      | .list => p.value = 0 ∧ ∀ v ∈ p.values, v < 2 ^ 16) :
    p.values.length ≤ (write_part p).length := by
  obtain ⟨idx, st, v, vals⟩ := p
  match st with
  | .none =>
    obtain ⟨_, hvals⟩ := hsub
    simp only at hvals
    subst hvals
    simp
  | .int =>
    obtain ⟨_, hvals⟩ := hsub
    simp only at hvals
    subst hvals
    simp
  | .list =>
    have hflat : vals.length ≤ ((vals.map part_value_bits).flatten).length :=
      length_le_flatten_length part_value_bits vals
        (fun x _ => part_value_bits_length_pos x)
    rw [write_part]
    simp only [List.length_append]
    simp only [List.length_cons]
    omega

/-- One iteration of the token loop consumes exactly one written token and
updates the trailing-run counter as the source does. -/
theorem deserialize_loop_step (t : Token) (hwf : wfToken t) (fuel : Nat)
    (R : List Bool) (acc : List Token) (tr : Nat) :
    deserialize_loop (fuel + 1) (token_bits t ++ R) acc tr
      = deserialize_loop fuel R (acc ++ [t]) (tokenTrail t tr) := by
  cases t with
  | sep1 =>
    rw [deserialize_loop]
    simp only [token_bits, tokenTrail, List.cons_append, List.nil_append,
      next_token_sep1]
  | sep2 =>
    rw [deserialize_loop]
    simp only [token_bits, tokenTrail, List.cons_append, List.nil_append,
      next_token_sep2]
  | varInt v =>
    rw [deserialize_loop]
    simp only [token_bits, tokenTrail, List.cons_append, List.nil_append,
      List.append_assoc, next_token_varint, varint_roundtrip,
      Nat.mod_eq_of_lt (hwf : v < 2 ^ 16)]
  | varBit v =>
    rw [deserialize_loop]
    simp only [token_bits, tokenTrail, List.cons_append, List.nil_append,
      List.append_assoc, next_token_varbit,
      read_varbit_write_varbit v (hwf : v < 2 ^ 31)]
  | part p =>
    obtain ⟨hidx, hsub⟩ := hwf
    rw [deserialize_loop]
    simp only [token_bits, tokenTrail, List.cons_append, List.nil_append,
      List.append_assoc, next_token_part]
    rw [read_part_write_part p _ R hidx hsub (by
      have h1 := part_values_le_write_part p hsub
      rw [List.length_append]
      omega)]
  | str s =>
    obtain ⟨hascii, hlen⟩ := hwf
    rw [deserialize_loop]
    simp only [token_bits, tokenTrail, List.cons_append, List.nil_append,
      List.append_assoc, next_token_str, read_string_write_string s hascii hlen R]

/-- The token loop on an all-false fill of fewer than eight bits appends one
spurious Sep1 per bit pair. -/
theorem deserialize_loop_pad :
    ∀ fuel (pad : List Bool), (∀ b ∈ pad, b = false) → pad.length ≤ fuel →
      ∀ acc tr,
      deserialize_loop (fuel + 1) pad acc tr
        = .ok (acc ++ List.replicate (pad.length / 2) .sep1, tr + pad.length / 2) := by
  intro fuel
  induction fuel with
  | zero =>
    intro pad hfalse hlen acc tr
    have h0 : pad = [] := List.eq_nil_of_length_eq_zero (by omega)
    subst h0
    simp [deserialize_loop, next_token]
  | succ fuel ih =>
    intro pad hfalse hlen acc tr
    match pad with
    | [] => simp [deserialize_loop, next_token]
    | [b] =>
      have hb : b = false := hfalse b (by simp)
      subst hb
      simp [deserialize_loop, next_token]
    | b1 :: b2 :: rest =>
      have hb1 : b1 = false := hfalse b1 (by simp)
      have hb2 : b2 = false := hfalse b2 (by simp)
      subst hb1
      subst hb2
      rw [deserialize_loop]
      simp only [next_token_sep1]
      rw [ih rest (fun b hb => hfalse b (by simp [hb])) (by simp at hlen ⊢; omega)
        (acc ++ [Token.sep1]) (tr + 1)]
      have hdiv : (false :: false :: rest : List Bool).length / 2
          = rest.length / 2 + 1 := by
        simp only [List.length_cons]
        omega
      have harith : tr + 1 + rest.length / 2 = tr + (rest.length / 2 + 1) := by omega
      rw [hdiv, List.replicate_succ, List.append_assoc, List.singleton_append, harith]

/-- The trailing-run counter over a Sep1 head. -/
theorem trailingSep1From_sep1 (tr : Nat) (ts : List Token) :
    trailingSep1From tr (.sep1 :: ts) = trailingSep1From (tr + 1) ts := rfl

/-- The token loop over a well-formed token stream followed by an all-false
fill returns the tokens, the spurious Sep1 tokens of the fill, and the
length of the resulting trailing Sep1 run. -/
theorem deserialize_loop_tokens :
    ∀ (ts : List Token), (∀ t ∈ ts, wfToken t) →
      ∀ (pad : List Bool), (∀ b ∈ pad, b = false) → pad.length ≤ 7 →
      ∀ fuel acc tr, ((ts.map token_bits).flatten).length + pad.length ≤ fuel →
      deserialize_loop (fuel + 1) ((ts.map token_bits).flatten ++ pad) acc tr
        = .ok (acc ++ ts ++ List.replicate (pad.length / 2) .sep1,
            trailingSep1From tr ts + pad.length / 2) := by
  intro ts
  induction ts with
  | nil =>
    intro _ pad hfalse hlen7 fuel acc tr hfuel
    simp only [List.map_nil, List.flatten_nil, List.nil_append, List.append_nil]
    rw [deserialize_loop_pad fuel pad hfalse (by simpa using hfuel) acc tr]
    rfl
  | cons t ts ih =>
    intro hwf pad hfalse hlen7 fuel acc tr hfuel
    have htb : 1 ≤ (token_bits t).length := by
      cases t <;> simp [token_bits]
    match fuel, hfuel with
    | 0, hfuel =>
      exfalso
      simp only [List.map_cons, List.flatten_cons, List.length_append,
        Nat.le_zero] at hfuel
      omega
    | Nat.succ fuel, hfuel =>
      simp only [List.map_cons, List.flatten_cons, List.append_assoc]
      rw [deserialize_loop_step t (hwf t (by simp)) (fuel + 1) _ acc tr]
      rw [ih (fun x hx => hwf x (by simp [hx])) pad hfalse hlen7 fuel (acc ++ [t])
        (tokenTrail t tr)
        (by simp only [List.map_cons, List.flatten_cons, List.length_append]
              at hfuel
            omega)]
      have hacc : acc ++ [t] ++ ts = acc ++ t :: ts := by
        rw [List.append_assoc, List.singleton_append]
      rw [hacc]
      have htr : trailingSep1From (tokenTrail t tr) ts
          = trailingSep1From tr (t :: ts) := by
        cases t <;> rfl
      rw [htr]
      simp [List.append_assoc]

/-- Every alphabet character is a single-byte character. -/
theorem charOfDigit_lt : ∀ d, d < 85 → (charOfDigit d).toNat < 256 := by decide

/-- The reverse table inverts the alphabet. -/
theorem reverseLookup_charOfDigit :
    ∀ d, d < 85 → reverseLookupAt (charOfDigit d).toNat = (d : Int) := by decide

/-- Digits only grow under Horner accumulation. -/
theorem horner85_ge (ds : List Nat) : ∀ acc, acc ≤ horner85 acc ds := by
  induction ds with
  | nil => intro acc; exact Nat.le_refl _
  | cons d t ih =>
    intro acc
    calc acc ≤ acc * 85 + d := by omega
      _ ≤ horner85 (acc * 85 + d) t := ih _
      _ = horner85 acc (d :: t) := rfl

/-- The symbol loop consumes mapped digits and Horner-accumulates them. -/
theorem decode_take_digits :
    ∀ (ds : List Nat) (rest : List Char) (acc count : Nat),
      (∀ d ∈ ds, d < 85) → count + ds.length ≤ 5 → horner85 acc ds < 2 ^ 32 →
      decode_take (ds.map charOfDigit ++ rest) acc count
        = decode_take rest (horner85 acc ds) (count + ds.length) := by
  intro ds
  induction ds with
  | nil =>
    intro rest acc count hds hcount hbound
    simp [horner85]
  | cons d t ih =>
    intro rest acc count hds hcount hbound
    have hd : d < 85 := hds d (by simp)
    simp only [List.map_cons, List.cons_append]
    rw [decode_take]
    rw [if_pos (by simp at hcount ⊢; omega : count < 5)]
    rw [if_pos (charOfDigit_lt d hd)]
    rw [reverseLookup_charOfDigit d hd]
    rw [if_pos (by omega : (0 : Int) ≤ (d : Int))]
    rw [show ((d : Int)).toNat = d from Int.toNat_natCast d]
    have hstep : acc * 85 + d < 2 ^ 32 := by
      have h1 : acc * 85 + d ≤ horner85 (acc * 85 + d) t := horner85_ge t _
      have h2 : horner85 (acc * 85 + d) t = horner85 acc (d :: t) := rfl
      omega
    rw [if_pos hstep]
    rw [ih rest (acc * 85 + d) (count + 1) (fun x hx => hds x (by simp [hx]))
      (by simp at hcount ⊢; omega) hbound]
    have harith : count + 1 + t.length = count + (t.length + 1) := by omega
    rw [harith]
    rfl

/-- The symbol loop stops once five symbols are in hand. -/
theorem decode_take_stop (rest : List Char) (v : Nat) :
    decode_take rest v 5 = .ok (v, 5, rest) := by
  cases rest with
  | nil => rfl
  | cons c cs =>
    rw [decode_take]
    rw [if_neg (by omega)]

/-- The outer group loop returns its accumulator on empty input. -/
theorem decode_groups_nil (fuel : Nat) (acc : List Nat) (h : 1 ≤ fuel) :
    decode_groups fuel [] acc = .ok acc := by
  match fuel with
  | Nat.succ fuel => rfl

/-- The 32-bit big-endian byte combination, arithmetically. -/
theorem bytes4_or (b0 b1 b2 b3 : Nat) (h0 : b0 < 256) (h1 : b1 < 256)
    (h2 : b2 < 256) (h3 : b3 < 256) :
    b0 <<< 24 ||| b1 <<< 16 ||| b2 <<< 8 ||| b3
      = b0 * 2 ^ 24 + b1 * 2 ^ 16 + b2 * 2 ^ 8 + b3 := by
  rw [Nat.shiftLeft_eq, Nat.shiftLeft_eq, Nat.shiftLeft_eq]
  rw [show b0 * 2 ^ 24 = 2 ^ 24 * b0 from Nat.mul_comm _ _,
    ← Nat.mul_add_lt_is_or (by omega : b1 * 2 ^ 16 < 2 ^ 24) b0]
  rw [show 2 ^ 24 * b0 + b1 * 2 ^ 16 = 2 ^ 16 * (2 ^ 8 * b0 + b1) from by ring,
    ← Nat.mul_add_lt_is_or (by omega : b2 * 2 ^ 8 < 2 ^ 16) (2 ^ 8 * b0 + b1)]
  rw [show 2 ^ 16 * (2 ^ 8 * b0 + b1) + b2 * 2 ^ 8
      = 2 ^ 8 * (2 ^ 16 * b0 + 2 ^ 8 * b1 + b2) from by ring,
    ← Nat.mul_add_lt_is_or (by omega : b3 < 2 ^ 8) (2 ^ 16 * b0 + 2 ^ 8 * b1 + b2)]

/-- The two-byte little accumulation of the partial-group fold. -/
theorem fold2_or (a b : Nat) (hb : b < 256) :
    a <<< 8 ||| b = a * 2 ^ 8 + b := by
  rw [Nat.shiftLeft_eq,
    show a * 2 ^ 8 = 2 ^ 8 * a from Nat.mul_comm _ _,
    ← Nat.mul_add_lt_is_or (by omega : b < 2 ^ 8) a]

/-- Decoding of the final one-byte partial group: two symbols, three padding
multiplications, one output byte. -/
theorem decode_groups_part1 (fuel : Nat) (a : Nat) (ha : a < 256)
    (acc : List Nat) (hfuel : 1 ≤ fuel) :
    decode_groups (fuel + 1)
      (((digits5 (a * 2 ^ 24)).take 2).map charOfDigit) acc = .ok (acc ++ [a]) := by
  have htk : (digits5 (a * 2 ^ 24)).take 2
      = [a * 2 ^ 24 / 85 ^ 4 % 85, a * 2 ^ 24 / 85 ^ 3 % 85] := by
    simp [digits5]
  rw [htk]
  have hH : horner85 0 [a * 2 ^ 24 / 85 ^ 4 % 85, a * 2 ^ 24 / 85 ^ 3 % 85]
      = a * 2 ^ 24 / 85 ^ 3 := by
    simp only [horner85]
    have h4 : a * 2 ^ 24 / 85 ^ 4 = a * 2 ^ 24 / 85 ^ 3 / 85 := by
      rw [Nat.div_div_eq_div_mul]
      norm_num
    rw [h4]
    omega
  have htake : decode_take ([a * 2 ^ 24 / 85 ^ 4 % 85,
      a * 2 ^ 24 / 85 ^ 3 % 85].map charOfDigit ++ ([] : List Char)) 0 0
      = .ok (a * 2 ^ 24 / 85 ^ 3, 0 + 2, []) := by
    rw [decode_take_digits _ ([] : List Char) 0 0
      (by
        intro d hd
        rcases List.mem_cons.mp hd with h | h
        · subst h
          omega
        · rcases List.mem_cons.mp h with h | h
          · subst h
            omega
          · simp at h)
      (by simp) (by rw [hH]; omega)]
    rw [hH]
    rfl
  rw [List.append_nil] at htake
  rw [decode_groups]
  simp only [htake]
  rw [if_neg (show (0 + 2 : Nat) ≠ 0 by decide)]
  have hp : padValue (a * 2 ^ 24 / 85 ^ 3) (5 - (0 + 2))
      = .ok (a * 2 ^ 24 / 85 ^ 3 * 85 ^ 3 + 126 * 85 ^ 2 + 126 * 85 + 126) := by
    rw [show (5 - (0 + 2) : Nat) = 3 from rfl]
    rw [padValue]
    simp only [show B85_PADDING = 126 from rfl]
    rw [if_pos (by omega)]
    rw [padValue]
    simp only [show B85_PADDING = 126 from rfl]
    rw [if_pos (by omega)]
    rw [padValue]
    simp only [show B85_PADDING = 126 from rfl]
    rw [if_pos (by omega)]
    rw [padValue]
    congr 1
    ring
  simp only [hp]
  rw [if_pos (show (0 + 2 : Nat) < 5 by decide)]
  have hx0 : (a * 2 ^ 24 / 85 ^ 3 * 85 ^ 3 + 126 * 85 ^ 2 + 126 * 85 + 126) >>> 24
      &&& 0xFF = a := by
    rw [Nat.shiftRight_eq_div_pow, show (0xFF : Nat) = 2 ^ 8 - 1 from rfl,
      Nat.and_pow_two_sub_one_eq_mod]
    have h1 : a * 16777216 ≤ a * 2 ^ 24 / 85 ^ 3 * 85 ^ 3 + 126 * 85 ^ 2 + 126 * 85 + 126 := by
      omega
    have h2 : a * 2 ^ 24 / 85 ^ 3 * 85 ^ 3 + 126 * 85 ^ 2 + 126 * 85 + 126
        < (a + 1) * 16777216 := by
      omega
    have hq : ∀ vp : Nat, a * 16777216 ≤ vp → vp < (a + 1) * 16777216
        → vp / 2 ^ 24 = a := by
      intro vp hlo hhi
      omega
    rw [hq _ h1 h2]
    omega
  rw [show (0 + 2 - 1 : Nat) = 1 from rfl]
  rw [show List.take 1
      [(a * 2 ^ 24 / 85 ^ 3 * 85 ^ 3 + 126 * 85 ^ 2 + 126 * 85 + 126) >>> 24 &&& 0xFF,
       (a * 2 ^ 24 / 85 ^ 3 * 85 ^ 3 + 126 * 85 ^ 2 + 126 * 85 + 126) >>> 16 &&& 0xFF,
       (a * 2 ^ 24 / 85 ^ 3 * 85 ^ 3 + 126 * 85 ^ 2 + 126 * 85 + 126) >>> 8 &&& 0xFF,
       (a * 2 ^ 24 / 85 ^ 3 * 85 ^ 3 + 126 * 85 ^ 2 + 126 * 85 + 126) &&& 0xFF]
      = [(a * 2 ^ 24 / 85 ^ 3 * 85 ^ 3 + 126 * 85 ^ 2 + 126 * 85 + 126) >>> 24
          &&& 0xFF] from rfl]
  rw [hx0]
  exact decode_groups_nil fuel (acc ++ [a]) hfuel

/-- Decoding of the final two-byte partial group: three symbols, two padding
multiplications, two output bytes. -/
theorem decode_groups_part2 (fuel : Nat) (a b : Nat) (ha : a < 256)
    (hb : b < 256) (acc : List Nat) (hfuel : 1 ≤ fuel) :
    decode_groups (fuel + 1)
      (((digits5 (a * 2 ^ 24 + b * 2 ^ 16)).take 3).map charOfDigit) acc
      = .ok (acc ++ [a, b]) := by
  have htk : (digits5 (a * 2 ^ 24 + b * 2 ^ 16)).take 3
      = [(a * 2 ^ 24 + b * 2 ^ 16) / 85 ^ 4 % 85,
         (a * 2 ^ 24 + b * 2 ^ 16) / 85 ^ 3 % 85,
         (a * 2 ^ 24 + b * 2 ^ 16) / 85 ^ 2 % 85] := by
    simp [digits5]
  rw [htk]
  have hH : horner85 0 [(a * 2 ^ 24 + b * 2 ^ 16) / 85 ^ 4 % 85,
      (a * 2 ^ 24 + b * 2 ^ 16) / 85 ^ 3 % 85,
      (a * 2 ^ 24 + b * 2 ^ 16) / 85 ^ 2 % 85]
      = (a * 2 ^ 24 + b * 2 ^ 16) / 85 ^ 2 := by
    simp only [horner85]
    have h3 : (a * 2 ^ 24 + b * 2 ^ 16) / 85 ^ 3
        = (a * 2 ^ 24 + b * 2 ^ 16) / 85 ^ 2 / 85 := by
      rw [Nat.div_div_eq_div_mul]
      norm_num
    have h4 : (a * 2 ^ 24 + b * 2 ^ 16) / 85 ^ 4
        = (a * 2 ^ 24 + b * 2 ^ 16) / 85 ^ 2 / 85 / 85 := by
      rw [Nat.div_div_eq_div_mul, Nat.div_div_eq_div_mul]
      norm_num
    rw [h3, h4]
    omega
  have htake : decode_take ([(a * 2 ^ 24 + b * 2 ^ 16) / 85 ^ 4 % 85,
      (a * 2 ^ 24 + b * 2 ^ 16) / 85 ^ 3 % 85,
      (a * 2 ^ 24 + b * 2 ^ 16) / 85 ^ 2 % 85].map charOfDigit
        ++ ([] : List Char)) 0 0
      = .ok ((a * 2 ^ 24 + b * 2 ^ 16) / 85 ^ 2, 0 + 3, []) := by
    rw [decode_take_digits _ ([] : List Char) 0 0
      (by
        intro d hd
        rcases List.mem_cons.mp hd with h | h
        · subst h
          omega
        · rcases List.mem_cons.mp h with h | h
          · subst h
            omega
          · rcases List.mem_cons.mp h with h | h
            · subst h
              omega
            · simp at h)
      (by simp) (by rw [hH]; omega)]
    rw [hH]
    rfl
  rw [List.append_nil] at htake
  rw [decode_groups]
  simp only [htake]
  rw [if_neg (show (0 + 3 : Nat) ≠ 0 by decide)]
  have hp : padValue ((a * 2 ^ 24 + b * 2 ^ 16) / 85 ^ 2) (5 - (0 + 3))
      = .ok ((a * 2 ^ 24 + b * 2 ^ 16) / 85 ^ 2 * 85 ^ 2 + 126 * 85 + 126) := by
    rw [show (5 - (0 + 3) : Nat) = 2 from rfl]
    rw [padValue]
    simp only [show B85_PADDING = 126 from rfl]
    rw [if_pos (by omega)]
    rw [padValue]
    simp only [show B85_PADDING = 126 from rfl]
    rw [if_pos (by omega)]
    rw [padValue]
    congr 1
    ring
  simp only [hp]
  rw [if_pos (show (0 + 3 : Nat) < 5 by decide)]
  have h1 : a * 2 ^ 24 + b * 2 ^ 16
      ≤ (a * 2 ^ 24 + b * 2 ^ 16) / 85 ^ 2 * 85 ^ 2 + 126 * 85 + 126 := by
    omega
  have h2 : (a * 2 ^ 24 + b * 2 ^ 16) / 85 ^ 2 * 85 ^ 2 + 126 * 85 + 126
      < a * 2 ^ 24 + b * 2 ^ 16 + 65536 := by
    omega
  have hgen : ∀ vp : Nat, a * 2 ^ 24 + b * 2 ^ 16 ≤ vp
      → vp < a * 2 ^ 24 + b * 2 ^ 16 + 65536
      → vp / 2 ^ 24 = a ∧ vp / 2 ^ 16 = a * 256 + b := by
    intro vp hlo hhi
    omega
  have hx0 : ((a * 2 ^ 24 + b * 2 ^ 16) / 85 ^ 2 * 85 ^ 2 + 126 * 85 + 126) >>> 24
      &&& 0xFF = a := by
    rw [Nat.shiftRight_eq_div_pow, show (0xFF : Nat) = 2 ^ 8 - 1 from rfl,
      Nat.and_pow_two_sub_one_eq_mod]
    rw [(hgen _ h1 h2).1]
    omega
  have hx1 : ((a * 2 ^ 24 + b * 2 ^ 16) / 85 ^ 2 * 85 ^ 2 + 126 * 85 + 126) >>> 16
      &&& 0xFF = b := by
    rw [Nat.shiftRight_eq_div_pow, show (0xFF : Nat) = 2 ^ 8 - 1 from rfl,
      Nat.and_pow_two_sub_one_eq_mod]
    rw [(hgen _ h1 h2).2]
    omega
  rw [show (0 + 3 - 1 : Nat) = 2 from rfl]
  rw [show ∀ x0 x1 x2 x3 : Nat, List.take 2 [x0, x1, x2, x3] = [x0, x1]
    from fun _ _ _ _ => rfl]
  rw [hx0, hx1]
  exact decode_groups_nil fuel (acc ++ [a, b]) hfuel

/-- Decoding of the final three-byte partial group: four symbols, one padding
multiplication, three output bytes. -/
theorem decode_groups_part3 (fuel : Nat) (a b c : Nat) (ha : a < 256)
    (hb : b < 256) (hc : c < 256) (acc : List Nat) (hfuel : 1 ≤ fuel) :
    decode_groups (fuel + 1)
      (((digits5 (a * 2 ^ 24 + b * 2 ^ 16 + c * 2 ^ 8)).take 4).map charOfDigit)
      acc = .ok (acc ++ [a, b, c]) := by
  have htk : (digits5 (a * 2 ^ 24 + b * 2 ^ 16 + c * 2 ^ 8)).take 4
      = [(a * 2 ^ 24 + b * 2 ^ 16 + c * 2 ^ 8) / 85 ^ 4 % 85,
         (a * 2 ^ 24 + b * 2 ^ 16 + c * 2 ^ 8) / 85 ^ 3 % 85,
         (a * 2 ^ 24 + b * 2 ^ 16 + c * 2 ^ 8) / 85 ^ 2 % 85,
         (a * 2 ^ 24 + b * 2 ^ 16 + c * 2 ^ 8) / 85 % 85] := by
    simp [digits5]
  rw [htk]
  have hH : horner85 0 [(a * 2 ^ 24 + b * 2 ^ 16 + c * 2 ^ 8) / 85 ^ 4 % 85,
      (a * 2 ^ 24 + b * 2 ^ 16 + c * 2 ^ 8) / 85 ^ 3 % 85,
      (a * 2 ^ 24 + b * 2 ^ 16 + c * 2 ^ 8) / 85 ^ 2 % 85,
      (a * 2 ^ 24 + b * 2 ^ 16 + c * 2 ^ 8) / 85 % 85]
      = (a * 2 ^ 24 + b * 2 ^ 16 + c * 2 ^ 8) / 85 := by
    simp only [horner85]
    have h2 : (a * 2 ^ 24 + b * 2 ^ 16 + c * 2 ^ 8) / 85 ^ 2
        = (a * 2 ^ 24 + b * 2 ^ 16 + c * 2 ^ 8) / 85 / 85 := by
      rw [Nat.div_div_eq_div_mul]
      norm_num
    have h3 : (a * 2 ^ 24 + b * 2 ^ 16 + c * 2 ^ 8) / 85 ^ 3
        = (a * 2 ^ 24 + b * 2 ^ 16 + c * 2 ^ 8) / 85 / 85 / 85 := by
      rw [Nat.div_div_eq_div_mul, Nat.div_div_eq_div_mul]
      norm_num
    have h4 : (a * 2 ^ 24 + b * 2 ^ 16 + c * 2 ^ 8) / 85 ^ 4
        = (a * 2 ^ 24 + b * 2 ^ 16 + c * 2 ^ 8) / 85 / 85 / 85 / 85 := by
      rw [Nat.div_div_eq_div_mul, Nat.div_div_eq_div_mul, Nat.div_div_eq_div_mul]
      norm_num
    rw [h2, h3, h4]
    omega
  have htake : decode_take ([(a * 2 ^ 24 + b * 2 ^ 16 + c * 2 ^ 8) / 85 ^ 4 % 85,
      (a * 2 ^ 24 + b * 2 ^ 16 + c * 2 ^ 8) / 85 ^ 3 % 85,
      (a * 2 ^ 24 + b * 2 ^ 16 + c * 2 ^ 8) / 85 ^ 2 % 85,
      (a * 2 ^ 24 + b * 2 ^ 16 + c * 2 ^ 8) / 85 % 85].map charOfDigit
        ++ ([] : List Char)) 0 0
      = .ok ((a * 2 ^ 24 + b * 2 ^ 16 + c * 2 ^ 8) / 85, 0 + 4, []) := by
    rw [decode_take_digits _ ([] : List Char) 0 0
      (by
        intro d hd
        rcases List.mem_cons.mp hd with h | h
        · subst h
          omega
        · rcases List.mem_cons.mp h with h | h
          · subst h
            omega
          · rcases List.mem_cons.mp h with h | h
            · subst h
              omega
            · rcases List.mem_cons.mp h with h | h
              · subst h
                omega
              · simp at h)
      (by simp) (by rw [hH]; omega)]
    rw [hH]
    rfl
  rw [List.append_nil] at htake
  rw [decode_groups]
  simp only [htake]
  rw [if_neg (show (0 + 4 : Nat) ≠ 0 by decide)]
  have hp : padValue ((a * 2 ^ 24 + b * 2 ^ 16 + c * 2 ^ 8) / 85) (5 - (0 + 4))
      = .ok ((a * 2 ^ 24 + b * 2 ^ 16 + c * 2 ^ 8) / 85 * 85 + 126) := by
    rw [show (5 - (0 + 4) : Nat) = 1 from rfl]
    rw [padValue]
    simp only [show B85_PADDING = 126 from rfl]
    rw [if_pos (by omega)]
    rw [padValue]
  simp only [hp]
  rw [if_pos (show (0 + 4 : Nat) < 5 by decide)]
  have h1 : a * 2 ^ 24 + b * 2 ^ 16 + c * 2 ^ 8
      ≤ (a * 2 ^ 24 + b * 2 ^ 16 + c * 2 ^ 8) / 85 * 85 + 126 := by
    omega
  have h2 : (a * 2 ^ 24 + b * 2 ^ 16 + c * 2 ^ 8) / 85 * 85 + 126
      < a * 2 ^ 24 + b * 2 ^ 16 + c * 2 ^ 8 + 256 := by
    omega
  have hgen : ∀ vp : Nat, a * 2 ^ 24 + b * 2 ^ 16 + c * 2 ^ 8 ≤ vp
      → vp < a * 2 ^ 24 + b * 2 ^ 16 + c * 2 ^ 8 + 256
      → vp / 2 ^ 24 = a ∧ vp / 2 ^ 16 = a * 256 + b
        ∧ vp / 2 ^ 8 = a * 65536 + b * 256 + c := by
    intro vp hlo hhi
    refine ⟨by omega, by omega, by omega⟩
  have hx0 : ((a * 2 ^ 24 + b * 2 ^ 16 + c * 2 ^ 8) / 85 * 85 + 126) >>> 24
      &&& 0xFF = a := by
    rw [Nat.shiftRight_eq_div_pow, show (0xFF : Nat) = 2 ^ 8 - 1 from rfl,
      Nat.and_pow_two_sub_one_eq_mod]
    rw [(hgen _ h1 h2).1]
    omega
  have hx1 : ((a * 2 ^ 24 + b * 2 ^ 16 + c * 2 ^ 8) / 85 * 85 + 126) >>> 16
      &&& 0xFF = b := by
    rw [Nat.shiftRight_eq_div_pow, show (0xFF : Nat) = 2 ^ 8 - 1 from rfl,
      Nat.and_pow_two_sub_one_eq_mod]
    rw [(hgen _ h1 h2).2.1]
    omega
  have hx2 : ((a * 2 ^ 24 + b * 2 ^ 16 + c * 2 ^ 8) / 85 * 85 + 126) >>> 8
      &&& 0xFF = c := by
    rw [Nat.shiftRight_eq_div_pow, show (0xFF : Nat) = 2 ^ 8 - 1 from rfl,
      Nat.and_pow_two_sub_one_eq_mod]
    rw [(hgen _ h1 h2).2.2]
    omega
  rw [show (0 + 4 - 1 : Nat) = 3 from rfl]
  rw [show ∀ x0 x1 x2 x3 : Nat, List.take 3 [x0, x1, x2, x3] = [x0, x1, x2]
    from fun _ _ _ _ => rfl]
  rw [hx0, hx1, hx2]
  exact decode_groups_nil fuel (acc ++ [a, b, c]) hfuel

/-- Horner accumulation of the five digits of a 32-bit value recovers it. -/
theorem horner85_digits5 (v : Nat) (hv : v < 2 ^ 32) :
    horner85 0 (digits5 v) = v := by
  simp only [digits5, horner85]
  have h2 : v / 85 ^ 2 = v / 85 / 85 := by
    rw [Nat.div_div_eq_div_mul]
    norm_num
  have h3 : v / 85 ^ 3 = v / 85 / 85 / 85 := by
    rw [Nat.div_div_eq_div_mul, Nat.div_div_eq_div_mul]
    norm_num
  have h4 : v / 85 ^ 4 = v / 85 / 85 / 85 / 85 := by
    rw [Nat.div_div_eq_div_mul, Nat.div_div_eq_div_mul, Nat.div_div_eq_div_mul]
    norm_num
  rw [h2, h3, h4]
  omega

/-- Decoding one full four-byte group: five symbols, no padding, four output
bytes, and the loop continues on the remaining characters. -/
theorem decode_groups_full_step (fuel : Nat) (a b c d : Nat) (ha : a < 256)
    (hb : b < 256) (hc : c < 256) (hd : d < 256) (rest : List Char)
    (acc : List Nat) :
    decode_groups (fuel + 1)
      ((digits5 (a * 2 ^ 24 + b * 2 ^ 16 + c * 2 ^ 8 + d)).map charOfDigit
        ++ rest) acc
      = decode_groups fuel rest (acc ++ [a, b, c, d]) := by
  have hvlt : a * 2 ^ 24 + b * 2 ^ 16 + c * 2 ^ 8 + d < 2 ^ 32 := by omega
  have htake : decode_take
      ((digits5 (a * 2 ^ 24 + b * 2 ^ 16 + c * 2 ^ 8 + d)).map charOfDigit
        ++ rest) 0 0
      = .ok (a * 2 ^ 24 + b * 2 ^ 16 + c * 2 ^ 8 + d, 0 + 5, rest) := by
    rw [decode_take_digits _ rest 0 0
      (by
        intro x hx
        simp only [digits5, List.mem_cons, List.not_mem_nil, or_false] at hx
        rcases hx with h | h | h | h | h <;> subst h <;> omega)
      (by simp [digits5])
      (by rw [horner85_digits5 _ hvlt]; exact hvlt)]
    rw [horner85_digits5 _ hvlt]
    rw [show (digits5 (a * 2 ^ 24 + b * 2 ^ 16 + c * 2 ^ 8 + d)).length = 5
      from rfl]
    exact decode_take_stop rest _
  rw [decode_groups]
  simp only [htake]
  rw [if_neg (show (0 + 5 : Nat) ≠ 0 by decide)]
  have hp : padValue (a * 2 ^ 24 + b * 2 ^ 16 + c * 2 ^ 8 + d) (5 - (0 + 5))
      = .ok (a * 2 ^ 24 + b * 2 ^ 16 + c * 2 ^ 8 + d) := rfl
  simp only [hp]
  rw [if_neg (show ¬ (0 + 5 : Nat) < 5 by decide)]
  have h1 : a * 2 ^ 24 + b * 2 ^ 16 + c * 2 ^ 8 + d
      ≤ a * 2 ^ 24 + b * 2 ^ 16 + c * 2 ^ 8 + d := Nat.le_refl _
  have h2 : a * 2 ^ 24 + b * 2 ^ 16 + c * 2 ^ 8 + d
      < a * 2 ^ 24 + b * 2 ^ 16 + c * 2 ^ 8 + d + 1 := by omega
  have hgen : ∀ vp : Nat, a * 2 ^ 24 + b * 2 ^ 16 + c * 2 ^ 8 + d ≤ vp
      → vp < a * 2 ^ 24 + b * 2 ^ 16 + c * 2 ^ 8 + d + 1
      → vp / 2 ^ 24 = a ∧ vp / 2 ^ 16 = a * 256 + b
        ∧ vp / 2 ^ 8 = a * 65536 + b * 256 + c := by
    intro vp hlo hhi
    refine ⟨by omega, by omega, by omega⟩
  have hx0 : (a * 2 ^ 24 + b * 2 ^ 16 + c * 2 ^ 8 + d) >>> 24 &&& 0xFF = a := by
    rw [Nat.shiftRight_eq_div_pow, show (0xFF : Nat) = 2 ^ 8 - 1 from rfl,
      Nat.and_pow_two_sub_one_eq_mod]
    rw [(hgen _ h1 h2).1]
    omega
  have hx1 : (a * 2 ^ 24 + b * 2 ^ 16 + c * 2 ^ 8 + d) >>> 16 &&& 0xFF = b := by
    rw [Nat.shiftRight_eq_div_pow, show (0xFF : Nat) = 2 ^ 8 - 1 from rfl,
      Nat.and_pow_two_sub_one_eq_mod]
    rw [(hgen _ h1 h2).2.1]
    omega
  have hx2 : (a * 2 ^ 24 + b * 2 ^ 16 + c * 2 ^ 8 + d) >>> 8 &&& 0xFF = c := by
    rw [Nat.shiftRight_eq_div_pow, show (0xFF : Nat) = 2 ^ 8 - 1 from rfl,
      Nat.and_pow_two_sub_one_eq_mod]
    rw [(hgen _ h1 h2).2.2]
    omega
  have hx3 : (a * 2 ^ 24 + b * 2 ^ 16 + c * 2 ^ 8 + d) &&& 0xFF = d := by
    rw [show (0xFF : Nat) = 2 ^ 8 - 1 from rfl, Nat.and_pow_two_sub_one_eq_mod]
    omega
  rw [show ∀ x0 x1 x2 x3 : Nat, List.take 4 [x0, x1, x2, x3] = [x0, x1, x2, x3]
    from fun _ _ _ _ => rfl]
  rw [hx0, hx1, hx2, hx3]

/-- The group decoder inverts the group encoder on byte lists, for any fuel
beyond the byte count. -/
theorem decode_groups_encode_groups :
    ∀ (fuel : Nat) (M : List Nat), (∀ x ∈ M, x < 256) → M.length + 1 ≤ fuel →
      ∀ acc, decode_groups fuel (encode_groups M) acc = .ok (acc ++ M) := by
  intro fuel
  induction fuel with
  | zero =>
    intro M hM hlen
    omega
  | succ fuel ih =>
    intro M hM hlen acc
    match M, hM, hlen with
    | [], _, _ =>
      rw [show encode_groups [] = [] from rfl]
      rw [decode_groups_nil (fuel + 1) acc (by omega)]
      simp
    | [a], hM, hlen =>
      have ha : a < 256 := hM a (by simp)
      have henc : encode_groups [a]
          = ((digits5 ((0 <<< 8 ||| a) <<< 24)).take 2).map charOfDigit := rfl
      have hval : (0 <<< 8 ||| a) <<< 24 = a * 2 ^ 24 := by
        rw [Nat.zero_shiftLeft, Nat.zero_or, Nat.shiftLeft_eq]
      rw [henc, hval]
      exact decode_groups_part1 fuel a ha acc
        (by simp only [List.length_cons, List.length_nil] at hlen; omega)
    | [a, b], hM, hlen =>
      have ha : a < 256 := hM a (by simp)
      have hb : b < 256 := hM b (by simp)
      have henc : encode_groups [a, b]
          = ((digits5 (((0 <<< 8 ||| a) <<< 8 ||| b) <<< 16)).take 3).map
              charOfDigit := rfl
      have hval : ((0 <<< 8 ||| a) <<< 8 ||| b) <<< 16
          = a * 2 ^ 24 + b * 2 ^ 16 := by
        rw [Nat.zero_shiftLeft, Nat.zero_or, fold2_or a b hb, Nat.shiftLeft_eq]
        ring
      rw [henc, hval]
      exact decode_groups_part2 fuel a b ha hb acc
        (by simp only [List.length_cons, List.length_nil] at hlen; omega)
    | [a, b, c], hM, hlen =>
      have ha : a < 256 := hM a (by simp)
      have hb : b < 256 := hM b (by simp)
      have hc : c < 256 := hM c (by simp)
      have henc : encode_groups [a, b, c]
          = ((digits5 ((((0 <<< 8 ||| a) <<< 8 ||| b) <<< 8 ||| c) <<< 8)).take
              4).map charOfDigit := rfl
      have hval : (((0 <<< 8 ||| a) <<< 8 ||| b) <<< 8 ||| c) <<< 8
          = a * 2 ^ 24 + b * 2 ^ 16 + c * 2 ^ 8 := by
        rw [Nat.zero_shiftLeft, Nat.zero_or, fold2_or a b hb,
          fold2_or (a * 2 ^ 8 + b) c hc, Nat.shiftLeft_eq]
        ring
      rw [henc, hval]
      exact decode_groups_part3 fuel a b c ha hb hc acc
        (by simp only [List.length_cons, List.length_nil] at hlen; omega)
    | b0 :: b1 :: b2 :: b3 :: rest, hM, hlen =>
      have h0 : b0 < 256 := hM b0 (by simp)
      have h1 : b1 < 256 := hM b1 (by simp)
      have h2 : b2 < 256 := hM b2 (by simp)
      have h3 : b3 < 256 := hM b3 (by simp)
      have henc : encode_groups (b0 :: b1 :: b2 :: b3 :: rest)
          = (digits5 (b0 <<< 24 ||| b1 <<< 16 ||| b2 <<< 8 ||| b3)).map
              charOfDigit ++ encode_groups rest := rfl
      rw [henc, bytes4_or b0 b1 b2 b3 h0 h1 h2 h3]
      rw [decode_groups_full_step fuel b0 b1 b2 b3 h0 h1 h2 h3
        (encode_groups rest) acc]
      rw [ih rest (fun x hx => hM x (by simp [hx]))
        (by simp only [List.length_cons] at hlen; omega) (acc ++ [b0, b1, b2, b3])]
      simp [List.append_assoc]

/-- The group encoder emits at least one symbol per input byte. -/
theorem encode_groups_length :
    ∀ (n : Nat) (M : List Nat), M.length ≤ n
      → M.length ≤ (encode_groups M).length := by
  intro n
  induction n with
  | zero =>
    intro M h
    exact Nat.le_trans h (Nat.zero_le _)
  | succ n ih =>
    intro M h
    match M with
    | [] => exact Nat.zero_le _
    | [a] =>
      rw [show encode_groups [a]
          = ((digits5 ((0 <<< 8 ||| a) <<< 24)).take 2).map charOfDigit from rfl]
      simp [digits5]
    | [a, b] =>
      rw [show encode_groups [a, b]
          = ((digits5 (((0 <<< 8 ||| a) <<< 8 ||| b) <<< 16)).take 3).map
              charOfDigit from rfl]
      simp [digits5]
    | [a, b, c] =>
      rw [show encode_groups [a, b, c]
          = ((digits5 ((((0 <<< 8 ||| a) <<< 8 ||| b) <<< 8 ||| c) <<< 8)).take
              4).map charOfDigit from rfl]
      simp [digits5]
    | b0 :: b1 :: b2 :: b3 :: rest =>
      rw [show encode_groups (b0 :: b1 :: b2 :: b3 :: rest)
          = (digits5 (b0 <<< 24 ||| b1 <<< 16 ||| b2 <<< 8 ||| b3)).map
              charOfDigit ++ encode_groups rest from rfl]
      have hrest : rest.length ≤ (encode_groups rest).length := by
        apply ih
        simp only [List.length_cons] at h
        omega
      simp only [List.length_append, List.length_map, List.length_cons,
        digits5, List.length_nil]
      omega

/-- The Base85 decoder inverts the Base85 encoder on byte lists. -/
theorem decode_base85_encode_base85 (data : List Nat)
    (h : ∀ x ∈ data, x < 256) :
    decode_base85 (encode_base85 data) = .ok data := by
  by_cases hnil : data = []
  · subst hnil
    rfl
  · rw [encode_base85, if_neg hnil]
    have hstep : decode_base85 ⟨'@' :: 'U' :: encode_groups (data.map mirror_byte)⟩
        = match decode_groups ((encode_groups (data.map mirror_byte)).length + 1)
            (encode_groups (data.map mirror_byte)) [] with
          | .error e => .error e
          | .ok bytes => .ok (bytes.map mirror_byte) := rfl
    rw [hstep]
    have hM : ∀ x ∈ data.map mirror_byte, x < 256 := by
      intro x hx
      rcases List.mem_map.mp hx with ⟨y, hy, hxy⟩
      subst hxy
      exact mirror_byte_lt y (h y hy)
    rw [decode_groups_encode_groups ((encode_groups (data.map mirror_byte)).length + 1)
      (data.map mirror_byte) hM
      (by
        have := encode_groups_length (data.map mirror_byte).length
          (data.map mirror_byte) (Nat.le_refl _)
        simp only [List.length_map] at this ⊢
        omega)
      []]
    simp only [List.nil_append]
    have hmm : (data.map mirror_byte).map mirror_byte = data := by
      rw [List.map_map]
      have : ∀ x ∈ data, (mirror_byte ∘ mirror_byte) x = id x := by
        intro x hx
        simp only [Function.comp_apply, id_eq]
        exact mirror_byte_invol x (h x hx)
      rw [List.map_congr_left this, List.map_id]
    rw [hmm]

/-- The trailing-run counter over a pure `Sep1` run. -/
theorem trailingSep1From_replicate :
    ∀ (p tr : Nat), trailingSep1From tr (List.replicate p Token.sep1) = tr + p := by
  intro p
  induction p with
  | zero => intro tr; rfl
  | succ p ih =>
    intro tr
    rw [List.replicate_succ, trailingSep1From_sep1, ih]
    omega

/-- Appending a `Sep1` run extends the trailing-run count by its length. -/
theorem trailingSep1From_append_replicate :
    ∀ (ts : List Token) (tr p : Nat),
      trailingSep1From tr (ts ++ List.replicate p Token.sep1)
        = trailingSep1From tr ts + p := by
  intro ts
  induction ts with
  | nil =>
    intro tr p
    rw [List.nil_append, trailingSep1From_replicate]
    rfl
  | cons t ts ih =>
    intro tr p
    cases t with
    | sep1 =>
      rw [List.cons_append, trailingSep1From_sep1, ih, trailingSep1From_sep1]
    | sep2 => exact ih 0 p
    | varInt v => exact ih 0 p
    | varBit v => exact ih 0 p
    | part q => exact ih 0 p
    | str s => exact ih 0 p

/-- Full round trip of the wire format on well-formed token lists: the
deserializer returns the serialized tokens, extended by the spurious `Sep1`
tokens of the byte fill and then truncated by the trailing-run rule, together
with the bit string of the packed bytes. -/
theorem deserialize_serialize (ts : List Token) (hwf : ∀ t ∈ ts, wfToken t) :
    deserialize (serialize ts)
      = .ok (truncate_trailing_sep1
            (ts ++ List.replicate (padSep1Count ts) Token.sep1),
          as_bit_string (bits_to_bytes (serialize_bits ts))) := by
  have hBlt : ∀ b ∈ bits_to_bytes (serialize_bits ts), b < 256 :=
    bits_to_bytes_lt (serialize_bits ts).length _ (Nat.le_refl _)
  have hdec : decode_base85 (serialize ts)
      = .ok (bits_to_bytes (serialize_bits ts)) := by
    rw [serialize]
    exact decode_base85_encode_base85 _ hBlt
  have hbits2 : bytesToBits (bits_to_bytes (serialize_bits ts))
      = magicBits ++ ((ts.map token_bits).flatten
          ++ List.replicate ((8 - (serialize_bits ts).length % 8) % 8) false) := by
    rw [bytesToBits_bits_to_bytes (serialize_bits ts).length _ (Nat.le_refl _)]
    rw [serialize_bits, List.append_assoc]
  rw [deserialize]
  simp only [hdec]
  simp only [hbits2, expectBits_append]
  have hfuel : ((ts.map token_bits).flatten).length
      + (List.replicate ((8 - (serialize_bits ts).length % 8) % 8) false).length
      ≤ ((ts.map token_bits).flatten
          ++ List.replicate ((8 - (serialize_bits ts).length % 8) % 8) false).length := by
    rw [List.length_append]
  rw [deserialize_loop_tokens ts hwf
    (List.replicate ((8 - (serialize_bits ts).length % 8) % 8) false)
    (fun b hb => List.eq_of_mem_replicate hb)
    (by rw [List.length_replicate]; omega)
    ((ts.map token_bits).flatten
      ++ List.replicate ((8 - (serialize_bits ts).length % 8) % 8) false).length
    [] 0 hfuel]
  simp only [List.nil_append, List.length_replicate]
  rw [truncate_trailing_sep1, trailingSep1Run, padSep1Count,
    trailingSep1From_append_replicate]

/-- C2 counterexample: serializing the single token `Sep2` and deserializing
the result yields the token list `[Sep2, Sep1]`, not `[Sep2]`: the zero fill
of the byte packing is read back as extra `Sep1` tokens, only partially
removed by the trailing-run truncation. -/
theorem claim_C2_counterexample :
    deserialize (serialize [Token.sep2])
      = .ok ([Token.sep2, Token.sep1],
          as_bit_string (bits_to_bytes (serialize_bits [Token.sep2])))
    ∧ ([Token.sep2, Token.sep1] : List Token) ≠ [Token.sep2] := by
  constructor
  · have hw : ∀ t ∈ ([Token.sep2] : List Token), wfToken t := by
      intro t ht
      have h := List.mem_singleton.mp ht
      subst h
      exact trivial
    rw [deserialize_serialize [Token.sep2] hw]
    rfl
  · simp

/-- C2 (amended): for every well-formed token list (VarInt payloads below
2^16, VarBit below 2^31, ASCII strings shorter than 2^16, parts with
canonical 16-bit fields), deserializing the serialized string succeeds and
returns the original tokens extended by one spurious `Sep1` per fill bit
pair and then truncated by the trailing-`Sep1` rule, together with the bit
string of the packed bytes; when the bit length needs no fill pair and the
input does not end in two or more `Sep1` tokens, the token list is returned
exactly. -/
theorem claim_C2_roundtrip (ts : List Token) (hwf : ∀ t ∈ ts, wfToken t) :
    deserialize (serialize ts)
      = .ok (truncate_trailing_sep1
            (ts ++ List.replicate (padSep1Count ts) Token.sep1),
          as_bit_string (bits_to_bytes (serialize_bits ts)))
    ∧ (padSep1Count ts = 0 → trailingSep1Run ts ≤ 1 →
        deserialize (serialize ts)
          = .ok (ts, as_bit_string (bits_to_bytes (serialize_bits ts)))) := by
  refine ⟨deserialize_serialize ts hwf, fun hp hrun => ?_⟩
  rw [deserialize_serialize ts hwf, hp]
  rw [show List.replicate 0 Token.sep1 = [] from rfl, List.append_nil]
  rw [truncate_trailing_sep1, if_neg (by omega)]

/-- C2 witness: the round trip at the concrete list `[VarInt 3]`, whose 15
content bits leave no fill pair, so the tokens come back exactly. -/
theorem claim_C2_roundtrip_witness :
    (∀ t ∈ ([Token.varInt 3] : List Token), wfToken t)
    ∧ (deserialize (serialize [Token.varInt 3])
        = .ok (truncate_trailing_sep1
              ([Token.varInt 3]
                ++ List.replicate (padSep1Count [Token.varInt 3]) Token.sep1),
            as_bit_string (bits_to_bytes (serialize_bits [Token.varInt 3])))
      ∧ (padSep1Count [Token.varInt 3] = 0
          → trailingSep1Run [Token.varInt 3] ≤ 1
          → deserialize (serialize [Token.varInt 3])
            = .ok ([Token.varInt 3],
                as_bit_string (bits_to_bytes (serialize_bits [Token.varInt 3]))))) := by
  have hw : ∀ t ∈ ([Token.varInt 3] : List Token), wfToken t := by
    intro t ht
    have h := List.mem_singleton.mp ht
    subst h
    show (3 : Nat) < 2 ^ 16
    decide
  exact ⟨hw, claim_C2_roundtrip [Token.varInt 3] hw⟩

end Bl4